import Mathlib

/-! Held-Karp subset dynamic programming
(`tsp-held-karp/src/dynamicProgramming.cpp`).

A shallow embedding of `DynamicProgramming::execute`, `initializeValues`,
`heldKarpAlgorithm` and `getPathVector`, followed by the properties of the
solver that are established about it.

Conventions of the embedding.

* Vertices and set masks are natural numbers; weights and path weights are
  integers.  The C++ `int` additions of the recurrence wrap to 32 bits
  (`wrapInt`).  The three `int` operations of the prologue of `execute`
  (`1 << (graphSize - 1)`, `- 1`, `+ 1`) are checked: where C++ leaves them
  undefined the embedding returns an `Undefined` value instead of a `Path`.
* The two tables are total functions `mask → vertex → value`; a cell outside
  the allocated block holds whatever `Indeterminate.results` / `heap` says.
* Storage that the C++ code leaves uninitialised (the rows of `predecessors`
  and the local `predecessor` of every activation of `heldKarpAlgorithm`)
  is read from an `Indeterminate` argument.
* `heldKarpAlgorithm` recurses on the mask with one bit cleared; the
  embedding makes that recursion structural with a depth budget and returns
  `none` when the budget is exhausted.
-/

namespace HeldKarp

/-- Modelled from the spec: the `GraphMatrix` class (`GraphMatrix.hpp` is not
among the sources): a vertex count, a weight for every ordered pair of
vertices, and the known optimum used by the test harness. -/
structure GraphMatrix where
  vertexCount : Nat
  weight : Nat → Nat → Int
  optimum : Int

/-- Modelled from the spec: the `Path` class (`Path.hpp` is not among the
sources): the ordered vertex sequence and its total weight, built by
`Path(resPath, res)`. -/
structure Path where
  path : List Nat
  weight : Int
deriving DecidableEq, Repr

/-- The ways in which the prologue of `execute` leaves the C++ language
semantics, plus the exhausted recursion budget of the embedding. -/
inductive Undefined where
  | shiftCount
  | signedOverflow
  | badArrayLength
  | recursionBudget
deriving DecidableEq, Repr

/-- The constant `INT_MAX` of `<climits>` for a 32-bit `int`. -/
def INT_MAX : Int := 2147483647

/-- The constant `INT_MIN` of `<climits>` for a 32-bit `int`. -/
def INT_MIN : Int := -2147483648

/-- Reduction of an integer to the 32-bit two's complement range. -/
def wrapInt (x : Int) : Int := (x + 2147483648) % 4294967296 - 2147483648

/-- The `int` expression `a << k`: undefined for a negative or too large
shift count, otherwise the product reduced to 32 bits. -/
def shiftLeftInt (a k : Int) : Except Undefined Int :=
  if k < 0 ∨ 32 ≤ k then .error .shiftCount else .ok (wrapInt (a * 2 ^ k.toNat))

/-- The `int` expression `a - b`, undefined on signed overflow. -/
def subInt (a b : Int) : Except Undefined Int :=
  if INT_MIN ≤ a - b ∧ a - b ≤ INT_MAX then .ok (a - b) else .error .signedOverflow

/-- The `int` expression `a + b`, undefined on signed overflow. -/
def addInt (a b : Int) : Except Undefined Int :=
  if INT_MIN ≤ a + b ∧ a + b ≤ INT_MAX then .ok (a + b) else .error .signedOverflow

/-- The length of a `new T[len]` expression. -/
def newLength (len : Int) : Except Undefined Nat :=
  if len < 0 then .error .badArrayLength else .ok len.toNat

/-- Contents of storage that the C++ code reads without having written it:
`results` is the memory around the `previousResults` block, `heap` the
fresh rows of `predecessors`, and `stack setMask endVertex` the local
`predecessor` of the activation `heldKarpAlgorithm(setMask, endVertex)`. -/
structure Indeterminate where
  results : Nat → Nat → Int
  heap : Nat → Nat → Nat
  stack : Nat → Nat → Nat

/-- The static fields of class `DynamicProgramming`. -/
structure DynamicProgramming where
  previousResults : Nat → Nat → Int
  predecessors : Nat → Nat → Nat
  startingVertex : Nat
  graph : GraphMatrix
  graphSize : Nat
  initialMask : Nat

/-- The loop of `DynamicProgramming::initializeValues`:
`previousResults[0][i] = graph->getWeight(startingVertex, i)` for every
`i < graphSize`. -/
def initializeValues (dp : DynamicProgramming) : DynamicProgramming :=
  { dp with
    previousResults := fun mask i =>
      if mask = 0 ∧ i < dp.graphSize then dp.graph.weight dp.startingVertex i
      else dp.previousResults mask i }

/-- One iteration of the `for (vertex ...)` loop of `heldKarpAlgorithm`;
`recur` is the recursive call and the accumulator holds the tables, the
local `predecessor` and `minPathWeight`. -/
def scanVertex (recur : DynamicProgramming → Nat → Nat → Option (Int × DynamicProgramming))
    (setMask endVertex : Nat) (acc : Option (DynamicProgramming × Nat × Int)) (vertex : Nat) :
    Option (DynamicProgramming × Nat × Int) :=
  match acc with
  | none => none
  | some (dp, predecessor, minPathWeight) =>
    let mask := 1 <<< vertex
    if setMask &&& mask = mask then
      let newSetMask := setMask ^^^ mask
      match recur dp newSetMask vertex with
      | none => none
      | some (r, dp) =>
        let pathWeight := wrapInt (r + dp.graph.weight vertex endVertex)
        if pathWeight < minPathWeight then some (dp, vertex, pathWeight)
        else some (dp, predecessor, minPathWeight)
    else some (dp, predecessor, minPathWeight)

/-- The function `DynamicProgramming::heldKarpAlgorithm(setMask, endVertex)`
with the tables passed explicitly.  The first argument is the content of
the uninitialised local `predecessor`, the second the recursion budget. -/
def heldKarpAlgorithm (stack : Nat → Nat → Nat) :
    Nat → DynamicProgramming → Nat → Nat → Option (Int × DynamicProgramming)
  | 0, _, _, _ => none
  | fuel + 1, dp, setMask, endVertex =>
    let previousResult := dp.previousResults setMask endVertex
    if previousResult ≠ -1 then some (previousResult, dp)
    else
      match (List.range (dp.graphSize - 1)).foldl
          (scanVertex (heldKarpAlgorithm stack fuel) setMask endVertex)
          (some (dp, stack setMask endVertex, INT_MAX)) with
      | none => none
      | some (dp, predecessor, minPathWeight) =>
        some (minPathWeight,
          { dp with
            predecessors := fun m v =>
              if m = setMask ∧ v = endVertex then predecessor else dp.predecessors m v
            previousResults := fun m v =>
              if m = setMask ∧ v = endVertex then minPathWeight else dp.previousResults m v })

/-- One iteration of the loop of `getPathVector`, filling `path[i]`. -/
def pathStep (predecessors : Nat → Nat → Nat) (acc : List Nat × Nat × Nat) (i : Nat) :
    List Nat × Nat × Nat :=
  let path := acc.1.set i acc.2.2
  let vertex := predecessors acc.2.1 acc.2.2
  let vertexMask := 1 <<< vertex
  (path, acc.2.1 ^^^ vertexMask, vertex)

/-- The function `DynamicProgramming::getPathVector`: the vector of
`graphSize` elements is filled from index `graphSize - 1` down to `0`.
The table is a total map here, so a read `predecessors[mask][vertex]`
outside the `initialMask + 1` allocated rows of `graphSize` cells has a
value and is not a fault.  The definition describes the code on the runs in
which every read stays inside the table, which is the case when every
predecessor that is followed was assigned by `heldKarpAlgorithm`:
`fillLog_facts` shows this for non-negative weights with path sums below
`INT_MAX`. -/
def getPathVector (predecessors : Nat → Nat → Nat) (initialMask startingVertex graphSize : Nat) :
    List Nat :=
  ((List.range graphSize).reverse.foldl (pathStep predecessors)
    (List.replicate graphSize 0, initialMask, startingVertex)).1

/-- The first part of `DynamicProgramming::execute`, up to and including the
call of `initializeValues`: the static fields are assigned, the two tables
are allocated with `initialMask + 1` rows of `graphSize` cells, every cell
of `previousResults` is set to `-1`, and the base row is written.  `prev`
holds the static fields as the previous call left them. -/
def setUp (prev : DynamicProgramming) (ind : Indeterminate) (_graph : GraphMatrix) :
    Except Undefined DynamicProgramming :=
  let dp := { prev with graph := _graph }
  let dp := { dp with graphSize := _graph.vertexCount }
  let dp := { dp with startingVertex := dp.graphSize - 1 }
  match shiftLeftInt 1 ((dp.graphSize : Int) - 1) with
  | .error e => .error e
  | .ok bit =>
    match subInt bit 1 with
    | .error e => .error e
    | .ok initialMask =>
      match addInt initialMask 1 with
      | .error e => .error e
      | .ok len =>
        match newLength len with
        | .error e => .error e
        | .ok rows =>
          let dp := { dp with initialMask := initialMask.toNat }
          let dp := { dp with
            previousResults := fun i j =>
              if i < rows ∧ j < dp.graphSize then -1 else ind.results i j
            predecessors := ind.heap }
          .ok (initializeValues dp)

/-- The function `DynamicProgramming::execute`: after `setUp`, the call
`heldKarpAlgorithm(initialMask, startingVertex)` with a recursion budget of
`graphSize` nested calls, then `getPathVector` and `Path(resPath, res)`.
The `if (VERBOSE)` block is left out: `VERBOSE` is defined as `false`, and
the block only prints.  The reconstruction is the total `getPathVector`, so
a returned `Path` describes the code on the runs in which the
reconstruction reads inside the allocated table (see `getPathVector`). -/
def execute (prev : DynamicProgramming) (ind : Indeterminate) (_graph : GraphMatrix) :
    Except Undefined Path :=
  match setUp prev ind _graph with
  | .error e => .error e
  | .ok dp =>
    match heldKarpAlgorithm ind.stack dp.graphSize dp dp.initialMask dp.startingVertex with
    | none => .error .recursionBudget
    | some (res, dp) =>
      let resPath :=
        getPathVector dp.predecessors dp.initialMask dp.startingVertex dp.graphSize
      .ok (Path.mk resPath res)

/-! ## Test graphs -/

/-- The complete graph on `n` vertices with every weight equal to `c`. -/
def constGraph (n : Nat) (c : Int) : GraphMatrix :=
  { vertexCount := n, weight := fun _ _ => c, optimum := n * c }

/-- The 4-vertex square: sides `{0,1}, {1,2}, {2,3}, {3,0}` of weight `a`,
diagonals `{0,2}, {1,3}` of weight `d`, zero self-weights. -/
def squareGraph (a d : Int) : GraphMatrix :=
  { vertexCount := 4
    weight := fun u v =>
      if u = v then 0
      else if (u + 1) % 4 = v % 4 ∨ (v + 1) % 4 = u % 4 then a else d
    optimum := 4 * a }

/-- The two-vertex graph with `w(0,1) = x` and `w(1,0) = y`. -/
def pairGraph (x y : Int) : GraphMatrix :=
  { vertexCount := 2
    weight := fun u v => if u = 0 ∧ v = 1 then x else if u = 1 ∧ v = 0 then y else 0
    optimum := x + y }

/-- Static fields before the first call. -/
def blank : DynamicProgramming :=
  { previousResults := fun _ _ => 0, predecessors := fun _ _ => 0, startingVertex := 0
    graph := constGraph 0 0, graphSize := 0, initialMask := 0 }

/-- Indeterminate storage that reads as `k` everywhere. -/
def allRead (k : Nat) : Indeterminate :=
  { results := fun _ _ => k, heap := fun _ _ => k, stack := fun _ _ => k }

/-! ## The recurrence without tables, and the quantities it is compared with -/

/-- Number of vertices `x < m` whose bit is set in `S`. -/
def card (m S : Nat) : Nat := (List.range m).countP (fun x => S.testBit x)

/-- One iteration of the minimisation loop when the value of the recursive
call is read from `val` instead of being computed on the tables. -/
def relax (val : Nat → Nat → Int) (g : GraphMatrix) (setMask endVertex : Nat)
    (acc : Nat × Int) (vertex : Nat) : Nat × Int :=
  let mask := 1 <<< vertex
  if setMask &&& mask = mask then
    let pathWeight := wrapInt (val (setMask ^^^ mask) vertex + g.weight vertex endVertex)
    if pathWeight < acc.2 then (vertex, pathWeight) else acc
  else acc

/-- The value `heldKarpAlgorithm` computes for a mask with `k` set bits,
without memoisation: the base row for `k = 0`, the minimisation loop
otherwise. -/
def recurrence (g : GraphMatrix) : Nat → Nat → Nat → Int
  | 0, _, p => g.weight (g.vertexCount - 1) p
  | k + 1, S, p =>
    ((List.range (g.vertexCount - 1)).foldl (relax (recurrence g k) g S p) (0, INT_MAX)).2

/-- The predecessor the minimisation loop leaves for a mask with `k + 1`
set bits when the local `predecessor` starts as `j`. -/
def choice (g : GraphMatrix) (j k S p : Nat) : Nat :=
  ((List.range (g.vertexCount - 1)).foldl (relax (recurrence g k) g S p) (j, INT_MAX)).1

/-- The vertices of a mask with `k` set bits in the order in which the
recorded predecessors visit them, first visited first. -/
def route (g : GraphMatrix) (j : Nat → Nat → Nat) : Nat → Nat → Nat → List Nat
  | 0, _, _ => []
  | k + 1, S, p =>
    route g j k (S ^^^ (1 <<< choice g (j S p) k S p)) (choice g (j S p) k S p)
      ++ [choice g (j S p) k S p]

/-- The loop of `getPathVector` as a recursion on the number of positions
still to fill: the last position gets `vertex`, the others come from the
predecessor. -/
def fill (predecessors : Nat → Nat → Nat) : Nat → Nat → Nat → List Nat
  | 0, _, _ => []
  | k + 1, mask, vertex =>
    fill predecessors k (mask ^^^ (1 <<< predecessors mask vertex)) (predecessors mask vertex)
      ++ [vertex]

/-- Weight of the path `s → x1 → ... → xk → p`. -/
def walkWeight (g : GraphMatrix) : Nat → List Nat → Nat → Int
  | s, [], p => g.weight s p
  | s, x :: xs, p => g.weight s x + walkWeight g x xs p

/-- Weight of the vertex sequence `v` read as a cycle:
`w(v[n-1], v[0]) + Σ_{i ≤ n-2} w(v[i], v[i+1])` with `n` the length of `v`. -/
def cycleWeight (g : GraphMatrix) (v : List Nat) : Int :=
  g.weight (v.getD (v.length - 1) 0) (v.getD 0 0)
    + ((List.range (v.length - 1)).map (fun i => g.weight (v.getD i 0) (v.getD (i + 1) 0))).sum

/-- `xs` lists the vertices of the set `S` once each. -/
def IsOrdering (S : Nat) (xs : List Nat) : Prop :=
  xs.Nodup ∧ ∀ v, v ∈ xs ↔ S.testBit v = true

/-- `val` is the least weight of a path that starts at vertex `n - 1`,
visits exactly the vertices of `S` and ends at `p`. -/
def IsShortest (g : GraphMatrix) (S p : Nat) (val : Int) : Prop :=
  (∃ xs, IsOrdering S xs ∧ walkWeight g (g.vertexCount - 1) xs p = val) ∧
    ∀ xs, IsOrdering S xs → val ≤ walkWeight g (g.vertexCount - 1) xs p

/-- Weights between distinct vertices are non-negative. -/
def NonNegative (g : GraphMatrix) : Prop :=
  ∀ u v, u < g.vertexCount → v < g.vertexCount → u ≠ v → 0 ≤ g.weight u v

/-- Weights between distinct vertices are at most `W`. -/
def BoundedBy (g : GraphMatrix) (W : Int) : Prop :=
  ∀ u v, u < g.vertexCount → v < g.vertexCount → u ≠ v → g.weight u v ≤ W

/-- The cell `(S, p)` is one the recurrence is called on: `S` is a set of
vertices other than `n - 1`, `p` is a vertex outside `S`, and the pair is
not the unused base cell `(∅, n - 1)`. -/
def Valid (n S p : Nat) : Prop :=
  S < 2 ^ (n - 1) ∧ p < n ∧ S.testBit p = false ∧ (S = 0 → p ≠ n - 1)

/-- Every path sum the recurrence forms stays below `INT_MAX`. -/
def SumsBelow (g : GraphMatrix) : Prop :=
  ∀ S xs p, Valid g.vertexCount S p → IsOrdering S xs →
    walkWeight g (g.vertexCount - 1) xs p < INT_MAX

/-- The tables agree with the recurrence on every computed cell, and the
cell a recorded predecessor leads to is computed as well. -/
structure Inv (g : GraphMatrix) (stack : Nat → Nat → Nat) (dp : DynamicProgramming) : Prop where
  graph : dp.graph = g
  size : dp.graphSize = g.vertexCount
  start : dp.startingVertex = g.vertexCount - 1
  full : dp.initialMask = 2 ^ (g.vertexCount - 1) - 1
  base : ∀ p, Valid g.vertexCount 0 p → dp.previousResults 0 p = g.weight (g.vertexCount - 1) p
  value : ∀ S p, Valid g.vertexCount S p → dp.previousResults S p ≠ -1 →
    dp.previousResults S p = recurrence g (card (g.vertexCount - 1) S) S p
  pred : ∀ S p, Valid g.vertexCount S p → dp.previousResults S p ≠ -1 → S ≠ 0 →
    dp.predecessors S p = choice g (stack S p) (card (g.vertexCount - 1) S - 1) S p ∧
    dp.previousResults (S ^^^ (1 <<< dp.predecessors S p)) (dp.predecessors S p) ≠ -1

/-- Cells that are computed in `dp` are still computed in `dp'`. -/
def Mono (dp dp' : DynamicProgramming) : Prop :=
  ∀ T q, dp.previousResults T q ≠ -1 → dp'.previousResults T q ≠ -1

/-- The mask with every vertex other than `n - 1`: the value of
`initialMask`. -/
def fullMask (g : GraphMatrix) : Nat := 2 ^ (g.vertexCount - 1) - 1

/-- The `Path` the tables determine for `g`: the route through all the
vertices other than `n - 1`, followed by `n - 1`, and the value of the
recurrence on the full mask. -/
def solution (g : GraphMatrix) : Path :=
  Path.mk
    (route g (fun _ _ => 0) (g.vertexCount - 1) (fullMask g) (g.vertexCount - 1)
      ++ [g.vertexCount - 1])
    (recurrence g (g.vertexCount - 1) (fullMask g) (g.vertexCount - 1))

/-- Exhaustive search: the least weight of a closed tour over all the
orderings of the `n` vertices. -/
def bruteForce (g : GraphMatrix) : Option Int :=
  ((List.range g.vertexCount).permutations.map (cycleWeight g)).min?

/-- The tables `execute` starts the recurrence from on the square graph
with sides `10` and diagonals `14`. -/
def squareTables : DynamicProgramming :=
  match setUp blank (allRead 7) (squareGraph 10 14) with
  | .ok dp => dp
  | .error _ => blank

/-- The scalar static fields and the graph are the same in `dp` and `dp'`. -/
def SameFields (dp dp' : DynamicProgramming) : Prop :=
  dp'.graph = dp.graph ∧ dp'.graphSize = dp.graphSize ∧
    dp'.startingVertex = dp.startingVertex ∧ dp'.initialMask = dp.initialMask

/-- A 3-vertex graph whose two closed tours both weigh exactly `INT_MAX`:
the edges into vertex `2` weigh `INT_MAX`, all others `0`. -/
def saturatedGraph : GraphMatrix :=
  { vertexCount := 3
    weight := fun u v => if v = 2 ∧ u ≠ 2 then 2147483647 else 0
    optimum := 2147483647 }

/-- The tables `setUp` produces for `1 ≤ n ≤ 31`: `2 ^ (n - 1)` rows of `n`
cells, `previousResults` all `-1` except the base row, `predecessors`
uninitialised. -/
def freshTables (ind : Indeterminate) (g : GraphMatrix) : DynamicProgramming :=
  initializeValues
    { previousResults := fun i j =>
        if i < 2 ^ (g.vertexCount - 1) ∧ j < g.vertexCount then -1 else ind.results i j
      predecessors := ind.heap
      startingVertex := g.vertexCount - 1
      graph := g
      graphSize := g.vertexCount
      initialMask := 2 ^ (g.vertexCount - 1) - 1 }

/-- Two states of the static fields that hold the same predecessors, the
same `previousResults` on the cells `Cell` and graphs with the same weights
on the pairs `Edge`. -/
structure Sim (Cell Edge : Nat → Nat → Prop) (dp dp' : DynamicProgramming) : Prop where
  size : dp'.graphSize = dp.graphSize
  start : dp'.startingVertex = dp.startingVertex
  mask : dp'.initialMask = dp.initialMask
  preds : dp'.predecessors = dp.predecessors
  results : ∀ T q, Cell T q → dp'.previousResults T q = dp.previousResults T q
  weights : ∀ x q, Edge x q → dp'.graph.weight x q = dp.graph.weight x q

/-- The cell `(S, p)` lies inside the allocated tables: `S` is a set of
vertices other than `n - 1` and `p` is a vertex. -/
def InRange (n S p : Nat) : Prop := S < 2 ^ (n - 1) ∧ p < n

/-- Every weight of the graph, self-weights included, lies in `[0, W]`. -/
def WeightsIn (g : GraphMatrix) (W : Int) : Prop :=
  ∀ u v, u < g.vertexCount → v < g.vertexCount → 0 ≤ g.weight u v ∧ g.weight u v ≤ W

/-- The plain recurrence of the specification on a set `S` of `k` vertices,
in exact integer arithmetic: `D(∅, i) = w(n-1, i)` and
`D(S, p) = min over x in S of D(S \ {x}, x) + w(x, p)`. -/
def specD (g : GraphMatrix) : Nat → Nat → Nat → Int
  | 0, _, p => g.weight (g.vertexCount - 1) p
  | k + 1, S, p =>
    ((((List.range (g.vertexCount - 1)).filter (fun x => S.testBit x)).map
      (fun x => specD g k (S ^^^ (1 <<< x)) x + g.weight x p)).min?).getD 0

/-- The plain recurrence `D(S, p)` of the specification. -/
def D (g : GraphMatrix) (S p : Nat) : Int := specD g (card (g.vertexCount - 1) S) S p

/-- The invariant of the tables over all allocated cells: a computed cell
holds the value of the recurrence and, for a non-empty mask, the
predecessor the minimisation loop chooses, whose cell is computed too. -/
structure InvAll (g : GraphMatrix) (stack : Nat → Nat → Nat) (dp : DynamicProgramming) :
    Prop where
  graph : dp.graph = g
  size : dp.graphSize = g.vertexCount
  start : dp.startingVertex = g.vertexCount - 1
  full : dp.initialMask = 2 ^ (g.vertexCount - 1) - 1
  base : ∀ p, p < g.vertexCount → dp.previousResults 0 p = g.weight (g.vertexCount - 1) p
  value : ∀ S p, InRange g.vertexCount S p → dp.previousResults S p ≠ -1 →
    dp.previousResults S p = recurrence g (card (g.vertexCount - 1) S) S p
  pred : ∀ S p, InRange g.vertexCount S p → dp.previousResults S p ≠ -1 → S ≠ 0 →
    dp.predecessors S p = choice g (stack S p) (card (g.vertexCount - 1) S - 1) S p ∧
    dp.previousResults (S ^^^ (1 <<< dp.predecessors S p)) (dp.predecessors S p) ≠ -1

/-- The set `S` holds exactly the vertices `j, j+1, ..., m-1`. -/
def Upper (m j S : Nat) : Prop := ∀ y, S.testBit y = decide (j ≤ y ∧ y < m)

/-! ## Instrumented run

The same functions with a ghost log of what they do, in program order.
Erasing the log gives back `heldKarpAlgorithm`, `getPathVector` and
`execute`. -/

/-- One recorded action of a run. `call S p`: `heldKarpAlgorithm(S, p)` is
entered and reads `previousResults[S][p]`. `loop S p`: the minimisation loop
of that call starts. `sum r w`: the addition `r + w` of a returned value and
a weight in the loop body. `store S p`: the two assignments
`predecessors[S][p] = ...` and `previousResults[S][p] = ...` at the end of
the call. `fillStep i mask vertex`: the iteration of `getPathVector` that
assigns `path[i] = vertex` and reads `predecessors[mask][vertex]`. -/
inductive Event where
  | call (setMask endVertex : Nat)
  | loop (setMask endVertex : Nat)
  | sum (value weight : Int)
  | store (setMask endVertex : Nat)
  | fillStep (i mask vertex : Nat)
deriving DecidableEq

/-- The loop body `scanVertex` with the log: the log of the recursive call
is appended, then the addition. -/
def scanVertexLogged
    (recur : DynamicProgramming → Nat → Nat → Option (Int × DynamicProgramming × List Event))
    (setMask endVertex : Nat) (acc : Option (DynamicProgramming × Nat × Int × List Event))
    (vertex : Nat) : Option (DynamicProgramming × Nat × Int × List Event) :=
  match acc with
  | none => none
  | some (dp, predecessor, minPathWeight, log) =>
    let mask := 1 <<< vertex
    if setMask &&& mask = mask then
      let newSetMask := setMask ^^^ mask
      match recur dp newSetMask vertex with
      | none => none
      | some (r, dp, inner) =>
        let pathWeight := wrapInt (r + dp.graph.weight vertex endVertex)
        let log := log ++ inner ++ [Event.sum r (dp.graph.weight vertex endVertex)]
        if pathWeight < minPathWeight then some (dp, vertex, pathWeight, log)
        else some (dp, predecessor, minPathWeight, log)
    else some (dp, predecessor, minPathWeight, log)

/-- The function `heldKarpAlgorithm` with the log. -/
def heldKarpLogged (stack : Nat → Nat → Nat) :
    Nat → DynamicProgramming → Nat → Nat → Option (Int × DynamicProgramming × List Event)
  | 0, _, _, _ => none
  | fuel + 1, dp, setMask, endVertex =>
    let previousResult := dp.previousResults setMask endVertex
    if previousResult ≠ -1 then some (previousResult, dp, [Event.call setMask endVertex])
    else
      match (List.range (dp.graphSize - 1)).foldl
          (scanVertexLogged (heldKarpLogged stack fuel) setMask endVertex)
          (some (dp, stack setMask endVertex, INT_MAX,
            [Event.call setMask endVertex, Event.loop setMask endVertex])) with
      | none => none
      | some (dp, predecessor, minPathWeight, log) =>
        some (minPathWeight,
          { dp with
            predecessors := fun m v =>
              if m = setMask ∧ v = endVertex then predecessor else dp.predecessors m v
            previousResults := fun m v =>
              if m = setMask ∧ v = endVertex then minPathWeight else dp.previousResults m v },
          log ++ [Event.store setMask endVertex])

/-- One iteration of the loop of `getPathVector` with the log. -/
def pathStepLogged (predecessors : Nat → Nat → Nat)
    (acc : (List Nat × Nat × Nat) × List Event) (i : Nat) :
    (List Nat × Nat × Nat) × List Event :=
  (pathStep predecessors acc.1 i, acc.2 ++ [Event.fillStep i acc.1.2.1 acc.1.2.2])

/-- The function `getPathVector` with the log. -/
def getPathVectorLogged (predecessors : Nat → Nat → Nat)
    (initialMask startingVertex graphSize : Nat) : List Nat × List Event :=
  (((List.range graphSize).reverse.foldl (pathStepLogged predecessors)
      ((List.replicate graphSize 0, initialMask, startingVertex), [])).1.1,
    ((List.range graphSize).reverse.foldl (pathStepLogged predecessors)
      ((List.replicate graphSize 0, initialMask, startingVertex), [])).2)

/-- The function `execute` with the log of the recurrence followed by the
log of the reconstruction. -/
def executeLogged (prev : DynamicProgramming) (ind : Indeterminate) (_graph : GraphMatrix) :
    Except Undefined (Path × List Event) :=
  match setUp prev ind _graph with
  | .error e => .error e
  | .ok dp =>
    match heldKarpLogged ind.stack dp.graphSize dp dp.initialMask dp.startingVertex with
    | none => .error .recursionBudget
    | some (res, dp, log) =>
      let out :=
        getPathVectorLogged dp.predecessors dp.initialMask dp.startingVertex dp.graphSize
      .ok (Path.mk out.1 res, log ++ out.2)

/-- The log of the loop of `getPathVector` as a recursion on the number of
positions still to fill. -/
def fillLog (predecessors : Nat → Nat → Nat) : Nat → Nat → Nat → List Event
  | 0, _, _ => []
  | k + 1, mask, vertex =>
    Event.fillStep k mask vertex ::
      fillLog predecessors k (mask ^^^ (1 <<< predecessors mask vertex))
        (predecessors mask vertex)

/-- The pair `(S, p)` is a cell of the allocated tables whose mask does not
hold `p`: `S < 2 ^ (n - 1)`, so the vertex `n - 1` is not in `S` either. -/
def Cell (n S p : Nat) : Prop := S < 2 ^ (n - 1) ∧ p < n ∧ S.testBit p = false

/-- What the log of a run of the recurrence from the tables `dp` to the
tables `dp'` satisfies: each cell is entered by the loop and stored at most
once, only valid cells below the mask `B` that were not computed before,
which are computed afterwards; the other cells are left as they were; and
every sum is the weight of a path over an ordering of a mask. -/
def LogFacts (g : GraphMatrix) (dp dp' : DynamicProgramming) (B : Nat) (log : List Event) :
    Prop :=
  (∀ T q e, e = Event.store T q ∨ e = Event.loop T q →
    log.count e ≤ 1 ∧
    (e ∈ log → T < B ∧ Valid g.vertexCount T q ∧
      dp.previousResults T q = -1 ∧ dp'.previousResults T q ≠ -1)) ∧
  (∀ T q, Event.store T q ∉ log →
    dp'.previousResults T q = dp.previousResults T q ∧
    dp'.predecessors T q = dp.predecessors T q) ∧
  (∀ r w, Event.sum r w ∈ log → ∃ T q xs, Valid g.vertexCount T q ∧ IsOrdering T xs ∧
    r + w = walkWeight g (g.vertexCount - 1) xs q)

/-- The event is one the recurrence records, and the table cell a `call`,
`loop` or `store` event names satisfies `Cell n`. -/
def AccessOk (n : Nat) : Event → Prop
  | .call S p => Cell n S p
  | .loop S p => Cell n S p
  | .store S p => Cell n S p
  | .sum _ _ => True
  | .fillStep _ _ _ => False

end HeldKarp

/-! Report writer (`tsp-branch-and-bound/src/FileUtils.cpp`). -/

namespace FileUtils

/-- The `long unsigned int` expression `a - b` for operands below `2 ^ 64`:
the difference wraps when `a < b`. -/
def subSize (a b : Nat) : Nat :=
  if b ≤ a then a - b else a + 18446744073709551616 - b

/-- The `for` loop of `FileUtils::pathToStr` from index `i` on, `rest` being
the elements of `path` from index `i`: while `i <= bound`, `path[i]` is read
and `std::to_string(path[i]) + "->"` is appended to `res`.  Reading past
the end of the vector is undefined and gives `none`. -/
def pathToStrLoop (bound : Nat) : List Int → Nat → String → Option String
  | [], i, res => if i ≤ bound then none else some res
  | v :: rest, i, res =>
    if i ≤ bound then pathToStrLoop bound rest (i + 1) (res ++ (toString v ++ "->"))
    else some res

/-- The function `FileUtils::pathToStr`: the loop up to index
`path.size() - 2`, then `std::to_string(path[path.size() - 1])`. -/
def pathToStr (path : List Int) : Option String :=
  match pathToStrLoop (subSize path.length 2) path 0 "" with
  | none => none
  | some res =>
    match path[subSize path.length 1]? with
    | none => none
    | some v => some (res ++ toString v)

end FileUtils

/-! Genetic algorithm driver (`tsp-genetic-algorithm/GA_TSP_Serial_Random.c`). -/

namespace GeneticAlgorithm

/-- The library function `strcmp` on NUL-terminated strings, as far as the
code uses it: the result is `0` exactly when the two strings are equal. -/
def strcmp (a b : List Char) : Int := if a = b then 0 else 1

/-- The function `is_valid_instance_file`: `ext` is the string that starts
four characters before the end of `filename`. -/
def is_valid_instance_file (filename : List Char) : Int :=
  let len := filename.length
  if len < 4 then 0
  else
    let ext := filename.drop (len - 4)
    if strcmp ext ".tsp".toList = 0 ∨ strcmp ext ".atsp".toList = 0 ∨
        strcmp ext ".txt".toList = 0 then 1
    else 0

end GeneticAlgorithm

namespace GeneticAlgorithm

/-- The struct `Chromosome`: the gene array `genes` points to and the
`fitness`; `F` is the type of the fitness values, a total order (a `float`
that is not NaN). -/
structure Chromosome (F : Type) where
  genes : List Int
  fitness : F

/-- The function `swap_chromosomes(pop, src, dest)`; the array `pop` is read
as a map from indices to chromosomes. -/
def swap_chromosomes {F : Type} (pop : Nat → Chromosome F) (src dest : Nat) :
    Nat → Chromosome F :=
  let chrom := pop src
  let pop := Function.update pop src (pop dest)
  Function.update pop dest chrom

/-- The inner loop of `sort_population` for a fixed `i`:
`for (j = i+1; j < popl_size; j++) if (population[i].fitness <
population[j].fitness) swap_chromosomes(population, i, j)`. -/
def sortInner {F : Type} [LinearOrder F] (popl_size i : Nat) (population : Nat → Chromosome F) :
    Nat → Chromosome F :=
  (List.range' (i + 1) (popl_size - (i + 1))).foldl
    (fun pop j => if (pop i).fitness < (pop j).fitness then swap_chromosomes pop i j else pop)
    population

/-- The function `sort_population(population)` with the global `popl_size`
passed explicitly. -/
def sort_population {F : Type} [LinearOrder F] (popl_size : Nat)
    (population : Nat → Chromosome F) : Nat → Chromosome F :=
  (List.range popl_size).foldl (fun pop i => sortInner popl_size i pop) population

end GeneticAlgorithm


namespace GeneticAlgorithm

/-! ## Crossover, selection, mutation and fitness

The globals `chromo_length`, `popl_size` and `dist_matrix` are passed
explicitly. The values `rand()` returns are a stream `rand : Nat → Nat`
read at a counter that each call advances. A gene array is the list of its
elements; every chromosome owns its array (the code only ever swaps whole
structs or allocates a fresh array), so writing through one chromosome does
not change another. -/

/-- Why a run has no defined result: an `int` product beyond `INT_MAX`, a
`%` by zero, a read of a gene array past its end, or a `while` loop that has
not ended within the budget of iterations given to it. -/
inductive Fault where
  | signedOverflow
  | divisionByZero
  | outOfBounds
  | loopBudget
deriving DecidableEq

/-- The largest value of the type `int`. -/
def INT_MAX : Nat := 2147483647

/-- The `int` product of two non-negative values. -/
def mulInt (a b : Nat) : Except Fault Nat :=
  if a * b ≤ INT_MAX then .ok (a * b) else .error .signedOverflow

/-- The `int` remainder `a % b` of two non-negative values. -/
def modInt (a b : Nat) : Except Fault Nat :=
  if b = 0 then .error .divisionByZero else .ok (a % b)

/-- The function `getRandomNumber`: `rand() % chromo_length`, with `r` the
value `rand()` returns. -/
def getRandomNumber (chromo_length r : Nat) : Except Fault Nat :=
  modInt r chromo_length

/-- The function `calculate_fitness` in exact arithmetic; `dist_matrix` is
read as a map from index pairs to distances. After the loop `i` is
`chromo_length - 1`, and the last edge added is
`dist_matrix[genes[i] - 1][0]`. -/
def calculate_fitness (chromo_length : Nat) (dist_matrix : Int → Int → Rat)
    (ptr_chromosome : Chromosome Rat) : Chromosome Rat :=
  let fitness := (List.range (chromo_length - 1)).foldl
    (fun fitness i => fitness +
      dist_matrix (ptr_chromosome.genes.getD i 0 - 1) (ptr_chromosome.genes.getD (i + 1) 0 - 1))
    0
  let i := chromo_length - 1
  let fitness := fitness + dist_matrix (ptr_chromosome.genes.getD i 0 - 1) 0
  let fitness := 10000 / fitness
  { ptr_chromosome with fitness := fitness }

/-- The function `calculate_actual_distance` in exact arithmetic. -/
def calculate_actual_distance (chromo_length : Nat) (dist_matrix : Int → Int → Rat)
    (chrom : Chromosome Rat) : Rat :=
  let total_distance := (List.range (chromo_length - 1)).foldl
    (fun total_distance i => total_distance +
      dist_matrix (chrom.genes.getD i 0 - 1) (chrom.genes.getD (i + 1) 0 - 1))
    0
  total_distance +
    dist_matrix (chrom.genes.getD (chromo_length - 1) 0 - 1) (chrom.genes.getD 0 0 - 1)

/-- The function `percentage_of_difference` in exact arithmetic: the loop
reads `genes[i]` of both chromosomes for every `i < chromo_length`. -/
def percentage_of_difference {F : Type} (chromo_length : Nat) (chro1 chro2 : Chromosome F) :
    Except Fault Rat :=
  if chro1.genes.length < chromo_length ∨ chro2.genes.length < chromo_length then
    .error .outOfBounds
  else
    let sum := (List.range chromo_length).foldl
      (fun (sum : Rat) i => if chro1.genes.getD i 0 ≠ chro2.genes.getD i 0 then sum + 1 else sum)
      0
    .ok ((sum * 100) / chromo_length)

/-- The function `if_exist(chrom, x)` on the gene array of `chrom`, which
has `chromo_length` elements. -/
def if_exist (chromo_length : Nat) (genes : List Int) (x : Int) : Int :=
  if (List.range chromo_length).any (fun i => decide (x = genes.getD i 0)) then 1 else 0

/-- The loop `for (i = n; i < n + (chromo_length * 30) / 100; i++)` of
`create_ChildV2` over the values `i` takes: `z = i % chromo_length;
Chro->genes[z] = p.genes[z]`. The state is the gene array of the child and
`z`. -/
def copyLoop (chromo_length : Nat) (p : List Int) :
    List Nat → List Int × Nat → Except Fault (List Int × Nat)
  | [], acc => .ok acc
  | i :: rest, acc =>
    let z := i % chromo_length
    match p[z]? with
    | none => .error .outOfBounds
    | some x => copyLoop chromo_length p rest (acc.1.set z x, z)

/-- The loop `while (if_exist(Chro, m.genes[c]) == 1) c++;` of
`create_ChildV2`; the list is the part of `m.genes` from index `c` on, and
the result is the value of `c` when the loop ends. -/
def skipLoop (chromo_length : Nat) (genes : List Int) : List Int → Nat → Except Fault Nat
  | [], _ => .error .outOfBounds
  | x :: rest, c =>
    if if_exist chromo_length genes x = 1 then skipLoop chromo_length genes rest (c + 1)
    else .ok c

/-- The loop `while (i != z)` of `create_ChildV2` with a budget of
iterations; `m` is the gene array of the second parent, `genes` that of the
child. -/
def fillLoop (chromo_length : Nat) (m : List Int) (z : Nat) :
    Nat → List Int → Nat → Nat → Except Fault (List Int)
  | 0, genes, _, i => if i ≠ z then .error .loopBudget else .ok genes
  | fuel + 1, genes, c, i =>
    if i ≠ z then
      let c := c % chromo_length
      match m[c]? with
      | none => .error .outOfBounds
      | some x =>
        if if_exist chromo_length genes x ≠ 1 then
          fillLoop chromo_length m z fuel (genes.set i x) (c + 1) ((i + 1) % chromo_length)
        else if genes.getD i 0 = 0 then
          match skipLoop chromo_length genes (m.drop c) c with
          | .error e => .error e
          | .ok c =>
            match m[c]? with
            | none => .error .outOfBounds
            | some y =>
              fillLoop chromo_length m z fuel (genes.set i y) (c + 1) ((i + 1) % chromo_length)
        else fillLoop chromo_length m z fuel genes (c + 1) ((i + 1) % chromo_length)
    else .ok genes

/-- The function `create_ChildV2(p, m, Chro)`; `r` is the value `rand()`
returns and `fuel` the budget of the loop `while (i != z)`. The result is
the chromosome `*Chro` afterwards: its `fitness` is left as it was. -/
def create_ChildV2 {F : Type} (chromo_length fuel r : Nat) (p m Chro : Chromosome F) :
    Except Fault (Chromosome F) :=
  match getRandomNumber chromo_length r with
  | .error e => .error e
  | .ok g =>
    let z := 1
    let n := g % chromo_length
    let genes := List.replicate chromo_length (0 : Int)
    match mulInt chromo_length 30 with
    | .error e => .error e
    | .ok prod =>
      match copyLoop chromo_length p.genes (List.range' n (prod / 100)) (genes, z) with
      | .error e => .error e
      | .ok (genes, z) =>
        let c := 0
        let i := (z + 1) % chromo_length
        match fillLoop chromo_length m.genes z fuel genes c i with
        | .error e => .error e
        | .ok genes => .ok { Chro with genes := genes }

/-- The function `selection`: the state is the global array `population`
and the counter of `rand()` calls. The product `10 * popl_size` is at most
`40 * popl_size`, and the loop body runs only for `popl_size ≥ 10`, where
both divisors are positive. -/
def selection {F : Type} (popl_size : Nat) (rand : Nat → Nat) (k : Nat)
    (population : Nat → Chromosome F) : Except Fault ((Nat → Chromosome F) × Nat) :=
  match mulInt 40 popl_size with
  | .error e => .error e
  | .ok prod =>
    let n := prod / 100
    .ok ((List.range ((10 * popl_size) / 100)).foldl
      (fun st i =>
        let randNb := popl_size / 2 + (rand st.2 % popl_size) % (popl_size / 2)
        (swap_chromosomes st.1 (n + i) randNb, st.2 + 1))
      (population, k))

/-- The loop `do { nb = getRandomNumber() % (popl_size / 2); } while (nb ==
i && percentage_of_difference(pop[i], pop[nb]) < 70)` of `crossoverV2` with
a budget of iterations; the result is `nb` and the counter of `rand()`
calls. The divisor `popl_size / 2` is positive because `i < popl_size / 2`. -/
def drawPartner {F : Type} (chromo_length popl_size : Nat) (rand : Nat → Nat)
    (pop : Nat → Chromosome F) (i : Nat) : Nat → Nat → Except Fault (Nat × Nat)
  | 0, _ => .error .loopBudget
  | fuel + 1, k =>
    match getRandomNumber chromo_length (rand k) with
    | .error e => .error e
    | .ok g =>
      let nb := g % (popl_size / 2)
      if nb = i then
        match percentage_of_difference chromo_length (pop i) (pop nb) with
        | .error e => .error e
        | .ok d =>
          if d < 70 then drawPartner chromo_length popl_size rand pop i fuel (k + 1)
          else .ok (nb, k + 1)
      else .ok (nb, k + 1)

/-- The loop `for (i = 0; i < popl_size / 2; i++)` of `crossoverV2` over the
values `i` takes. -/
def crossoverLoop {F : Type} (chromo_length popl_size fuel : Nat) (rand : Nat → Nat) :
    List Nat → (Nat → Chromosome F) × Nat → Except Fault ((Nat → Chromosome F) × Nat)
  | [], st => .ok st
  | i :: rest, st =>
    match drawPartner chromo_length popl_size rand st.1 i fuel st.2 with
    | .error e => .error e
    | .ok (nb, k) =>
      match create_ChildV2 chromo_length fuel (rand k) (st.1 i) (st.1 nb)
          (st.1 (popl_size / 2 + i)) with
      | .error e => .error e
      | .ok child =>
        crossoverLoop chromo_length popl_size fuel rand rest
          (Function.update st.1 (popl_size / 2 + i) child, k + 1)

/-- The function `crossoverV2`; `fuel` is the budget of each `while` loop. -/
def crossoverV2 {F : Type} (chromo_length popl_size fuel : Nat) (rand : Nat → Nat) (k : Nat)
    (pop : Nat → Chromosome F) : Except Fault ((Nat → Chromosome F) × Nat) :=
  crossoverLoop chromo_length popl_size fuel rand (List.range (popl_size / 2)) (pop, k)

/-- One iteration of the loop of `mutation`: three calls of
`getRandomNumber`, then the two genes `i` and `j` of the chromosome
`20 * popl_size / 100 + k` are exchanged. -/
def mutationStep {F : Type} (chromo_length popl_size : Nat) (rand : Nat → Nat)
    (st : (Nat → Chromosome F) × Nat) : Except Fault ((Nat → Chromosome F) × Nat) :=
  match getRandomNumber chromo_length (rand st.2) with
  | .error e => .error e
  | .ok g1 =>
    let i := g1 % chromo_length
    match getRandomNumber chromo_length (rand (st.2 + 1)) with
    | .error e => .error e
    | .ok g2 =>
      let j := g2 % chromo_length
      match getRandomNumber chromo_length (rand (st.2 + 2)) with
      | .error e => .error e
      | .ok g3 =>
        match mulInt 20 popl_size with
        | .error e => .error e
        | .ok prod =>
          match modInt g3 (popl_size - prod / 100) with
          | .error e => .error e
          | .ok k =>
            let genes := (st.1 (prod / 100 + k)).genes
            match genes[j]? with
            | none => .error .outOfBounds
            | some temp =>
              match genes[i]? with
              | none => .error .outOfBounds
              | some gi =>
                .ok (Function.update st.1 (prod / 100 + k)
                  { st.1 (prod / 100 + k) with genes := (genes.set j gi).set i temp }, st.2 + 3)

/-- The loop `for (z = 0; z < 5; z++)` of `mutation`, by the number of
iterations still to run. -/
def mutationLoop {F : Type} (chromo_length popl_size : Nat) (rand : Nat → Nat) :
    Nat → (Nat → Chromosome F) × Nat → Except Fault ((Nat → Chromosome F) × Nat)
  | 0, st => .ok st
  | z + 1, st =>
    match mutationStep chromo_length popl_size rand st with
    | .error e => .error e
    | .ok st => mutationLoop chromo_length popl_size rand z st

/-- The function `mutation`. -/
def mutation {F : Type} (chromo_length popl_size : Nat) (rand : Nat → Nat) (k : Nat)
    (pop : Nat → Chromosome F) : Except Fault ((Nat → Chromosome F) × Nat) :=
  mutationLoop chromo_length popl_size rand 5 (pop, k)

end GeneticAlgorithm


namespace GeneticAlgorithm

/-- A symmetric distance matrix on three cities: `1` between the cities 1
and 2, `2` between 1 and 3, `4` between 2 and 3, `0` on the diagonal. -/
def triangleMatrix : Int → Int → Rat := fun i j =>
  if (i = 0 ∧ j = 1) ∨ (i = 1 ∧ j = 0) then 1
  else if (i = 0 ∧ j = 2) ∨ (i = 2 ∧ j = 0) then 2
  else if (i = 1 ∧ j = 2) ∨ (i = 2 ∧ j = 1) then 4
  else 0

/-- The tour `2 → 1 → 3` over three cities, with fitness not yet computed. -/
def tourFromTwo : Chromosome Rat := { genes := [2, 1, 3], fitness := 0 }

end GeneticAlgorithm


namespace GeneticAlgorithm

/-- The gene array is a permutation of the cities `1, ..., chromo_length`. -/
def IsTour (chromo_length : Nat) (genes : List Int) : Prop :=
  genes.Perm ((List.range chromo_length).map (fun (i : Nat) => (i : Int) + 1))

end GeneticAlgorithm


namespace GeneticAlgorithm

/-- The chromosome with the given genes and fitness `0`. -/
def chromosomeOf (genes : List Int) : Chromosome Rat := { genes := genes, fitness := 0 }

/-- The tour `1, 2, ..., chromo_length`. -/
def identityTour (chromo_length : Nat) : Chromosome Rat :=
  chromosomeOf ((List.range chromo_length).map (fun (i : Nat) => (i : Int) + 1))

end GeneticAlgorithm


namespace GeneticAlgorithm

/-- A stream of `rand()` values: the `t`-th call returns `t`. -/
def countingRand : Nat → Nat := fun t => t

/-- A population whose every chromosome is the tour `1, 2, 3, 4`. -/
def uniformPopulation : Nat → Chromosome Rat := fun _ => identityTour 4

end GeneticAlgorithm


namespace HeldKarp

/-! ## Bit masks -/

theorem and_bit_iff (S x : Nat) : S &&& (1 <<< x) = 1 <<< x ↔ S.testBit x = true := by
  rw [Nat.one_shiftLeft, Nat.and_two_pow]
  cases h : S.testBit x <;> simp
  exact (Nat.two_pow_pos x).ne

theorem testBit_drop (S x y : Nat) :
    (S ^^^ (1 <<< x)).testBit y = (S.testBit y ^^ decide (x = y)) := by
  rw [Nat.one_shiftLeft, Nat.testBit_xor, Nat.testBit_two_pow]

theorem drop_lt {S x : Nat} (h : S.testBit x = true) : S ^^^ (1 <<< x) < S := by
  refine Nat.lt_of_testBit x ?_ h ?_
  · rw [testBit_drop]
    simp [h]
  · intro j hj
    have : ¬ x = j := by omega
    rw [testBit_drop]
    simp [this]

theorem testBit_lt {S m x : Nat} (hS : S < 2 ^ m) (h : S.testBit x = true) : x < m := by
  by_contra hx
  have h1 : S < 2 ^ x := lt_of_lt_of_le hS (Nat.pow_le_pow_right (by norm_num) (by omega))
  rw [Nat.testBit_lt_two_pow h1] at h
  cases h

theorem drop_lt_pow {S m x : Nat} (hS : S < 2 ^ m) (h : S.testBit x = true) :
    S ^^^ (1 <<< x) < 2 ^ m :=
  lt_trans (drop_lt h) hS

theorem card_succ (m S : Nat) :
    card (m + 1) S = card m S + (if S.testBit m = true then 1 else 0) := by
  unfold card
  rw [List.range_succ, List.countP_append]
  simp [List.countP_cons]

theorem card_congr {m S T : Nat} (h : ∀ x, x < m → S.testBit x = T.testBit x) :
    card m S = card m T := by
  unfold card
  apply List.countP_congr
  intro x hx
  rw [h x (List.mem_range.1 hx)]

theorem card_drop {m S x : Nat} (hx : x < m) (h : S.testBit x = true) :
    card m (S ^^^ (1 <<< x)) + 1 = card m S := by
  induction m with
  | zero => omega
  | succ m ih =>
    rw [card_succ, card_succ]
    by_cases hxm : x = m
    · subst hxm
      have hc : card x (S ^^^ (1 <<< x)) = card x S := by
        apply card_congr
        intro y hy
        have : ¬ x = y := by omega
        rw [testBit_drop]
        simp [this]
      rw [hc, testBit_drop]
      simp [h]
    · have hlt : x < m := by omega
      have := ih hlt
      rw [testBit_drop]
      simp only [hxm, decide_False, Bool.xor_false]
      omega

theorem card_eq_zero {m S : Nat} (hS : S < 2 ^ m) (h : card m S = 0) : S = 0 := by
  apply Nat.eq_of_testBit_eq
  intro i
  rw [Nat.zero_testBit]
  by_cases hi : i < m
  · unfold card at h
    rw [List.countP_eq_zero] at h
    have := h i (List.mem_range.2 hi)
    simpa using this
  · exact Nat.testBit_lt_two_pow
      (lt_of_lt_of_le hS (Nat.pow_le_pow_right (by norm_num) (by omega)))

theorem card_zero (m : Nat) : card m 0 = 0 := by
  unfold card
  rw [List.countP_eq_zero]
  intro x _
  simp

theorem card_full (m : Nat) : card m (2 ^ m - 1) = m := by
  unfold card
  have : List.countP (fun x => (2 ^ m - 1).testBit x) (List.range m) = (List.range m).length := by
    rw [List.countP_eq_length]
    intro x hx
    simp [Nat.testBit_two_pow_sub_one, List.mem_range.1 hx]
  simpa using this

theorem card_le (m S : Nat) : card m S ≤ m := by
  unfold card
  simpa using List.countP_le_length (fun x => S.testBit x) (l := List.range m)

end HeldKarp

namespace HeldKarp

/-! ## The minimisation loop -/

theorem wrapInt_eq {x : Int} (h0 : 0 ≤ x) (h1 : x < INT_MAX) : wrapInt x = x := by
  unfold wrapInt
  unfold INT_MAX at h1
  omega

/-- What the loop leaves after scanning `vs` from `(j, m)`: a lower bound of
all candidates, and either the untouched start or a candidate that is
strictly better than `m`. -/
theorem relax_foldl (val : Nat → Nat → Int) (g : GraphMatrix) (S p : Nat) (vs : List Nat) :
    ∀ (j : Nat) (m : Int),
      (∀ x ∈ vs, S.testBit x = true →
        (vs.foldl (relax val g S p) (j, m)).2
          ≤ wrapInt (val (S ^^^ (1 <<< x)) x + g.weight x p)) ∧
      (vs.foldl (relax val g S p) (j, m)).2 ≤ m ∧
      (vs.foldl (relax val g S p) (j, m) = (j, m) ∨
        ((vs.foldl (relax val g S p) (j, m)).1 ∈ vs ∧
          S.testBit (vs.foldl (relax val g S p) (j, m)).1 = true ∧
          (vs.foldl (relax val g S p) (j, m)).2
            = wrapInt (val (S ^^^ (1 <<< (vs.foldl (relax val g S p) (j, m)).1))
                (vs.foldl (relax val g S p) (j, m)).1
                + g.weight (vs.foldl (relax val g S p) (j, m)).1 p) ∧
          (vs.foldl (relax val g S p) (j, m)).2 < m)) := by
  induction vs with
  | nil => intro j m; simp
  | cons x vs ih =>
    intro j m
    rw [List.foldl_cons]
    by_cases hb : S &&& (1 <<< x) = 1 <<< x
    · have hx : S.testBit x = true := (and_bit_iff S x).1 hb
      by_cases hc : wrapInt (val (S ^^^ (1 <<< x)) x + g.weight x p) < m
      · have hr : relax val g S p (j, m) x
            = (x, wrapInt (val (S ^^^ (1 <<< x)) x + g.weight x p)) := by
          simp [relax, hb, hc]
        rw [hr]
        obtain ⟨h1, h2, h3⟩ := ih x (wrapInt (val (S ^^^ (1 <<< x)) x + g.weight x p))
        refine ⟨?_, le_trans h2 (le_of_lt hc), Or.inr ?_⟩
        · intro y hy hyb
          rcases List.mem_cons.1 hy with rfl | hy
          · exact h2
          · exact h1 y hy hyb
        · rcases h3 with h3 | ⟨h3, h4, h5, h6⟩
          · rw [h3]
            exact ⟨List.mem_cons_self _ _, hx, rfl, hc⟩
          · exact ⟨List.mem_cons_of_mem _ h3, h4, h5, lt_trans h6 hc⟩
      · have hr : relax val g S p (j, m) x = (j, m) := by
          simp [relax, hb, hc]
        rw [hr]
        obtain ⟨h1, h2, h3⟩ := ih j m
        refine ⟨?_, h2, ?_⟩
        · intro y hy hyb
          rcases List.mem_cons.1 hy with rfl | hy
          · exact le_trans h2 (not_lt.1 hc)
          · exact h1 y hy hyb
        · rcases h3 with h3 | ⟨h3, h4, h5, h6⟩
          · exact Or.inl h3
          · exact Or.inr ⟨List.mem_cons_of_mem _ h3, h4, h5, h6⟩
    · have hx : ¬ S.testBit x = true := fun h => hb ((and_bit_iff S x).2 h)
      have hr : relax val g S p (j, m) x = (j, m) := by
        simp [relax, hb]
      rw [hr]
      obtain ⟨h1, h2, h3⟩ := ih j m
      refine ⟨?_, h2, ?_⟩
      · intro y hy hyb
        rcases List.mem_cons.1 hy with rfl | hy
        · exact absurd hyb hx
        · exact h1 y hy hyb
      · rcases h3 with h3 | ⟨h3, h4, h5, h6⟩
        · exact Or.inl h3
        · exact Or.inr ⟨List.mem_cons_of_mem _ h3, h4, h5, h6⟩

/-- The start value of the local `predecessor` matters only while no
candidate has been accepted. -/
theorem relax_foldl_start (val : Nat → Nat → Int) (g : GraphMatrix) (S p : Nat) (vs : List Nat) :
    ∀ (j j' : Nat) (m : Int),
      (vs.foldl (relax val g S p) (j, m)).2 = (vs.foldl (relax val g S p) (j', m)).2 ∧
      ((vs.foldl (relax val g S p) (j, m)).2 < m →
        (vs.foldl (relax val g S p) (j, m)).1 = (vs.foldl (relax val g S p) (j', m)).1) := by
  induction vs with
  | nil => intro j j' m; simp
  | cons x vs ih =>
    intro j j' m
    rw [List.foldl_cons, List.foldl_cons]
    by_cases hb : S &&& (1 <<< x) = 1 <<< x
    · by_cases hc : wrapInt (val (S ^^^ (1 <<< x)) x + g.weight x p) < m
      · have hr : ∀ i, relax val g S p (i, m) x
            = (x, wrapInt (val (S ^^^ (1 <<< x)) x + g.weight x p)) := by
          intro i; simp [relax, hb, hc]
        rw [hr j, hr j']
        exact ⟨rfl, fun _ => rfl⟩
      · have hr : ∀ i, relax val g S p (i, m) x = (i, m) := by
          intro i; simp [relax, hb, hc]
        rw [hr j, hr j']
        exact ih j j' m
    · have hr : ∀ i, relax val g S p (i, m) x = (i, m) := by
        intro i; simp [relax, hb]
      rw [hr j, hr j']
      exact ih j j' m

end HeldKarp

namespace HeldKarp

/-! ## Paths and orderings -/

theorem walkWeight_concat (g : GraphMatrix) (xs : List Nat) :
    ∀ s c p, walkWeight g s (xs ++ [c]) p = walkWeight g s xs c + g.weight c p := by
  induction xs with
  | nil => intro s c p; simp [walkWeight]
  | cons x xs ih =>
    intro s c p
    have h := ih x c p
    rw [List.cons_append]
    simp only [walkWeight]
    rw [h]
    ring

theorem walkWeight_nonneg {g : GraphMatrix} (hpos : NonNegative g) (xs : List Nat) :
    ∀ s p, s < g.vertexCount → p < g.vertexCount → (∀ x ∈ xs, x < g.vertexCount) →
      xs.Nodup → s ∉ xs → p ∉ xs → (xs = [] → p ≠ s) → 0 ≤ walkWeight g s xs p := by
  induction xs with
  | nil =>
    intro s p hs hp _ _ _ _ hne
    exact hpos s p hs hp (fun h => hne rfl h.symm)
  | cons x xs ih =>
    intro s p hs hp hall hnd hsx hpx _
    have hx : x < g.vertexCount := hall x (List.mem_cons_self _ _)
    have h1 : 0 ≤ g.weight s x :=
      hpos s x hs hx (fun h => hsx (h ▸ List.mem_cons_self _ _))
    have h2 : 0 ≤ walkWeight g x xs p := by
      refine ih x p hx hp (fun y hy => hall y (List.mem_cons_of_mem _ hy))
        (List.nodup_cons.1 hnd).2 (List.nodup_cons.1 hnd).1
        (fun h => hpx (List.mem_cons_of_mem _ h)) ?_
      intro _ h
      exact hpx (h ▸ List.mem_cons_self _ _)
    simp only [walkWeight]
    omega

theorem ordering_lt {n S p : Nat} {xs : List Nat} (hv : Valid n S p) (ho : IsOrdering S xs) :
    ∀ x ∈ xs, x < n - 1 :=
  fun x hx => testBit_lt hv.1 ((ho.2 x).1 hx)

theorem ordering_nil {S : Nat} (ho : IsOrdering S []) : S = 0 := by
  apply Nat.eq_of_testBit_eq
  intro i
  rw [Nat.zero_testBit]
  cases h : S.testBit i
  · rfl
  · exact absurd ((ho.2 i).2 h) (List.not_mem_nil i)

theorem ordering_nonneg {g : GraphMatrix} (hpos : NonNegative g) {S p : Nat} {xs : List Nat}
    (hv : Valid g.vertexCount S p) (ho : IsOrdering S xs) :
    0 ≤ walkWeight g (g.vertexCount - 1) xs p := by
  have hp := hv.2.1
  refine walkWeight_nonneg hpos xs _ p (by omega) hp ?_ ho.1 ?_ ?_ ?_
  · intro x hx
    have := ordering_lt hv ho x hx
    omega
  · intro h
    have := ordering_lt hv ho _ h
    omega
  · intro h
    have := (ho.2 p).1 h
    rw [hv.2.2.1] at this
    cases this
  · intro h
    subst h
    exact hv.2.2.2 (ordering_nil ho)

theorem ordering_concat {S c : Nat} {xs : List Nat} (hc : S.testBit c = true)
    (ho : IsOrdering (S ^^^ (1 <<< c)) xs) : IsOrdering S (xs ++ [c]) := by
  constructor
  · rw [List.nodup_append]
    refine ⟨ho.1, List.nodup_singleton c, ?_⟩
    intro a ha hb
    rw [List.mem_singleton] at hb
    subst hb
    have := (ho.2 a).1 ha
    rw [testBit_drop] at this
    simp [hc] at this
  · intro v
    rw [List.mem_append, List.mem_singleton, ho.2 v, testBit_drop]
    by_cases hvc : v = c
    · subst hvc
      simp [hc]
    · have : ¬ c = v := fun h => hvc h.symm
      simp [hvc, this]

theorem valid_drop {n S p x : Nat} (hv : Valid n S p) (hx : S.testBit x = true) :
    Valid n (S ^^^ (1 <<< x)) x := by
  have hlt := testBit_lt hv.1 hx
  refine ⟨drop_lt_pow hv.1 hx, by omega, ?_, fun _ => by omega⟩
  rw [testBit_drop]
  simp [hx]

theorem exists_bit {m S k : Nat} (h : card m S = k + 1) : ∃ x, x < m ∧ S.testBit x = true := by
  have hpos : 0 < List.countP (fun x => S.testBit x) (List.range m) := by
    unfold card at h
    omega
  obtain ⟨x, hx, hb⟩ := List.countP_pos_iff.1 hpos
  exact ⟨x, List.mem_range.1 hx, hb⟩

/-! ## The recurrence computes path weights -/

/-- A candidate of the loop is the weight of a path, so it does not wrap. -/
theorem candidate_path {g : GraphMatrix} (hpos : NonNegative g) (hsum : SumsBelow g) (k : Nat)
    (ih : ∀ S p, Valid g.vertexCount S p → card (g.vertexCount - 1) S = k →
      ∃ xs, IsOrdering S xs ∧ recurrence g k S p = walkWeight g (g.vertexCount - 1) xs p)
    {S p : Nat} (hv : Valid g.vertexCount S p) (hc : card (g.vertexCount - 1) S = k + 1)
    {y : Nat} (hy : S.testBit y = true) :
    (∃ xs, IsOrdering S xs ∧
      recurrence g k (S ^^^ (1 <<< y)) y + g.weight y p
        = walkWeight g (g.vertexCount - 1) xs p) ∧
    0 ≤ recurrence g k (S ^^^ (1 <<< y)) y + g.weight y p ∧
    recurrence g k (S ^^^ (1 <<< y)) y + g.weight y p < INT_MAX := by
  have hlt := testBit_lt hv.1 hy
  have hcd : card (g.vertexCount - 1) (S ^^^ (1 <<< y)) = k := by
    have := card_drop hlt hy
    omega
  obtain ⟨xs, ho, he⟩ := ih _ y (valid_drop hv hy) hcd
  have ho' : IsOrdering S (xs ++ [y]) := ordering_concat hy ho
  have hw : recurrence g k (S ^^^ (1 <<< y)) y + g.weight y p
      = walkWeight g (g.vertexCount - 1) (xs ++ [y]) p := by
    rw [walkWeight_concat, he]
  refine ⟨⟨_, ho', hw⟩, ?_, ?_⟩
  · rw [hw]; exact ordering_nonneg hpos hv ho'
  · rw [hw]; exact hsum S _ p hv ho'

/-- The result of the minimisation loop on a mask with `k + 1` set bits. -/
theorem loop_facts {g : GraphMatrix} (hpos : NonNegative g) (hsum : SumsBelow g) (k : Nat)
    (ih : ∀ S p, Valid g.vertexCount S p → card (g.vertexCount - 1) S = k →
      ∃ xs, IsOrdering S xs ∧ recurrence g k S p = walkWeight g (g.vertexCount - 1) xs p)
    {S p : Nat} (hv : Valid g.vertexCount S p) (hc : card (g.vertexCount - 1) S = k + 1)
    (j : Nat) :
    S.testBit (choice g j k S p) = true ∧
    recurrence g (k + 1) S p
      = recurrence g k (S ^^^ (1 <<< choice g j k S p)) (choice g j k S p)
        + g.weight (choice g j k S p) p ∧
    (∀ y, S.testBit y = true →
      recurrence g (k + 1) S p ≤ recurrence g k (S ^^^ (1 <<< y)) y + g.weight y p) ∧
    choice g j k S p = choice g 0 k S p := by
  have hval : ∀ i, recurrence g (k + 1) S p
      = ((List.range (g.vertexCount - 1)).foldl (relax (recurrence g k) g S p)
          (i, INT_MAX)).2 := by
    intro i
    exact (relax_foldl_start (recurrence g k) g S p _ 0 i INT_MAX).1
  obtain ⟨h1, -, h3⟩ := relax_foldl (recurrence g k) g S p (List.range (g.vertexCount - 1)) j INT_MAX
  obtain ⟨y0, hy0, hb0⟩ := exists_bit hc
  have hlt : recurrence g (k + 1) S p < INT_MAX := by
    rw [hval j]
    have hc0 := candidate_path hpos hsum k ih hv hc hb0
    have := h1 y0 (List.mem_range.2 hy0) hb0
    rw [wrapInt_eq hc0.2.1 hc0.2.2] at this
    exact lt_of_le_of_lt this hc0.2.2
  have hne : (List.range (g.vertexCount - 1)).foldl (relax (recurrence g k) g S p) (j, INT_MAX)
      ≠ (j, INT_MAX) := by
    intro h
    rw [hval j, h] at hlt
    exact lt_irrefl _ hlt
  rcases h3 with h3 | ⟨-, h4, h5, -⟩
  · exact absurd h3 hne
  · have hcc := candidate_path hpos hsum k ih hv hc h4
    refine ⟨h4, ?_, ?_, ?_⟩
    · rw [hval j, h5, wrapInt_eq hcc.2.1 hcc.2.2]
      rfl
    · intro y hy
      have hcy := candidate_path hpos hsum k ih hv hc hy
      have := h1 y (List.mem_range.2 (testBit_lt hv.1 hy)) hy
      rw [wrapInt_eq hcy.2.1 hcy.2.2] at this
      rw [hval j]
      exact this
    · have := (relax_foldl_start (recurrence g k) g S p (List.range (g.vertexCount - 1))
        j 0 INT_MAX).2
      rw [← hval j] at this
      exact this hlt

theorem exists_ordering {g : GraphMatrix} (hpos : NonNegative g) (hsum : SumsBelow g) :
    ∀ k S p, Valid g.vertexCount S p → card (g.vertexCount - 1) S = k →
      ∃ xs, IsOrdering S xs ∧ recurrence g k S p = walkWeight g (g.vertexCount - 1) xs p := by
  intro k
  induction k with
  | zero =>
    intro S p hv hc
    have hS : S = 0 := card_eq_zero hv.1 hc
    subst hS
    refine ⟨[], ⟨List.nodup_nil, fun v => by simp⟩, rfl⟩
  | succ k ih =>
    intro S p hv hc
    obtain ⟨hb, he, -, -⟩ := loop_facts hpos hsum k ih hv hc 0
    obtain ⟨⟨xs, ho, hw⟩, -, -⟩ := candidate_path hpos hsum k ih hv hc hb
    exact ⟨xs, ho, by rw [he, hw]⟩

theorem recurrence_range {g : GraphMatrix} (hpos : NonNegative g) (hsum : SumsBelow g)
    {S p : Nat} (hv : Valid g.vertexCount S p) :
    0 ≤ recurrence g (card (g.vertexCount - 1) S) S p ∧
    recurrence g (card (g.vertexCount - 1) S) S p < INT_MAX := by
  obtain ⟨xs, ho, he⟩ := exists_ordering hpos hsum _ S p hv rfl
  rw [he]
  exact ⟨ordering_nonneg hpos hv ho, hsum S xs p hv ho⟩

end HeldKarp

namespace HeldKarp

/-! ## The memoised recursion computes the recurrence -/

theorem heldKarpAlgorithm_succ (stack : Nat → Nat → Nat) (fuel : Nat) (dp : DynamicProgramming)
    (S p : Nat) :
    heldKarpAlgorithm stack (fuel + 1) dp S p =
      if dp.previousResults S p ≠ -1 then some (dp.previousResults S p, dp)
      else
        match (List.range (dp.graphSize - 1)).foldl
            (scanVertex (heldKarpAlgorithm stack fuel) S p)
            (some (dp, stack S p, INT_MAX)) with
        | none => none
        | some (dp, predecessor, minPathWeight) =>
          some (minPathWeight,
            { dp with
              predecessors := fun m v =>
                if m = S ∧ v = p then predecessor else dp.predecessors m v
              previousResults := fun m v =>
                if m = S ∧ v = p then minPathWeight else dp.previousResults m v }) := by
  rfl

theorem scanVertex_skip (recur : DynamicProgramming → Nat → Nat → Option (Int × DynamicProgramming))
    (S p : Nat) (dp : DynamicProgramming) (j : Nat) (m : Int) (x : Nat)
    (hb : ¬ S &&& (1 <<< x) = 1 <<< x) :
    scanVertex recur S p (some (dp, j, m)) x = some (dp, j, m) := by
  simp [scanVertex, hb]

theorem scanVertex_call (recur : DynamicProgramming → Nat → Nat → Option (Int × DynamicProgramming))
    (val : Nat → Nat → Int) (g : GraphMatrix)
    (S p : Nat) (dp dp1 : DynamicProgramming) (j : Nat) (m : Int) (x : Nat)
    (hb : S &&& (1 <<< x) = 1 <<< x)
    (hr : recur dp (S ^^^ (1 <<< x)) x = some (val (S ^^^ (1 <<< x)) x, dp1))
    (hg : dp1.graph = g) :
    scanVertex recur S p (some (dp, j, m)) x = some (dp1, relax val g S p (j, m) x) := by
  simp only [scanVertex, hb, hr, relax, hg, if_true]
  split <;> rfl

theorem mono_refl (dp : DynamicProgramming) : Mono dp dp := fun _ _ h => h

theorem mono_trans {a b c : DynamicProgramming} (h1 : Mono a b) (h2 : Mono b c) : Mono a c :=
  fun T q h => h2 T q (h1 T q h)

/-- The minimisation loop on the tables follows the loop on the recurrence,
provided the recursive calls do. -/
theorem scan_foldl {g : GraphMatrix} (stack : Nat → Nat → Nat) (fuel : Nat)
    (ih : ∀ dp S p, Valid g.vertexCount S p → card (g.vertexCount - 1) S < fuel →
      Inv g stack dp →
      ∃ dp', heldKarpAlgorithm stack fuel dp S p
          = some (recurrence g (card (g.vertexCount - 1) S) S p, dp') ∧
        Inv g stack dp' ∧ Mono dp dp' ∧ dp'.previousResults S p ≠ -1)
    {S p : Nat} (hv : Valid g.vertexCount S p) (hc : card (g.vertexCount - 1) S < fuel + 1)
    (vs : List Nat) :
    ∀ (dp : DynamicProgramming) (j : Nat) (m : Int), Inv g stack dp →
      ∃ dp', vs.foldl (scanVertex (heldKarpAlgorithm stack fuel) S p) (some (dp, j, m))
          = some (dp', vs.foldl
              (relax (recurrence g (card (g.vertexCount - 1) S - 1)) g S p) (j, m)) ∧
        Inv g stack dp' ∧ Mono dp dp' ∧
        ∀ x ∈ vs, S.testBit x = true → dp'.previousResults (S ^^^ (1 <<< x)) x ≠ -1 := by
  induction vs with
  | nil =>
    intro dp j m hinv
    exact ⟨dp, rfl, hinv, mono_refl dp, fun x hx => absurd hx (List.not_mem_nil x)⟩
  | cons x vs ihv =>
    intro dp j m hinv
    rw [List.foldl_cons, List.foldl_cons]
    by_cases hb : S &&& (1 <<< x) = 1 <<< x
    · have hx : S.testBit x = true := (and_bit_iff S x).1 hb
      have hlt := testBit_lt hv.1 hx
      have hcd := card_drop hlt hx
      obtain ⟨dp1, hcall, hinv1, hmono1, hne1⟩ :=
        ih dp (S ^^^ (1 <<< x)) x (valid_drop hv hx) (by omega) hinv
      have hk : card (g.vertexCount - 1) (S ^^^ (1 <<< x))
          = card (g.vertexCount - 1) S - 1 := by omega
      rw [hk] at hcall
      rw [scanVertex_call (heldKarpAlgorithm stack fuel)
        (recurrence g (card (g.vertexCount - 1) S - 1)) g S p dp dp1 j m x hb hcall hinv1.graph]
      obtain ⟨dp', hfold, hinv', hmono', hcells⟩ :=
        ihv dp1 (relax (recurrence g (card (g.vertexCount - 1) S - 1)) g S p (j, m) x).1
          (relax (recurrence g (card (g.vertexCount - 1) S - 1)) g S p (j, m) x).2 hinv1
      refine ⟨dp', hfold, hinv', mono_trans hmono1 hmono', ?_⟩
      intro y hy hyb
      rcases List.mem_cons.1 hy with rfl | hy
      · exact hmono' _ _ hne1
      · exact hcells y hy hyb
    · rw [scanVertex_skip _ S p dp j m x hb]
      have hr : relax (recurrence g (card (g.vertexCount - 1) S - 1)) g S p (j, m) x
          = (j, m) := by
        simp [relax, hb]
      rw [hr]
      obtain ⟨dp', hfold, hinv', hmono', hcells⟩ := ihv dp j m hinv
      refine ⟨dp', hfold, hinv', hmono', ?_⟩
      intro y hy hyb
      rcases List.mem_cons.1 hy with rfl | hy
      · exact absurd ((and_bit_iff S y).2 hyb) hb
      · exact hcells y hy hyb

end HeldKarp

namespace HeldKarp

/-- On tables that satisfy the invariant, a call on a valid cell with
enough recursion budget returns the value of the recurrence and leaves
tables that satisfy the invariant. -/
theorem heldKarp_memo {g : GraphMatrix} (hpos : NonNegative g) (hsum : SumsBelow g)
    (stack : Nat → Nat → Nat) :
    ∀ fuel dp S p, Valid g.vertexCount S p → card (g.vertexCount - 1) S < fuel →
      Inv g stack dp →
      ∃ dp', heldKarpAlgorithm stack fuel dp S p
          = some (recurrence g (card (g.vertexCount - 1) S) S p, dp') ∧
        Inv g stack dp' ∧ Mono dp dp' ∧ dp'.previousResults S p ≠ -1 := by
  intro fuel
  induction fuel with
  | zero => intro dp S p _ hc _; omega
  | succ fuel ih =>
    intro dp S p hv hc hinv
    rw [heldKarpAlgorithm_succ]
    by_cases hprev : dp.previousResults S p ≠ -1
    · rw [if_pos hprev]
      exact ⟨dp, by rw [hinv.value S p hv hprev], hinv, mono_refl dp, hprev⟩
    · rw [if_neg hprev]
      have hrange := recurrence_range hpos hsum hv
      have hS : S ≠ 0 := by
        intro h0
        subst h0
        have hb := hinv.base p hv
        have h1 := hrange.1
        rw [card_zero] at h1
        simp only [recurrence] at h1
        apply hprev
        rw [hb]
        omega
      have hk : card (g.vertexCount - 1) S ≠ 0 := fun h => hS (card_eq_zero hv.1 h)
      obtain ⟨k, hk'⟩ := Nat.exists_eq_succ_of_ne_zero hk
      obtain ⟨dp2, hfold, hinv2, hmono2, hcells⟩ :=
        scan_foldl stack fuel ih hv hc (List.range (g.vertexCount - 1)) dp (stack S p) INT_MAX hinv
      rw [hinv.size, hfold]
      have hk1 : card (g.vertexCount - 1) S - 1 = k := by omega
      rw [hk1] at hfold ⊢
      have ihk := exists_ordering hpos hsum k
      obtain ⟨hcb, -, -, -⟩ := loop_facts hpos hsum k ihk hv hk' (stack S p)
      have hmin : ((List.range (g.vertexCount - 1)).foldl (relax (recurrence g k) g S p)
          (stack S p, INT_MAX)).2 = recurrence g (card (g.vertexCount - 1) S) S p := by
        rw [hk']
        exact (relax_foldl_start (recurrence g k) g S p _ (stack S p) 0 INT_MAX).1
      have hch : ((List.range (g.vertexCount - 1)).foldl (relax (recurrence g k) g S p)
          (stack S p, INT_MAX)).1 = choice g (stack S p) k S p := rfl
      have hne : recurrence g (card (g.vertexCount - 1) S) S p ≠ -1 := by
        have := hrange.1
        omega
      have hcl := testBit_lt hv.1 hcb
      have hdrop : S ^^^ (1 <<< choice g (stack S p) k S p) ≠ S := ne_of_lt (drop_lt hcb)
      generalize hr : (List.range (g.vertexCount - 1)).foldl (relax (recurrence g k) g S p)
          (stack S p, INT_MAX) = r at hmin hch
      obtain ⟨c, mn⟩ := r
      simp only at hmin hch
      subst hmin hch
      refine ⟨_, rfl, ?_, ?_, ?_⟩
      · constructor
        · exact hinv2.graph
        · exact hinv2.size
        · exact hinv2.start
        · exact hinv2.full
        · intro q hq
          have : ¬ (0 = S ∧ q = p) := fun h => hS h.1.symm
          simp only [this, if_false]
          exact hinv2.base q hq
        · intro T q hT hcomp
          by_cases hcell : T = S ∧ q = p
          · obtain ⟨rfl, rfl⟩ := hcell
            simp
          · simp only [hcell, if_false] at hcomp ⊢
            exact hinv2.value T q hT hcomp
        · intro T q hT hcomp hT0
          by_cases hcell : T = S ∧ q = p
          · obtain ⟨rfl, rfl⟩ := hcell
            simp only [and_self, if_true]
            refine ⟨by rw [hk1], ?_⟩
            have : ¬ (T ^^^ (1 <<< choice g (stack T q) k T q) = T ∧
                choice g (stack T q) k T q = q) := fun h => hdrop h.1
            simp only [this, if_false]
            exact hcells _ (List.mem_range.2 hcl) hcb
          · simp only [hcell, if_false] at hcomp ⊢
            obtain ⟨h1, h2⟩ := hinv2.pred T q hT hcomp hT0
            refine ⟨h1, ?_⟩
            split
            · exact hne
            · exact h2
      · intro T q h
        have := hmono2 T q h
        simp only
        split
        · exact hne
        · exact this
      · simp only [and_self, if_true]
        exact hne

end HeldKarp

namespace HeldKarp

/-! ## Reconstruction -/

theorem pathStep_foldl (predecessors : Nat → Nat → Nat) (k : Nat) :
    ∀ (suffix : List Nat) (mask vertex : Nat),
      ((List.range k).reverse.foldl (pathStep predecessors)
          (List.replicate k 0 ++ suffix, mask, vertex)).1
        = fill predecessors k mask vertex ++ suffix := by
  induction k with
  | zero => intro suffix mask vertex; simp [fill]
  | succ k ih =>
    intro suffix mask vertex
    rw [List.range_succ, List.reverse_append, List.reverse_singleton, List.singleton_append,
      List.foldl_cons]
    have hset : (List.replicate (k + 1) 0 ++ suffix).set k vertex
        = List.replicate k 0 ++ vertex :: suffix := by
      rw [List.replicate_succ', List.append_assoc, List.set_append_right _ _ (by simp)]
      simp
    have hstep : pathStep predecessors (List.replicate (k + 1) 0 ++ suffix, mask, vertex) k
        = (List.replicate k 0 ++ vertex :: suffix,
            mask ^^^ (1 <<< predecessors mask vertex), predecessors mask vertex) := by
      simp only [pathStep, hset]
    rw [hstep, ih]
    simp [fill]

theorem getPathVector_eq_fill (predecessors : Nat → Nat → Nat) (mask vertex n : Nat) :
    getPathVector predecessors mask vertex n = fill predecessors n mask vertex := by
  have := pathStep_foldl predecessors n [] mask vertex
  simpa [getPathVector] using this

/-- The recorded predecessors visit the vertices of the mask once each, on
a path whose weight is the value of the recurrence; the local
`predecessor` start value does not influence them. -/
theorem route_facts {g : GraphMatrix} (hpos : NonNegative g) (hsum : SumsBelow g)
    (j : Nat → Nat → Nat) :
    ∀ k S p, Valid g.vertexCount S p → card (g.vertexCount - 1) S = k →
      IsOrdering S (route g j k S p) ∧
      recurrence g k S p = walkWeight g (g.vertexCount - 1) (route g j k S p) p ∧
      route g j k S p = route g (fun _ _ => 0) k S p := by
  intro k
  induction k with
  | zero =>
    intro S p hv hc
    have hS : S = 0 := card_eq_zero hv.1 hc
    subst hS
    exact ⟨⟨List.nodup_nil, fun v => by simp [route]⟩, rfl, rfl⟩
  | succ k ih =>
    intro S p hv hc
    obtain ⟨hb, he, -, hj⟩ :=
      loop_facts hpos hsum k (exists_ordering hpos hsum k) hv hc (j S p)
    have hlt := testBit_lt hv.1 hb
    have hcd : card (g.vertexCount - 1) (S ^^^ (1 <<< choice g (j S p) k S p)) = k := by
      have := card_drop hlt hb
      omega
    obtain ⟨ho, hw, hr⟩ := ih _ _ (valid_drop hv hb) hcd
    refine ⟨?_, ?_, ?_⟩
    · exact ordering_concat hb ho
    · rw [he, hw]
      simp only [route]
      rw [walkWeight_concat]
    · simp only [route]
      rw [hr, hj]

theorem ordering_init {S y : Nat} {ys : List Nat} (ho : IsOrdering S (ys ++ [y])) :
    S.testBit y = true ∧ IsOrdering (S ^^^ (1 <<< y)) ys := by
  have hy : S.testBit y = true := (ho.2 y).1 (by simp)
  have hnd := List.nodup_append.1 ho.1
  refine ⟨hy, hnd.1, ?_⟩
  intro v
  rw [testBit_drop]
  by_cases hvy : v = y
  · subst hvy
    simp only [hy, decide_True, Bool.xor_self, Bool.false_eq_true, iff_false]
    intro hmem
    exact hnd.2.2 hmem (List.mem_singleton_self v)
  · have hne : ¬ y = v := fun h => hvy h.symm
    simp only [hne, decide_False, Bool.xor_false]
    rw [← ho.2 v]
    simp [hvy]

/-- No ordering of the vertices of the mask gives a lighter path than the
value of the recurrence. -/
theorem recurrence_le {g : GraphMatrix} (hpos : NonNegative g) (hsum : SumsBelow g) :
    ∀ k S p xs, Valid g.vertexCount S p → card (g.vertexCount - 1) S = k → IsOrdering S xs →
      recurrence g k S p ≤ walkWeight g (g.vertexCount - 1) xs p := by
  intro k
  induction k with
  | zero =>
    intro S p xs hv hc ho
    have hS : S = 0 := card_eq_zero hv.1 hc
    subst hS
    have hxs : xs = [] := by
      cases xs with
      | nil => rfl
      | cons a t =>
        have := (ho.2 a).1 (List.mem_cons_self _ _)
        simp at this
    subst hxs
    exact le_refl _
  | succ k ih =>
    intro S p xs hv hc ho
    rcases List.eq_nil_or_concat xs with hnil | ⟨ys, y, hcat⟩
    · subst hnil
      have hS := ordering_nil ho
      subst hS
      rw [card_zero] at hc
      omega
    · rw [List.concat_eq_append] at hcat
      subst hcat
      obtain ⟨hy, hoy⟩ := ordering_init ho
      obtain ⟨-, -, hmin, -⟩ :=
        loop_facts hpos hsum k (exists_ordering hpos hsum k) hv hc 0
      have hlt := testBit_lt hv.1 hy
      have hcd : card (g.vertexCount - 1) (S ^^^ (1 <<< y)) = k := by
        have := card_drop hlt hy
        omega
      have h1 := ih _ y ys (valid_drop hv hy) hcd hoy
      have h2 := hmin y hy
      rw [walkWeight_concat]
      omega

theorem recurrence_isShortest {g : GraphMatrix} (hpos : NonNegative g) (hsum : SumsBelow g)
    {S p : Nat} (hv : Valid g.vertexCount S p) :
    IsShortest g S p (recurrence g (card (g.vertexCount - 1) S) S p) := by
  obtain ⟨ho, hw, -⟩ := route_facts hpos hsum (fun _ _ => 0) _ S p hv rfl
  exact ⟨⟨_, ho, hw.symm⟩, fun xs hxs => recurrence_le hpos hsum _ S p xs hv rfl hxs⟩

/-- Reading the predecessor table from a computed cell reproduces the
route. -/
theorem fill_eq_route {g : GraphMatrix} (hpos : NonNegative g) (hsum : SumsBelow g)
    (stack : Nat → Nat → Nat) (dp : DynamicProgramming) (hinv : Inv g stack dp) :
    ∀ k S p, Valid g.vertexCount S p → card (g.vertexCount - 1) S = k →
      dp.previousResults S p ≠ -1 →
      fill dp.predecessors (k + 1) S p = route g stack k S p ++ [p] := by
  intro k
  induction k with
  | zero => intro S p _ _ _; simp [fill, route]
  | succ k ih =>
    intro S p hv hc hcomp
    have hS : S ≠ 0 := by
      intro h
      subst h
      rw [card_zero] at hc
      omega
    obtain ⟨hp1, hp2⟩ := hinv.pred S p hv hcomp hS
    have hk : card (g.vertexCount - 1) S - 1 = k := by omega
    rw [hk] at hp1
    obtain ⟨hb, -, -, -⟩ :=
      loop_facts hpos hsum k (exists_ordering hpos hsum k) hv hc (stack S p)
    have hlt := testBit_lt hv.1 hb
    have hcd : card (g.vertexCount - 1) (S ^^^ (1 <<< choice g (stack S p) k S p)) = k := by
      have := card_drop hlt hb
      omega
    rw [hp1] at hp2
    have := ih _ _ (valid_drop hv hb) hcd hp2
    rw [fill, hp1, this]
    simp only [route]

end HeldKarp

namespace HeldKarp

/-! ## The call of `execute` -/

theorem two_pow_bounds {n : Nat} (h1 : 1 ≤ n) (h31 : n ≤ 31) :
    (1 : Int) ≤ ((2 ^ (n - 1) : Nat) : Int) ∧ ((2 ^ (n - 1) : Nat) : Int) ≤ 1073741824 := by
  have ha : 1 ≤ 2 ^ (n - 1) := Nat.one_le_two_pow
  have hb : 2 ^ (n - 1) ≤ 2 ^ 30 := Nat.pow_le_pow_right (by norm_num) (by omega)
  constructor
  · exact_mod_cast ha
  · have : (2 : Nat) ^ 30 = 1073741824 := by norm_num
    rw [this] at hb
    exact_mod_cast hb

/-- For `1 ≤ n ≤ 31` the prologue of `execute` is defined and produces the
tables with `2 ^ (n - 1)` rows. -/
theorem setUp_eq (prev : DynamicProgramming) (ind : Indeterminate) (g : GraphMatrix)
    (h1 : 1 ≤ g.vertexCount) (h31 : g.vertexCount ≤ 31) :
    setUp prev ind g = .ok (initializeValues
      { previousResults := fun i j =>
          if i < 2 ^ (g.vertexCount - 1) ∧ j < g.vertexCount then -1 else ind.results i j
        predecessors := ind.heap
        startingVertex := g.vertexCount - 1
        graph := g
        graphSize := g.vertexCount
        initialMask := 2 ^ (g.vertexCount - 1) - 1 }) := by
  obtain ⟨hlo, hhi⟩ := two_pow_bounds h1 h31
  have hs : shiftLeftInt 1 ((g.vertexCount : Int) - 1)
      = .ok ((2 ^ (g.vertexCount - 1) : Nat) : Int) := by
    unfold shiftLeftInt
    have hc : ¬ ((g.vertexCount : Int) - 1 < 0 ∨ 32 ≤ (g.vertexCount : Int) - 1) := by omega
    rw [if_neg hc]
    have ht : ((g.vertexCount : Int) - 1).toNat = g.vertexCount - 1 := by omega
    rw [ht, one_mul]
    have hw : wrapInt ((2 : Int) ^ (g.vertexCount - 1)) = (2 : Int) ^ (g.vertexCount - 1) := by
      have : ((2 ^ (g.vertexCount - 1) : Nat) : Int) = (2 : Int) ^ (g.vertexCount - 1) := by
        push_cast; rfl
      rw [← this]
      unfold wrapInt
      omega
    rw [hw]
    push_cast
    rfl
  have hsub : subInt ((2 ^ (g.vertexCount - 1) : Nat) : Int) 1
      = .ok (((2 ^ (g.vertexCount - 1) : Nat) : Int) - 1) := by
    unfold subInt INT_MIN INT_MAX
    rw [if_pos (by omega)]
  have hadd : addInt (((2 ^ (g.vertexCount - 1) : Nat) : Int) - 1) 1
      = .ok ((2 ^ (g.vertexCount - 1) : Nat) : Int) := by
    unfold addInt INT_MIN INT_MAX
    rw [if_pos (by omega)]
    simp
  have hnew : newLength ((2 ^ (g.vertexCount - 1) : Nat) : Int)
      = .ok (2 ^ (g.vertexCount - 1)) := by
    unfold newLength
    rw [if_neg (by omega), Int.toNat_natCast]
  have hto : (((2 ^ (g.vertexCount - 1) : Nat) : Int) - 1).toNat = 2 ^ (g.vertexCount - 1) - 1 := by
    omega
  simp only [setUp, hs, hsub, hadd, hnew, hto]

theorem valid_full {g : GraphMatrix} (h2 : 2 ≤ g.vertexCount) :
    Valid g.vertexCount (fullMask g) (g.vertexCount - 1) := by
  have hp : 2 ^ 1 ≤ 2 ^ (g.vertexCount - 1) := Nat.pow_le_pow_right (by norm_num) (by omega)
  unfold fullMask
  refine ⟨by omega, by omega, ?_, fun h => by omega⟩
  rw [Nat.testBit_two_pow_sub_one]
  simp

theorem inv_initial (prev_results : Nat → Nat → Int) (heap : Nat → Nat → Nat)
    (stack : Nat → Nat → Nat) (g : GraphMatrix) :
    Inv g stack (initializeValues
      { previousResults := fun i j =>
          if i < 2 ^ (g.vertexCount - 1) ∧ j < g.vertexCount then -1 else prev_results i j
        predecessors := heap
        startingVertex := g.vertexCount - 1
        graph := g
        graphSize := g.vertexCount
        initialMask := 2 ^ (g.vertexCount - 1) - 1 }) := by
  constructor
  · rfl
  · rfl
  · rfl
  · rfl
  · intro p hp
    simp [initializeValues, hp.2.1]
  · intro S p hv hcomp
    simp only [initializeValues] at hcomp ⊢
    by_cases h0 : S = 0
    · subst h0
      simp [hv.2.1, card_zero, recurrence]
    · simp [h0, hv.1, hv.2.1] at hcomp
  · intro S p hv hcomp h0
    simp [initializeValues, h0, hv.1, hv.2.1] at hcomp

/-- On a graph with `2 ≤ n ≤ 31` vertices, non-negative weights and path
sums below `INT_MAX`, `execute` returns `solution g`, whatever the static
fields and the uninitialised storage hold. -/
theorem execute_eq (prev : DynamicProgramming) (ind : Indeterminate) {g : GraphMatrix}
    (h2 : 2 ≤ g.vertexCount) (h31 : g.vertexCount ≤ 31)
    (hpos : NonNegative g) (hsum : SumsBelow g) :
    execute prev ind g = .ok (solution g) := by
  have hv := valid_full h2
  have hcard : card (g.vertexCount - 1) (fullMask g) = g.vertexCount - 1 := card_full _
  obtain ⟨dp', hcall, hinv, -, hcomp⟩ :=
    heldKarp_memo hpos hsum ind.stack g.vertexCount _ (fullMask g) (g.vertexCount - 1) hv
      (by omega) (inv_initial ind.results ind.heap ind.stack g)
  rw [hcard] at hcall
  have hfill := fill_eq_route hpos hsum ind.stack dp' hinv _ _ _ hv hcard hcomp
  have hroute := (route_facts hpos hsum ind.stack _ _ _ hv hcard).2.2
  have hn : g.vertexCount - 1 + 1 = g.vertexCount := by omega
  rw [hn] at hfill
  unfold execute
  rw [setUp_eq prev ind g (by omega) h31]
  simp only [initializeValues] at hcall ⊢
  unfold fullMask at hcall
  rw [hcall]
  simp only [getPathVector_eq_fill, hinv.full, hinv.start, hinv.size]
  unfold fullMask at hfill hroute
  rw [hfill, hroute]
  rfl

end HeldKarp

namespace HeldKarp

/-! ## Bounds on path weights -/

theorem walkWeight_le {g : GraphMatrix} {W : Int} (hW : BoundedBy g W) (xs : List Nat) :
    ∀ s p, s < g.vertexCount → p < g.vertexCount → (∀ x ∈ xs, x < g.vertexCount) →
      xs.Nodup → s ∉ xs → p ∉ xs → (xs = [] → p ≠ s) →
      walkWeight g s xs p ≤ (xs.length + 1) * W := by
  induction xs with
  | nil =>
    intro s p hs hp _ _ _ _ hne
    have := hW s p hs hp (fun h => hne rfl h.symm)
    simpa [walkWeight] using this
  | cons x xs ih =>
    intro s p hs hp hall hnd hsx hpx _
    have hx : x < g.vertexCount := hall x (List.mem_cons_self _ _)
    have h1 : g.weight s x ≤ W :=
      hW s x hs hx (fun h => hsx (h ▸ List.mem_cons_self _ _))
    have h2 : walkWeight g x xs p ≤ (xs.length + 1) * W := by
      refine ih x p hx hp (fun y hy => hall y (List.mem_cons_of_mem _ hy))
        (List.nodup_cons.1 hnd).2 (List.nodup_cons.1 hnd).1
        (fun h => hpx (List.mem_cons_of_mem _ h)) ?_
      intro _ h
      exact hpx (h ▸ List.mem_cons_self _ _)
    simp only [walkWeight, List.length_cons]
    push_cast
    linarith

theorem walkWeight_ge {g : GraphMatrix} {a : Int}
    (ha : ∀ u v, u < g.vertexCount → v < g.vertexCount → u ≠ v → a ≤ g.weight u v)
    (xs : List Nat) :
    ∀ s p, s < g.vertexCount → p < g.vertexCount → (∀ x ∈ xs, x < g.vertexCount) →
      xs.Nodup → s ∉ xs → p ∉ xs → (xs = [] → p ≠ s) →
      (xs.length + 1) * a ≤ walkWeight g s xs p := by
  induction xs with
  | nil =>
    intro s p hs hp _ _ _ _ hne
    have := ha s p hs hp (fun h => hne rfl h.symm)
    simpa [walkWeight] using this
  | cons x xs ih =>
    intro s p hs hp hall hnd hsx hpx _
    have hx : x < g.vertexCount := hall x (List.mem_cons_self _ _)
    have h1 : a ≤ g.weight s x :=
      ha s x hs hx (fun h => hsx (h ▸ List.mem_cons_self _ _))
    have h2 : (xs.length + 1) * a ≤ walkWeight g x xs p := by
      refine ih x p hx hp (fun y hy => hall y (List.mem_cons_of_mem _ hy))
        (List.nodup_cons.1 hnd).2 (List.nodup_cons.1 hnd).1
        (fun h => hpx (List.mem_cons_of_mem _ h)) ?_
      intro _ h
      exact hpx (h ▸ List.mem_cons_self _ _)
    simp only [walkWeight, List.length_cons]
    push_cast
    linarith

theorem valid_two {n S p : Nat} (hv : Valid n S p) : 2 ≤ n := by
  have := hv.2.1
  have h0 : n - 1 ≠ 0 := by
    intro h
    have hS : S = 0 := by
      have := hv.1
      rw [h] at this
      omega
    have := hv.2.2.2 hS
    omega
  omega

theorem ordering_length_le {n S p : Nat} {xs : List Nat} (hv : Valid n S p)
    (ho : IsOrdering S xs) : xs.length + 1 ≤ n := by
  have hsub : xs ⊆ List.range (n - 1) :=
    fun x hx => List.mem_range.2 (ordering_lt hv ho x hx)
  have := (List.subperm_of_subset ho.1 hsub).length_le
  rw [List.length_range] at this
  have := valid_two hv
  omega

/-- The bounds of an ordering seen as a path from `n - 1` to `p`. -/
theorem ordering_side {g : GraphMatrix} {S p : Nat} {xs : List Nat}
    (hv : Valid g.vertexCount S p) (ho : IsOrdering S xs) :
    g.vertexCount - 1 < g.vertexCount ∧ (∀ x ∈ xs, x < g.vertexCount) ∧
      g.vertexCount - 1 ∉ xs ∧ p ∉ xs ∧ (xs = [] → p ≠ g.vertexCount - 1) := by
  have hp := hv.2.1
  refine ⟨by omega, ?_, ?_, ?_, ?_⟩
  · intro x hx
    have := ordering_lt hv ho x hx
    omega
  · intro h
    have := ordering_lt hv ho _ h
    omega
  · intro h
    have := (ho.2 p).1 h
    rw [hv.2.2.1] at this
    cases this
  · intro h
    subst h
    exact hv.2.2.2 (ordering_nil ho)

/-- Weights in `[0, W]` with `n * W < INT_MAX` keep every path sum of the
recurrence below `INT_MAX`. -/
theorem sumsBelow_of_bound {g : GraphMatrix} {W : Int} (hpos : NonNegative g)
    (hW : BoundedBy g W) (hn : (g.vertexCount : Int) * W < INT_MAX) : SumsBelow g := by
  intro S xs p hv ho
  obtain ⟨h1, h2, h3, h4, h5⟩ := ordering_side hv ho
  have hle := walkWeight_le hW xs _ p h1 hv.2.1 h2 ho.1 h3 h4 h5
  have hlen := ordering_length_le hv ho
  have hW0 : 0 ≤ W := by
    have hn2 : 2 ≤ g.vertexCount := valid_two hv
    exact le_trans (hpos 0 1 (by omega) (by omega) (by omega))
      (hW 0 1 (by omega) (by omega) (by omega))
  have hlen' : ((xs.length : Int) + 1) ≤ (g.vertexCount : Int) := by exact_mod_cast hlen
  have := mul_le_mul_of_nonneg_right hlen' hW0
  linarith

/-! ## Closed tours -/

theorem walkWeight_split (g : GraphMatrix) (a : List Nat) :
    ∀ s y b p, walkWeight g s (a ++ y :: b) p = walkWeight g s a y + walkWeight g y b p := by
  induction a with
  | nil => intro s y b p; simp [walkWeight]
  | cons x a ih =>
    intro s y b p
    have h := ih x y b p
    rw [List.cons_append]
    simp only [walkWeight]
    rw [h]
    ring

theorem walkWeight_index (g : GraphMatrix) (r : List Nat) :
    ∀ x p, walkWeight g x r p
      = ((List.range r.length).map
          (fun i => g.weight ((x :: r).getD i 0) ((x :: r).getD (i + 1) 0))).sum
        + g.weight ((x :: r).getD r.length 0) p := by
  induction r with
  | nil => intro x p; simp [walkWeight]
  | cons y t ih =>
    intro x p
    have h := ih y p
    simp only [walkWeight, List.length_cons]
    rw [h, List.range_succ_eq_map, List.map_cons, List.sum_cons, List.map_map]
    simp only [List.getD_cons_zero, List.getD_cons_succ, Function.comp_def, Nat.succ_eq_add_one]
    ring

theorem cycleWeight_cons (g : GraphMatrix) (x : Nat) (r : List Nat) :
    cycleWeight g (x :: r) = walkWeight g x r x := by
  rw [walkWeight_index]
  simp only [cycleWeight, List.length_cons, Nat.add_sub_cancel, List.getD_cons_zero]
  ring

theorem cycleWeight_concat (g : GraphMatrix) (xs : List Nat) (s : Nat) :
    cycleWeight g (xs ++ [s]) = walkWeight g s xs s := by
  cases xs with
  | nil => rw [List.nil_append, cycleWeight_cons]
  | cons y t =>
    rw [List.cons_append, cycleWeight_cons, walkWeight_concat]
    simp only [walkWeight]
    ring

theorem testBit_fullMask (g : GraphMatrix) (v : Nat) :
    (fullMask g).testBit v = decide (v < g.vertexCount - 1) := by
  unfold fullMask
  rw [Nat.testBit_two_pow_sub_one]

/-- An ordering of the full mask is what remains of an ordering of all the
vertices once `n - 1` is taken out. -/
theorem ordering_iff_perm (g : GraphMatrix) (h1 : 1 ≤ g.vertexCount) (xs : List Nat) :
    IsOrdering (fullMask g) xs ↔
      ((g.vertexCount - 1) :: xs).Perm (List.range g.vertexCount) := by
  constructor
  · intro ho
    have hnot : g.vertexCount - 1 ∉ xs := by
      intro h
      have := (ho.2 _).1 h
      rw [testBit_fullMask] at this
      simp at this
    rw [List.perm_ext_iff_of_nodup (List.nodup_cons.2 ⟨hnot, ho.1⟩) (List.nodup_range _)]
    intro v
    rw [List.mem_cons, ho.2 v, testBit_fullMask, List.mem_range]
    simp only [decide_eq_true_eq]
    omega
  · intro hp
    have hnd : ((g.vertexCount - 1) :: xs).Nodup := hp.nodup_iff.2 (List.nodup_range _)
    refine ⟨(List.nodup_cons.1 hnd).2, ?_⟩
    intro v
    rw [testBit_fullMask]
    simp only [decide_eq_true_eq]
    constructor
    · intro hv
      have hm : v ∈ List.range g.vertexCount := hp.subset (List.mem_cons_of_mem _ hv)
      have hlt := List.mem_range.1 hm
      have hne : v ≠ g.vertexCount - 1 := by
        intro h
        exact (List.nodup_cons.1 hnd).1 (h ▸ hv)
      omega
    · intro hv
      have hm : v ∈ (g.vertexCount - 1) :: xs :=
        hp.symm.subset (List.mem_range.2 (by omega))
      rcases List.mem_cons.1 hm with h | h
      · omega
      · exact h

/-- Every closed tour through all the vertices is, read from vertex
`n - 1`, a path through an ordering of the full mask. -/
theorem tour_rotation (g : GraphMatrix) (h1 : 1 ≤ g.vertexCount) (σ : List Nat)
    (hσ : σ.Perm (List.range g.vertexCount)) :
    ∃ xs, IsOrdering (fullMask g) xs ∧
      cycleWeight g σ = walkWeight g (g.vertexCount - 1) xs (g.vertexCount - 1) := by
  have hmem : g.vertexCount - 1 ∈ σ := hσ.symm.subset (List.mem_range.2 (by omega))
  cases σ with
  | nil => exact absurd hmem (List.not_mem_nil _)
  | cons x r =>
    by_cases hx : x = g.vertexCount - 1
    · subst hx
      exact ⟨r, (ordering_iff_perm g h1 r).2 hσ, cycleWeight_cons g _ r⟩
    · have hr : g.vertexCount - 1 ∈ r := by
        rcases List.mem_cons.1 hmem with h | h
        · exact absurd h.symm hx
        · exact h
      obtain ⟨a, b, hab⟩ := List.append_of_mem hr
      subst hab
      refine ⟨b ++ x :: a, (ordering_iff_perm g h1 _).2 ?_, ?_⟩
      · refine List.Perm.trans ?_ hσ
        have h1' : ((g.vertexCount - 1) :: (b ++ x :: a)).Perm
            ((x :: a) ++ (g.vertexCount - 1) :: b) := by
          have := @List.perm_append_comm _ ((g.vertexCount - 1) :: b) (x :: a)
          simpa using this
        simpa using h1'
      · rw [cycleWeight_cons, walkWeight_split, walkWeight_split]
        ring

end HeldKarp

namespace HeldKarp

/-! ## The returned path and weight -/

theorem int_min?_eq_some (xs : List Int) (a : Int) :
    xs.min? = some a ↔ a ∈ xs ∧ ∀ b ∈ xs, a ≤ b :=
  @List.min?_eq_some_iff Int a _ _ ⟨fun h1 h2 => le_antisymm h1 h2⟩
    (fun a => le_refl a) (fun a b => min_choice a b) (fun _ _ _ => le_min_iff) xs

theorem solution_perm {g : GraphMatrix} (hpos : NonNegative g) (hsum : SumsBelow g)
    (h2 : 2 ≤ g.vertexCount) : (solution g).path.Perm (List.range g.vertexCount) := by
  obtain ⟨ho, -, -⟩ := route_facts hpos hsum (fun _ _ => 0) _ _ _ (valid_full h2) (card_full _)
  have := (ordering_iff_perm g (by omega) _).1 ho
  refine List.Perm.trans ?_ this
  simp only [solution]
  exact List.perm_append_singleton _ _

theorem solution_weight {g : GraphMatrix} (hpos : NonNegative g) (hsum : SumsBelow g)
    (h2 : 2 ≤ g.vertexCount) : (solution g).weight = cycleWeight g (solution g).path := by
  obtain ⟨-, hw, -⟩ := route_facts hpos hsum (fun _ _ => 0) _ _ _ (valid_full h2) (card_full _)
  simp only [solution]
  rw [cycleWeight_concat, hw]

theorem solution_le {g : GraphMatrix} (hpos : NonNegative g) (hsum : SumsBelow g)
    (h2 : 2 ≤ g.vertexCount) (σ : List Nat) (hσ : σ.Perm (List.range g.vertexCount)) :
    (solution g).weight ≤ cycleWeight g σ := by
  obtain ⟨xs, ho, hw⟩ := tour_rotation g (by omega) σ hσ
  rw [hw]
  have := recurrence_le hpos hsum _ _ _ xs (valid_full h2) (card_full _) ho
  exact this

theorem solution_bruteForce {g : GraphMatrix} (hpos : NonNegative g) (hsum : SumsBelow g)
    (h2 : 2 ≤ g.vertexCount) : bruteForce g = some (solution g).weight := by
  unfold bruteForce
  rw [int_min?_eq_some]
  constructor
  · rw [List.mem_map]
    exact ⟨(solution g).path, List.mem_permutations.2 (solution_perm hpos hsum h2),
      (solution_weight hpos hsum h2).symm⟩
  · intro b hb
    obtain ⟨σ, hσ, rfl⟩ := List.mem_map.1 hb
    exact solution_le hpos hsum h2 σ (List.mem_permutations.1 hσ)

/-! ## Test graphs satisfy the hypotheses -/

theorem nonNegative_const (n : Nat) {c : Int} (hc : 0 ≤ c) : NonNegative (constGraph n c) :=
  fun _ _ _ _ _ => hc

theorem boundedBy_const (n : Nat) (c : Int) : BoundedBy (constGraph n c) c :=
  fun _ _ _ _ _ => le_refl c

theorem nonNegative_square {a d : Int} (ha : 0 ≤ a) (had : a ≤ d) :
    NonNegative (squareGraph a d) := by
  intro u v _ _ _
  simp only [squareGraph]
  split_ifs <;> omega

theorem boundedBy_square {a d : Int} (ha : 0 ≤ a) (had : a ≤ d) :
    BoundedBy (squareGraph a d) d := by
  intro u v _ _ _
  simp only [squareGraph]
  split_ifs <;> omega

/-! ## Properties of `execute` -/

/-- C1: on a graph with `2 ≤ n ≤ 31` vertices whose weights between distinct
vertices lie in `[0, W]` with `n * W < INT_MAX`, `execute` returns a `Path`
whose weight is the value exhaustive search finds: it is the weight of
some closed tour through all the vertices and no ordering of the `n`
vertices gives a lighter closed tour. -/
theorem execute_weight_eq_bruteForce (prev : DynamicProgramming) (ind : Indeterminate)
    (g : GraphMatrix) (W : Int) (h2 : 2 ≤ g.vertexCount) (h31 : g.vertexCount ≤ 31)
    (hpos : NonNegative g) (hW : BoundedBy g W) (hn : (g.vertexCount : Int) * W < INT_MAX) :
    ∃ r, execute prev ind g = .ok r ∧ bruteForce g = some r.weight ∧
      (∃ σ, σ.Perm (List.range g.vertexCount) ∧ cycleWeight g σ = r.weight) ∧
      ∀ σ, σ.Perm (List.range g.vertexCount) → r.weight ≤ cycleWeight g σ := by
  have hsum := sumsBelow_of_bound hpos hW hn
  exact ⟨solution g, execute_eq prev ind h2 h31 hpos hsum, solution_bruteForce hpos hsum h2,
    ⟨_, solution_perm hpos hsum h2, (solution_weight hpos hsum h2).symm⟩,
    solution_le hpos hsum h2⟩

theorem execute_weight_eq_bruteForce_witness :
    ∃ r, execute blank (allRead 7) (squareGraph 10 14) = .ok r ∧
      bruteForce (squareGraph 10 14) = some r.weight ∧
      (∃ σ, σ.Perm (List.range (squareGraph 10 14).vertexCount) ∧
        cycleWeight (squareGraph 10 14) σ = r.weight) ∧
      ∀ σ, σ.Perm (List.range (squareGraph 10 14).vertexCount) →
        r.weight ≤ cycleWeight (squareGraph 10 14) σ :=
  execute_weight_eq_bruteForce blank (allRead 7) (squareGraph 10 14) 14 (by decide) (by decide)
    (nonNegative_square (by decide) (by decide)) (boundedBy_square (by decide) (by decide))
    (by decide)

/-- C2: on a graph with `2 ≤ n ≤ 31` vertices whose weights between distinct
vertices lie in `[0, W]` with `n * W < INT_MAX`, the vertex sequence
`execute` returns has length `n` and contains each vertex `0 .. n-1`
exactly once. -/
theorem execute_path_each_vertex_once (prev : DynamicProgramming) (ind : Indeterminate)
    (g : GraphMatrix) (W : Int) (h2 : 2 ≤ g.vertexCount) (h31 : g.vertexCount ≤ 31)
    (hpos : NonNegative g) (hW : BoundedBy g W) (hn : (g.vertexCount : Int) * W < INT_MAX) :
    ∃ r, execute prev ind g = .ok r ∧ r.path.length = g.vertexCount ∧
      ∀ v, v < g.vertexCount → r.path.count v = 1 := by
  have hsum := sumsBelow_of_bound hpos hW hn
  have hp := solution_perm hpos hsum h2
  refine ⟨solution g, execute_eq prev ind h2 h31 hpos hsum, ?_, ?_⟩
  · rw [hp.length_eq, List.length_range]
  · intro v hv
    exact List.count_eq_one_of_mem (hp.nodup_iff.2 (List.nodup_range _))
      (hp.symm.subset (List.mem_range.2 hv))

theorem execute_path_each_vertex_once_witness :
    ∃ r, execute blank (allRead 7) (constGraph 5 10) = .ok r ∧
      r.path.length = (constGraph 5 10).vertexCount ∧
      ∀ v, v < (constGraph 5 10).vertexCount → r.path.count v = 1 :=
  execute_path_each_vertex_once blank (allRead 7) (constGraph 5 10) 10 (by decide) (by decide)
    (nonNegative_const 5 (by decide)) (boundedBy_const 5 10) (by decide)

/-- C3: on a graph with `2 ≤ n ≤ 31` vertices whose weights between distinct
vertices lie in `[0, W]` with `n * W < INT_MAX`, the weight in the `Path`
returned by `execute` is the weight of the returned vertex sequence `v`
read as a cycle, `w(v[n-1], v[0]) + Σ_{i ≤ n-2} w(v[i], v[i+1])`. -/
theorem execute_weight_eq_cycleWeight (prev : DynamicProgramming) (ind : Indeterminate)
    (g : GraphMatrix) (W : Int) (h2 : 2 ≤ g.vertexCount) (h31 : g.vertexCount ≤ 31)
    (hpos : NonNegative g) (hW : BoundedBy g W) (hn : (g.vertexCount : Int) * W < INT_MAX) :
    ∃ r, execute prev ind g = .ok r ∧ r.weight = cycleWeight g r.path := by
  have hsum := sumsBelow_of_bound hpos hW hn
  exact ⟨solution g, execute_eq prev ind h2 h31 hpos hsum, solution_weight hpos hsum h2⟩

theorem execute_weight_eq_cycleWeight_witness :
    ∃ r, execute blank (allRead 3) (squareGraph 10 14) = .ok r ∧
      r.weight = cycleWeight (squareGraph 10 14) r.path :=
  execute_weight_eq_cycleWeight blank (allRead 3) (squareGraph 10 14) 14 (by decide) (by decide)
    (nonNegative_square (by decide) (by decide)) (boundedBy_square (by decide) (by decide))
    (by decide)

end HeldKarp

namespace HeldKarp

/-! ## The recurrence on freshly initialised tables -/

/-- Outside `1 ≤ n ≤ 31` the prologue of `execute` is undefined. -/
theorem setUp_error (prev : DynamicProgramming) (ind : Indeterminate) (g : GraphMatrix)
    (h : g.vertexCount = 0 ∨ 32 ≤ g.vertexCount) : ∃ e, setUp prev ind g = .error e := by
  by_cases h32 : g.vertexCount = 32
  · have hs : shiftLeftInt 1 ((g.vertexCount : Int) - 1) = .ok (-2147483648) := by
      rw [h32]; rfl
    have hsub : subInt (-2147483648) 1 = .error .signedOverflow := by rfl
    exact ⟨.signedOverflow, by simp only [setUp, hs, hsub]⟩
  · have hs : shiftLeftInt 1 ((g.vertexCount : Int) - 1) = .error .shiftCount := by
      unfold shiftLeftInt
      rw [if_pos (by omega)]
    exact ⟨.shiftCount, by simp only [setUp, hs]⟩

theorem setUp_ok {prev : DynamicProgramming} {ind : Indeterminate} {g : GraphMatrix}
    {dp0 : DynamicProgramming} (hset : setUp prev ind g = .ok dp0) :
    1 ≤ g.vertexCount ∧ g.vertexCount ≤ 31 := by
  by_contra hc
  obtain ⟨e, he⟩ := setUp_error prev ind g (by omega)
  rw [he] at hset
  cases hset

theorem isShortest_empty (g : GraphMatrix) (p : Nat) :
    IsShortest g 0 p (g.weight (g.vertexCount - 1) p) := by
  refine ⟨⟨[], ⟨List.nodup_nil, fun v => by simp⟩, rfl⟩, ?_⟩
  intro xs ho
  have hxs : xs = [] := by
    cases xs with
    | nil => rfl
    | cons a t =>
      have := (ho.2 a).1 (List.mem_cons_self _ _)
      simp at this
  subst hxs
  exact le_refl _

theorem heldKarpAlgorithm_computed (stack : Nat → Nat → Nat) {fuel : Nat} (hf : 1 ≤ fuel)
    (dp : DynamicProgramming) (S p : Nat) (h : dp.previousResults S p ≠ -1) :
    heldKarpAlgorithm stack fuel dp S p = some (dp.previousResults S p, dp) := by
  cases fuel with
  | zero => omega
  | succ fuel => rw [heldKarpAlgorithm_succ, if_pos h]

/-- C4: on the tables as `execute` initialises them, for a graph whose
weights are non-negative and, between distinct vertices, at most `W` with
`n * W < INT_MAX`, for every set `S` of
vertices from `{0 .. n-2}` and every end vertex `p < n` outside `S`, the call
`heldKarpAlgorithm(S, p)` returns the least weight, over the orderings
`x1 .. xk` of the vertices of `S`, of
`w(n-1, x1) + w(x1, x2) + ... + w(xk, p)`. -/
theorem heldKarpAlgorithm_shortest_path (prev : DynamicProgramming) (ind : Indeterminate)
    (g : GraphMatrix) (W : Int) (dp0 : DynamicProgramming)
    (hset : setUp prev ind g = .ok dp0)
    (hw : ∀ u v, u < g.vertexCount → v < g.vertexCount → 0 ≤ g.weight u v)
    (hW : BoundedBy g W) (hn : (g.vertexCount : Int) * W < INT_MAX)
    (S p : Nat) (hS : S < 2 ^ (g.vertexCount - 1)) (hp : p < g.vertexCount)
    (hpS : S.testBit p = false) :
    ∃ val dp', heldKarpAlgorithm ind.stack g.vertexCount dp0 S p = some (val, dp') ∧
      IsShortest g S p val := by
  obtain ⟨h1, h31⟩ := setUp_ok hset
  rw [setUp_eq prev ind g h1 h31] at hset
  injection hset with hset
  subst hset
  by_cases h0 : S = 0
  · subst h0
    have hne : g.weight (g.vertexCount - 1) p ≠ -1 := by
      have := hw (g.vertexCount - 1) p (by omega) hp
      omega
    have hcall := heldKarpAlgorithm_computed ind.stack h1 (initializeValues
        { previousResults := fun i j =>
            if i < 2 ^ (g.vertexCount - 1) ∧ j < g.vertexCount then -1 else ind.results i j
          predecessors := ind.heap
          startingVertex := g.vertexCount - 1
          graph := g
          graphSize := g.vertexCount
          initialMask := 2 ^ (g.vertexCount - 1) - 1 }) 0 p
        (by simpa [initializeValues, hp] using hne)
    refine ⟨_, _, hcall, ?_⟩
    have := isShortest_empty g p
    simpa [initializeValues, hp] using this
  · have hpos : NonNegative g := fun u v hu hv _ => hw u v hu hv
    have hsum := sumsBelow_of_bound hpos hW hn
    have hv : Valid g.vertexCount S p := ⟨hS, hp, hpS, fun h => absurd h h0⟩
    have hc : card (g.vertexCount - 1) S < g.vertexCount := by
      have := card_le (g.vertexCount - 1) S
      omega
    obtain ⟨dp', hcall, -, -, -⟩ :=
      heldKarp_memo hpos hsum ind.stack g.vertexCount _ S p hv hc
        (inv_initial ind.results ind.heap ind.stack g)
    exact ⟨_, dp', hcall, recurrence_isShortest hpos hsum hv⟩

theorem heldKarpAlgorithm_shortest_path_witness :
    ∃ val dp', heldKarpAlgorithm (allRead 7).stack (squareGraph 10 14).vertexCount
        squareTables 5 1 = some (val, dp') ∧
      IsShortest (squareGraph 10 14) 5 1 val :=
  heldKarpAlgorithm_shortest_path blank (allRead 7) (squareGraph 10 14) 14 squareTables rfl
    (fun u v _ _ => by
      simp only [squareGraph]
      split_ifs <;> omega)
    (boundedBy_square (by decide) (by decide))
    (by decide) 5 1 (by decide) (by decide) (by decide)

end HeldKarp

namespace HeldKarp

/-! ## Termination of the recursion for arbitrary tables -/

theorem sameFields_refl (dp : DynamicProgramming) : SameFields dp dp := ⟨rfl, rfl, rfl, rfl⟩

theorem sameFields_trans {a b c : DynamicProgramming} (h1 : SameFields a b)
    (h2 : SameFields b c) : SameFields a c :=
  ⟨h2.1.trans h1.1, h2.2.1.trans h1.2.1, h2.2.2.1.trans h1.2.2.1, h2.2.2.2.trans h1.2.2.2⟩

theorem scan_total (stack : Nat → Nat → Nat) (fuel m : Nat)
    (ih : ∀ dp S p, dp.graphSize - 1 = m → card m S < fuel →
      ∃ r dp', heldKarpAlgorithm stack fuel dp S p = some (r, dp') ∧ SameFields dp dp')
    {S : Nat} (p : Nat) (hc : card m S < fuel + 1) (vs : List Nat) (hvs : ∀ x ∈ vs, x < m) :
    ∀ (dp : DynamicProgramming) (j : Nat) (w : Int), dp.graphSize - 1 = m →
      ∃ dp' j' w', vs.foldl (scanVertex (heldKarpAlgorithm stack fuel) S p) (some (dp, j, w))
          = some (dp', j', w') ∧ SameFields dp dp' := by
  induction vs with
  | nil => intro dp j w _; exact ⟨dp, j, w, rfl, sameFields_refl dp⟩
  | cons x vs ihv =>
    intro dp j w hm
    have hvs' : ∀ y ∈ vs, y < m := fun y hy => hvs y (List.mem_cons_of_mem _ hy)
    rw [List.foldl_cons]
    by_cases hb : S &&& (1 <<< x) = 1 <<< x
    · have hx : S.testBit x = true := (and_bit_iff S x).1 hb
      have hcd := card_drop (hvs x (List.mem_cons_self _ _)) hx
      obtain ⟨r, dp1, hcall, hs1⟩ := ih dp (S ^^^ (1 <<< x)) x hm (by omega)
      have hstep : ∃ j1 w1, scanVertex (heldKarpAlgorithm stack fuel) S p (some (dp, j, w)) x
          = some (dp1, j1, w1) := by
        simp only [scanVertex, hb, hcall, if_true]
        split
        · exact ⟨_, _, rfl⟩
        · exact ⟨_, _, rfl⟩
      obtain ⟨j1, w1, hstep⟩ := hstep
      rw [hstep]
      obtain ⟨dp', j', w', hfold, hs'⟩ := ihv hvs' dp1 j1 w1 (by rw [hs1.2.1]; exact hm)
      exact ⟨dp', j', w', hfold, sameFields_trans hs1 hs'⟩
    · rw [scanVertex_skip _ S p dp j w x hb]
      exact ihv hvs' dp j w hm

/-- With a recursion budget above the number of vertices in the mask, the
call returns, whatever the tables hold. -/
theorem heldKarp_total (stack : Nat → Nat → Nat) (m : Nat) :
    ∀ fuel dp S p, dp.graphSize - 1 = m → card m S < fuel →
      ∃ r dp', heldKarpAlgorithm stack fuel dp S p = some (r, dp') ∧ SameFields dp dp' := by
  intro fuel
  induction fuel with
  | zero => intro dp S p _ hc; omega
  | succ fuel ih =>
    intro dp S p hm hc
    rw [heldKarpAlgorithm_succ]
    by_cases hprev : dp.previousResults S p ≠ -1
    · rw [if_pos hprev]
      exact ⟨_, dp, rfl, sameFields_refl dp⟩
    · rw [if_neg hprev]
      obtain ⟨dp', j', w', hfold, hs'⟩ :=
        scan_total stack fuel m ih p hc (List.range m) (fun x hx => List.mem_range.1 hx)
          dp (stack S p) INT_MAX hm
      rw [hm, hfold]
      exact ⟨_, _, rfl, hs'⟩

theorem fill_length (predecessors : Nat → Nat → Nat) :
    ∀ k mask vertex, (fill predecessors k mask vertex).length = k := by
  intro k
  induction k with
  | zero => intro mask vertex; rfl
  | succ k ih =>
    intro mask vertex
    simp [fill, ih]

theorem fill_getLast (predecessors : Nat → Nat → Nat) (k mask vertex : Nat) :
    (fill predecessors (k + 1) mask vertex).getLast? = some vertex := by
  simp [fill]

/-! ## Position of the start vertex in the returned sequence -/

theorem pairGraph_five_nonNegative : NonNegative (pairGraph 5 5) := by
  intro u v _ _ _
  unfold pairGraph
  dsimp only
  split
  · decide
  · split <;> decide

theorem pairGraph_five_bounded : BoundedBy (pairGraph 5 5) 5 := by
  intro u v _ _ _
  unfold pairGraph
  dsimp only
  split
  · decide
  · split <;> decide

/-- C5 (as stated, refuted): on the 2-vertex graph with both weights `5`,
`execute` returns the sequence `[0, 1]`, whose first element is `0` and not
the start vertex `n - 1 = 1`. -/
theorem execute_first_element_counterexample :
    execute blank (allRead 0) (pairGraph 5 5) = .ok (Path.mk [0, 1] 10) ∧
      (Path.mk [0, 1] 10).path.head? ≠ some ((pairGraph 5 5).vertexCount - 1) :=
  ⟨rfl, by decide⟩

/-- C5 (amended): for every graph with `2 ≤ n ≤ 31` vertices, non-negative
weights and path sums below `INT_MAX`, `execute` returns a vertex sequence
of `n` elements whose last element is the fixed start vertex `n - 1`, and
whose first element is a vertex other than `n - 1`. -/
theorem execute_last_element_is_start (prev : DynamicProgramming) (ind : Indeterminate)
    (g : GraphMatrix) (h2 : 2 ≤ g.vertexCount) (h31 : g.vertexCount ≤ 31)
    (hpos : NonNegative g) (hsum : SumsBelow g) :
    ∃ r, execute prev ind g = .ok r ∧ r.path.length = g.vertexCount ∧
      r.path.getLast? = some (g.vertexCount - 1) ∧
      r.path.head? ≠ some (g.vertexCount - 1) := by
  obtain ⟨ho, -, -⟩ := route_facts hpos hsum (fun _ _ => 0) _ _ _ (valid_full h2) (card_full _)
  have hlt := ordering_lt (valid_full h2) ho
  have hlen := (solution_perm hpos hsum h2).length_eq
  refine ⟨solution g, execute_eq prev ind h2 h31 hpos hsum, ?_, ?_, ?_⟩
  · simpa using hlen
  · simp only [solution]
    exact List.getLast?_concat _
  · simp only [solution] at hlen ⊢
    cases hr : route g (fun _ _ => 0) (g.vertexCount - 1) (fullMask g) (g.vertexCount - 1) with
    | nil =>
      rw [hr] at hlen
      simp at hlen
      omega
    | cons x t =>
      have hx := hlt x (by rw [hr]; exact List.mem_cons_self _ _)
      simp only [List.cons_append, List.head?_cons, ne_eq, Option.some.injEq]
      omega

theorem execute_last_element_is_start_witness :
    ∃ r, execute blank (allRead 0) (pairGraph 5 5) = .ok r ∧
      r.path.length = (pairGraph 5 5).vertexCount ∧
      r.path.getLast? = some ((pairGraph 5 5).vertexCount - 1) ∧
      r.path.head? ≠ some ((pairGraph 5 5).vertexCount - 1) :=
  execute_last_element_is_start blank (allRead 0) (pairGraph 5 5) (by decide) (by decide)
    pairGraph_five_nonNegative
    (@sumsBelow_of_bound (pairGraph 5 5) 5 pairGraph_five_nonNegative
      pairGraph_five_bounded (by decide))

end HeldKarp

namespace HeldKarp

/-! ## The result depends on the vertex count and the weights only -/

theorem relax_congr {val val' : Nat → Nat → Int} {g g' : GraphMatrix} (S p : Nat)
    (acc : Nat × Int) (x : Nat)
    (hval : val' (S ^^^ (1 <<< x)) x = val (S ^^^ (1 <<< x)) x)
    (hw : g'.weight x p = g.weight x p) :
    relax val' g' S p acc x = relax val g S p acc x := by
  simp only [relax, hval, hw]

theorem recurrence_congr {g g' : GraphMatrix} (hn : g'.vertexCount = g.vertexCount)
    (hw : ∀ u v, u < g.vertexCount → v < g.vertexCount → g'.weight u v = g.weight u v) :
    ∀ k S p, p < g.vertexCount → recurrence g' k S p = recurrence g k S p := by
  intro k
  induction k with
  | zero =>
    intro S p hp
    simp only [recurrence, hn]
    exact hw _ _ (by omega) hp
  | succ k ih =>
    intro S p hp
    simp only [recurrence, hn]
    congr 1
    apply List.foldl_ext
    intro acc x hx
    have hx' := List.mem_range.1 hx
    exact relax_congr S p acc x (ih _ x (by omega)) (hw x p (by omega) hp)

theorem choice_congr {g g' : GraphMatrix} (hn : g'.vertexCount = g.vertexCount)
    (hw : ∀ u v, u < g.vertexCount → v < g.vertexCount → g'.weight u v = g.weight u v)
    (j k S p : Nat) (hp : p < g.vertexCount) : choice g' j k S p = choice g j k S p := by
  simp only [choice, hn]
  congr 1
  apply List.foldl_ext
  intro acc x hx
  have hx' := List.mem_range.1 hx
  exact relax_congr S p acc x (recurrence_congr hn hw k _ x (by omega)) (hw x p (by omega) hp)

theorem choice_lt (g : GraphMatrix) (h1 : 1 ≤ g.vertexCount) (k S p : Nat) :
    choice g 0 k S p < g.vertexCount := by
  obtain ⟨-, -, h3⟩ :=
    relax_foldl (recurrence g k) g S p (List.range (g.vertexCount - 1)) 0 INT_MAX
  unfold choice
  rcases h3 with h3 | ⟨h3, -⟩
  · rw [h3]
    exact h1
  · have := List.mem_range.1 h3
    omega

theorem route_congr {g g' : GraphMatrix} (h1 : 1 ≤ g.vertexCount)
    (hn : g'.vertexCount = g.vertexCount)
    (hw : ∀ u v, u < g.vertexCount → v < g.vertexCount → g'.weight u v = g.weight u v) :
    ∀ k S p, p < g.vertexCount →
      route g' (fun _ _ => 0) k S p = route g (fun _ _ => 0) k S p := by
  intro k
  induction k with
  | zero => intro S p _; rfl
  | succ k ih =>
    intro S p hp
    simp only [route]
    rw [choice_congr hn hw 0 k S p hp, ih _ _ (choice_lt g h1 k S p)]

theorem solution_congr {g g' : GraphMatrix} (h1 : 1 ≤ g.vertexCount)
    (hn : g'.vertexCount = g.vertexCount)
    (hw : ∀ u v, u < g.vertexCount → v < g.vertexCount → g'.weight u v = g.weight u v) :
    solution g' = solution g := by
  simp only [solution, fullMask, hn]
  rw [route_congr h1 hn hw _ _ _ (by omega), recurrence_congr hn hw _ _ _ (by omega)]

/-- C6 (as stated, refuted): on the 3-vertex graph whose two closed tours
both weigh `INT_MAX` no candidate is below the initial minimum, the local
`predecessor` is stored without having been assigned, and two calls on the
same graph that differ only in the content of uninitialised storage return
different vertex sequences. -/
theorem execute_indeterminate_counterexample :
    execute blank (allRead 0) saturatedGraph = .ok (Path.mk [1, 0, 2] 2147483647) ∧
      execute blank (allRead 1) saturatedGraph = .ok (Path.mk [0, 1, 2] 2147483647) :=
  ⟨rfl, rfl⟩

/-- C6 (amended): for graphs with `2 ≤ n ≤ 31` vertices whose weights between
distinct vertices lie in `[0, W]` with `n * W < INT_MAX`, the `Path` returned
by `execute` is a function of the vertex count and the weights only: two
calls on graphs with the same vertex count and the same weights return the
same weight and the same vertex sequence, whatever the static fields and
the uninitialised storage hold at either call. -/
theorem execute_deterministic (prev prev' : DynamicProgramming) (ind ind' : Indeterminate)
    (g g' : GraphMatrix) (W : Int) (h2 : 2 ≤ g.vertexCount) (h31 : g.vertexCount ≤ 31)
    (hpos : NonNegative g) (hW : BoundedBy g W) (hn : (g.vertexCount : Int) * W < INT_MAX)
    (hcount : g'.vertexCount = g.vertexCount)
    (hweight : ∀ u v, u < g.vertexCount → v < g.vertexCount → g'.weight u v = g.weight u v) :
    ∃ r, execute prev ind g = .ok r ∧ execute prev' ind' g' = .ok r := by
  have hsum := sumsBelow_of_bound hpos hW hn
  have hpos' : NonNegative g' := by
    intro u v hu hv huv
    rw [hcount] at hu hv
    rw [hweight u v hu hv]
    exact hpos u v hu hv huv
  have hW' : BoundedBy g' W := by
    intro u v hu hv huv
    rw [hcount] at hu hv
    rw [hweight u v hu hv]
    exact hW u v hu hv huv
  have hsum' := sumsBelow_of_bound hpos' hW' (by rw [hcount]; exact hn)
  refine ⟨solution g, execute_eq prev ind h2 h31 hpos hsum, ?_⟩
  rw [← solution_congr (by omega) hcount hweight]
  exact execute_eq prev' ind' (by omega) (by omega) hpos' hsum'

theorem execute_deterministic_witness :
    ∃ r, execute blank (allRead 0) (squareGraph 10 14) = .ok r ∧
      execute squareTables (allRead 9) (squareGraph 10 14) = .ok r :=
  execute_deterministic blank squareTables (allRead 0) (allRead 9) (squareGraph 10 14)
    (squareGraph 10 14) 14 (by decide) (by decide)
    (nonNegative_square (by decide) (by decide)) (boundedBy_square (by decide) (by decide))
    (by decide) rfl (fun _ _ _ _ => rfl)

end HeldKarp

namespace HeldKarp

/-! ## Monotonicity in the weights -/

theorem walkWeight_mono {g g' : GraphMatrix} (h : ∀ u v, g.weight u v ≤ g'.weight u v)
    (xs : List Nat) : ∀ s p, walkWeight g s xs p ≤ walkWeight g' s xs p := by
  induction xs with
  | nil => intro s p; exact h s p
  | cons x xs ih =>
    intro s p
    simp only [walkWeight]
    exact add_le_add (h s x) (ih x p)

theorem cycleWeight_mono {g g' : GraphMatrix} (h : ∀ u v, g.weight u v ≤ g'.weight u v)
    (σ : List Nat) (hσ : σ ≠ []) : cycleWeight g σ ≤ cycleWeight g' σ := by
  cases σ with
  | nil => exact absurd rfl hσ
  | cons x r =>
    rw [cycleWeight_cons, cycleWeight_cons]
    exact walkWeight_mono h r x x

theorem execute_ok_bound {prev : DynamicProgramming} {ind : Indeterminate} {g : GraphMatrix}
    {r : Path} (h : execute prev ind g = .ok r) : 1 ≤ g.vertexCount ∧ g.vertexCount ≤ 31 := by
  by_contra hc
  obtain ⟨e, he⟩ := setUp_error prev ind g (by omega)
  unfold execute at h
  rw [he] at h
  cases h

/-- C7: for two graphs `g` and `g'` on the same `n ≥ 2` vertices, both with
weights between distinct vertices in `[0, W]`, `n * W < INT_MAX`, that agree on
every edge except one ordered pair `(u, v)` with `w'(u, v) ≥ w(u, v)`, the
weight `execute` returns for `g'` is at least the weight it returns for
`g`; both calls return a `Path` when `n ≤ 31`. -/
theorem execute_weight_monotone (prev prev' : DynamicProgramming) (ind ind' : Indeterminate)
    (g g' : GraphMatrix) (W W' : Int) (u v : Nat)
    (hcount : g'.vertexCount = g.vertexCount) (h2 : 2 ≤ g.vertexCount)
    (hpos : NonNegative g) (hW : BoundedBy g W) (hn : (g.vertexCount : Int) * W < INT_MAX)
    (hpos' : NonNegative g') (hW' : BoundedBy g' W')
    (hn' : (g'.vertexCount : Int) * W' < INT_MAX)
    (hsame : ∀ a b, (a, b) ≠ (u, v) → g'.weight a b = g.weight a b)
    (hincr : g.weight u v ≤ g'.weight u v) :
    (g.vertexCount ≤ 31 →
      ∃ r r', execute prev ind g = .ok r ∧ execute prev' ind' g' = .ok r') ∧
    ∀ r r', execute prev ind g = .ok r → execute prev' ind' g' = .ok r' →
      r.weight ≤ r'.weight := by
  have hsum := sumsBelow_of_bound hpos hW hn
  have hsum' := sumsBelow_of_bound hpos' hW' hn'
  have h2' : 2 ≤ g'.vertexCount := by omega
  constructor
  · intro h31
    exact ⟨solution g, solution g', execute_eq prev ind h2 h31 hpos hsum,
      execute_eq prev' ind' h2' (by omega) hpos' hsum'⟩
  · intro r r' hr hr'
    have h31 := (execute_ok_bound hr).2
    rw [execute_eq prev ind h2 h31 hpos hsum] at hr
    rw [execute_eq prev' ind' h2' (by omega) hpos' hsum'] at hr'
    injection hr with hr
    injection hr' with hr'
    subst hr hr'
    have hle : ∀ a b, g.weight a b ≤ g'.weight a b := by
      intro a b
      by_cases hab : (a, b) = (u, v)
      · injection hab with ha hb
        subst ha hb
        exact hincr
      · rw [hsame a b hab]
    have hperm := solution_perm hpos' hsum' h2'
    have hne : (solution g').path ≠ [] := by
      intro h
      have := hperm.length_eq
      rw [h, List.length_range] at this
      simp at this
      omega
    rw [hcount] at hperm
    calc (solution g).weight
        ≤ cycleWeight g (solution g').path := solution_le hpos hsum h2 _ hperm
      _ ≤ cycleWeight g' (solution g').path := cycleWeight_mono hle _ hne
      _ = (solution g').weight := (solution_weight hpos' hsum' h2').symm

theorem execute_weight_monotone_witness :
    ((squareGraph 10 14).vertexCount ≤ 31 →
      ∃ r r', execute blank (allRead 0) (squareGraph 10 14) = .ok r ∧
        execute blank (allRead 0)
          { squareGraph 10 14 with
            weight := fun a b => if a = 0 ∧ b = 1 then 12 else (squareGraph 10 14).weight a b }
          = .ok r') ∧
    ∀ r r', execute blank (allRead 0) (squareGraph 10 14) = .ok r →
      execute blank (allRead 0)
          { squareGraph 10 14 with
            weight := fun a b => if a = 0 ∧ b = 1 then 12 else (squareGraph 10 14).weight a b }
          = .ok r' →
      r.weight ≤ r'.weight :=
  execute_weight_monotone blank blank (allRead 0) (allRead 0) (squareGraph 10 14)
    { squareGraph 10 14 with
      weight := fun a b => if a = 0 ∧ b = 1 then 12 else (squareGraph 10 14).weight a b }
    14 14 0 1 rfl (by decide)
    (nonNegative_square (by decide) (by decide)) (boundedBy_square (by decide) (by decide))
    (by decide)
    (fun a b _ _ _ => by
      simp only [squareGraph]
      split_ifs <;> omega)
    (fun a b _ _ _ => by
      simp only [squareGraph]
      split_ifs <;> omega)
    (by decide)
    (fun a b hab => by
      have : ¬ (a = 0 ∧ b = 1) := fun h => hab (by rw [h.1, h.2])
      simp only [this, if_false])
    (by decide)

end HeldKarp

namespace HeldKarp

/-! ## Concrete scenarios -/

theorem solution_route {g : GraphMatrix} (hpos : NonNegative g) (hsum : SumsBelow g)
    (h2 : 2 ≤ g.vertexCount) :
    ∃ xs, IsOrdering (fullMask g) xs ∧ (solution g).path = xs ++ [g.vertexCount - 1] ∧
      (solution g).weight = walkWeight g (g.vertexCount - 1) xs (g.vertexCount - 1) := by
  obtain ⟨ho, hw, -⟩ := route_facts hpos hsum (fun _ _ => 0) _ _ _ (valid_full h2) (card_full _)
  exact ⟨_, ho, rfl, hw⟩

theorem ordering_full_length {g : GraphMatrix} (h1 : 1 ≤ g.vertexCount) {xs : List Nat}
    (ho : IsOrdering (fullMask g) xs) : xs.length + 1 = g.vertexCount := by
  have := ((ordering_iff_perm g h1 xs).1 ho).length_eq
  simpa using this

theorem ordering_pair {g : GraphMatrix} (hcount : g.vertexCount = 2) {xs : List Nat}
    (ho : IsOrdering (fullMask g) xs) : xs = [0] := by
  have hlen := ordering_full_length (by omega) ho
  have hmem : 0 ∈ xs := by
    rw [ho.2 0, testBit_fullMask, hcount]
    decide
  cases xs with
  | nil => exact absurd hmem (List.not_mem_nil 0)
  | cons x t =>
    cases t with
    | nil =>
      have hx : 0 = x := List.mem_singleton.1 hmem
      rw [hx]
    | cons y t =>
      simp only [List.length_cons] at hlen
      omega

/-- C8 (as stated, refuted): on the 2-vertex graph with
`w(0,1) = w(1,0) = 2^30`, whose weights are non-negative, the 32-bit sum of
the two weights wraps: the returned weight is `-2^31` and not the sum
`2^31`. -/
theorem execute_two_vertices_counterexample :
    execute blank (allRead 1) (pairGraph 1073741824 1073741824)
        = .ok (Path.mk [0, 1] (-2147483648)) ∧
      (pairGraph 1073741824 1073741824).weight 1 0 + (pairGraph 1073741824 1073741824).weight 0 1
        = 2147483648 :=
  ⟨rfl, rfl⟩

/-- C8 (amended): for every 2-vertex graph with non-negative weights whose
sum `w(1,0) + w(0,1)` is below `INT_MAX`, `execute` returns weight
`w(1,0) + w(0,1)` and the vertex sequence `[0, 1]`; for
`w(0,1) = w(1,0) = 5` the weight is `10`. -/
theorem execute_two_vertices (prev : DynamicProgramming) (ind : Indeterminate)
    (g : GraphMatrix) (hcount : g.vertexCount = 2)
    (h01 : 0 ≤ g.weight 0 1) (h10 : 0 ≤ g.weight 1 0)
    (hlt : g.weight 1 0 + g.weight 0 1 < INT_MAX) :
    execute prev ind g = .ok (Path.mk [0, 1] (g.weight 1 0 + g.weight 0 1)) := by
  have hpos : NonNegative g := by
    intro u v hu hv huv
    rw [hcount] at hu hv
    have : (u = 0 ∧ v = 1) ∨ (u = 1 ∧ v = 0) := by omega
    rcases this with ⟨rfl, rfl⟩ | ⟨rfl, rfl⟩
    · exact h01
    · exact h10
  have hfull : fullMask g = 1 := by
    unfold fullMask
    rw [hcount]
    rfl
  have hsum : SumsBelow g := by
    intro S xs p hv ho
    obtain ⟨hS, hp, hbit, hbase⟩ := hv
    rw [hcount] at hS hp hbase ⊢
    have hS' : S = 0 ∨ S = 1 := by
      have : S < 2 := by simpa using hS
      omega
    rcases hS' with rfl | rfl
    · have hxs : xs = [] := by
        cases xs with
        | nil => rfl
        | cons a t =>
          have := (ho.2 a).1 (List.mem_cons_self _ _)
          simp at this
      have hp0 : p = 0 := by
        have := hbase rfl
        omega
      subst hxs hp0
      simp only [walkWeight]
      have : (2 : Nat) - 1 = 1 := rfl
      rw [this]
      omega
    · have hxs : xs = [0] := by
        rw [← hfull] at ho
        exact ordering_pair hcount ho
      have hp1 : p = 1 := by
        by_contra hne
        have hp0 : p = 0 := by omega
        subst hp0
        simp at hbit
      subst hxs hp1
      simp only [walkWeight]
      exact hlt
  have h2 : 2 ≤ g.vertexCount := by omega
  rw [execute_eq prev ind h2 (by omega) hpos hsum]
  obtain ⟨xs, ho, hpath, hweight⟩ := solution_route hpos hsum h2
  have hxs := ordering_pair hcount ho
  subst hxs
  rw [hcount] at hpath hweight
  have : solution g = Path.mk (solution g).path (solution g).weight := rfl
  rw [this, hpath, hweight]
  simp [walkWeight]

theorem execute_two_vertices_witness :
    execute blank (allRead 1) (pairGraph 5 5)
      = .ok (Path.mk [0, 1] ((pairGraph 5 5).weight 1 0 + (pairGraph 5 5).weight 0 1)) ∧
      (pairGraph 5 5).weight 1 0 + (pairGraph 5 5).weight 0 1 = 10 :=
  ⟨execute_two_vertices blank (allRead 1) (pairGraph 5 5) rfl (by decide) (by decide)
    (by decide), rfl⟩

theorem walkWeight_const (n : Nat) (c : Int) (xs : List Nat) :
    ∀ s p, walkWeight (constGraph n c) s xs p = (xs.length + 1) * c := by
  induction xs with
  | nil => intro s p; simp [walkWeight, constGraph]
  | cons x xs ih =>
    intro s p
    simp only [walkWeight, ih, List.length_cons]
    simp only [constGraph]
    push_cast
    ring

/-- C9: for every `n` in `[2, 31]` and every constant `c ≥ 0` with
`n * c < INT_MAX`, on the `n`-vertex graph whose every edge has weight `c`
`execute` returns weight `n * c`. -/
theorem execute_constGraph (prev : DynamicProgramming) (ind : Indeterminate) (n : Nat) (c : Int)
    (h2 : 2 ≤ n) (h31 : n ≤ 31) (hc : 0 ≤ c) (hn : (n : Int) * c < INT_MAX) :
    ∃ r, execute prev ind (constGraph n c) = .ok r ∧ r.weight = (n : Int) * c := by
  have hpos := nonNegative_const n hc
  have hsum : SumsBelow (constGraph n c) := sumsBelow_of_bound hpos (boundedBy_const n c) hn
  have h2' : 2 ≤ (constGraph n c).vertexCount := h2
  refine ⟨solution (constGraph n c), execute_eq prev ind h2' h31 hpos hsum, ?_⟩
  obtain ⟨xs, ho, -, hweight⟩ := solution_route hpos hsum h2'
  have hlen : xs.length + 1 = n := ordering_full_length (by omega) ho
  rw [hweight, walkWeight_const]
  have : ((xs.length : Int) + 1) = (n : Int) := by exact_mod_cast hlen
  rw [this]

/-- The instance `n = 5`, `c = 10` of the constant graph: the returned weight
is `50`. -/
theorem execute_constGraph_witness :
    ∃ r, execute blank (allRead 2) (constGraph 5 10) = .ok r ∧ r.weight = ((5 : Nat) : Int) * 10 :=
  execute_constGraph blank (allRead 2) 5 10 (by decide) (by decide) (by decide) (by decide)

/-- C10 (as stated, refuted): on the square with sides `0` and diagonals
`2^30` the tour through both diagonals sums to `2^31`, which wraps to
`-2^31` and is taken as the minimum, so the returned weight is not
`4 * 0`. -/
theorem execute_square_counterexample :
    execute blank (allRead 0) (squareGraph 0 1073741824)
      = .ok (Path.mk [1, 2, 0, 3] (-2147483648)) ∧
      (0 : Int) ≤ 0 ∧ (0 : Int) ≤ 1073741824 ∧ (-2147483648 : Int) ≠ 4 * 0 :=
  ⟨rfl, by decide, by decide, by decide⟩

/-- C10 (amended): for the 4-vertex square graph with sides of weight `a` and
diagonals of weight `d`, `0 ≤ a ≤ d` and `4 * d < INT_MAX`, `execute`
returns the optimum `4 * a`. -/
theorem execute_square (prev : DynamicProgramming) (ind : Indeterminate) (a d : Int)
    (ha : 0 ≤ a) (had : a ≤ d) (hd : 4 * d < INT_MAX) :
    ∃ r, execute prev ind (squareGraph a d) = .ok r ∧ r.weight = 4 * a := by
  have hpos := nonNegative_square ha had
  have hsum : SumsBelow (squareGraph a d) :=
    sumsBelow_of_bound hpos (boundedBy_square ha had) (by simpa [squareGraph] using hd)
  have h4 : (squareGraph a d).vertexCount = 4 := rfl
  have h2 : 2 ≤ (squareGraph a d).vertexCount := by omega
  refine ⟨solution (squareGraph a d), execute_eq prev ind h2 (by omega) hpos hsum, ?_⟩
  apply le_antisymm
  · have ho : IsOrdering (fullMask (squareGraph a d)) [0, 1, 2] :=
      (ordering_iff_perm _ (by omega) _).2 (by rw [h4]; decide)
    have := recurrence_le hpos hsum _ _ _ [0, 1, 2] (valid_full h2) (card_full _) ho
    have hw : walkWeight (squareGraph a d) ((squareGraph a d).vertexCount - 1) [0, 1, 2]
        ((squareGraph a d).vertexCount - 1) = 4 * a := by
      simp [walkWeight, squareGraph]
      ring
    rw [hw] at this
    exact this
  · obtain ⟨xs, ho, -, hweight⟩ := solution_route hpos hsum h2
    have hlen : xs.length + 1 = 4 := ordering_full_length (by omega) ho
    have hge : ∀ u v, u < (squareGraph a d).vertexCount → v < (squareGraph a d).vertexCount →
        u ≠ v → a ≤ (squareGraph a d).weight u v := by
      intro u v _ _ huv
      simp only [squareGraph]
      split_ifs <;> omega
    obtain ⟨s1, s2, s3, s4, s5⟩ := ordering_side (valid_full h2) ho
    have := walkWeight_ge hge xs _ _ s1 s1 s2 ho.1 s3 s4 s5
    rw [hweight]
    have hlen' : ((xs.length : Int) + 1) = 4 := by exact_mod_cast hlen
    rw [hlen'] at this
    exact this

/-- The square with sides `10` and diagonals `14`: the returned weight is
`40`. -/
theorem execute_square_witness :
    ∃ r, execute blank (allRead 5) (squareGraph 10 14) = .ok r ∧ r.weight = 4 * 10 :=
  execute_square blank (allRead 5) 10 14 (by decide) (by decide) (by decide)

end HeldKarp

namespace HeldKarp

/-! ## Vertex counts outside the supported range -/

theorem setUp_overflow (prev : DynamicProgramming) (ind : Indeterminate) (g : GraphMatrix)
    (h : g.vertexCount = 32) : setUp prev ind g = .error .signedOverflow := by
  have hs : shiftLeftInt 1 ((g.vertexCount : Int) - 1) = .ok (-2147483648) := by
    rw [h]; rfl
  have hsub : subInt (-2147483648) 1 = .error .signedOverflow := by rfl
  simp only [setUp, hs, hsub]

theorem setUp_shiftCount (prev : DynamicProgramming) (ind : Indeterminate) (g : GraphMatrix)
    (h : g.vertexCount = 0 ∨ 33 ≤ g.vertexCount) : setUp prev ind g = .error .shiftCount := by
  have hs : shiftLeftInt 1 ((g.vertexCount : Int) - 1) = .error .shiftCount := by
    unfold shiftLeftInt
    rw [if_pos (by omega)]
  simp only [setUp, hs]

theorem execute_of_setUp_error {prev : DynamicProgramming} {ind : Indeterminate}
    {g : GraphMatrix} {e : Undefined} (h : setUp prev ind g = .error e) :
    execute prev ind g = .error e := by
  unfold execute
  rw [h]

theorem execute_one (prev : DynamicProgramming) (ind : Indeterminate) (g : GraphMatrix)
    (h : g.vertexCount = 1) :
    execute prev ind g
      = .ok (Path.mk [0] (if g.weight 0 0 = -1 then INT_MAX else g.weight 0 0)) := by
  unfold execute
  rw [setUp_eq prev ind g (by omega) (by omega)]
  simp only [initializeValues, h]
  rw [heldKarpAlgorithm_succ]
  by_cases hw : g.weight 0 0 = -1
  · simp [hw, getPathVector_eq_fill, fill]
  · simp [hw, getPathVector_eq_fill, fill]


/-- C11 (as stated, refuted): for 32 vertices `execute` signals no
precondition error.  The mask expression is evaluated: `1 << 31` reads as
`INT_MIN`, and the subtraction `INT_MIN - 1` that follows is a signed
overflow, which the C++ language leaves undefined. -/
theorem execute_mask_width_counterexample :
    shiftLeftInt 1 (((constGraph 32 1).vertexCount : Int) - 1) = .ok INT_MIN ∧
      subInt INT_MIN 1 = .error .signedOverflow ∧
      execute blank (allRead 0) (constGraph 32 1) = .error .signedOverflow :=
  ⟨rfl, rfl, rfl⟩

/-- C11 (amended): `execute` contains no check of the vertex count.  For every
graph with 32 vertices it evaluates `1 << 31`, which reads as `INT_MIN`, and
then `INT_MIN - 1`, a signed overflow that is undefined behaviour; this
happens before any table is allocated and no `Path` is returned. -/
theorem execute_mask_width_undefined (prev : DynamicProgramming) (ind : Indeterminate)
    (g : GraphMatrix) (h : g.vertexCount = 32) :
    shiftLeftInt 1 ((g.vertexCount : Int) - 1) = .ok INT_MIN ∧
      subInt INT_MIN 1 = .error .signedOverflow ∧
      setUp prev ind g = .error .signedOverflow ∧
      execute prev ind g = .error .signedOverflow := by
  refine ⟨?_, rfl, setUp_overflow prev ind g h,
    execute_of_setUp_error (setUp_overflow prev ind g h)⟩
  rw [h]
  rfl

theorem execute_mask_width_undefined_witness :
    shiftLeftInt 1 (((constGraph 32 5).vertexCount : Int) - 1) = .ok INT_MIN ∧
      subInt INT_MIN 1 = .error .signedOverflow ∧
      setUp blank (allRead 3) (constGraph 32 5) = .error .signedOverflow ∧
      execute blank (allRead 3) (constGraph 32 5) = .error .signedOverflow :=
  execute_mask_width_undefined blank (allRead 3) (constGraph 32 5) rfl

/-- C12 (as stated, refuted): a graph with one vertex is not rejected;
`execute` allocates one-row tables and returns the `Path` `([0], w(0,0))`. -/
theorem execute_single_vertex_counterexample :
    execute blank (allRead 0) (constGraph 1 7) = .ok (Path.mk [0] 7) :=
  rfl

/-- C12 (amended): `execute` contains no minimum-size check.  For a graph with
one vertex it returns the `Path` `([0], w(0,0))` (with weight `INT_MAX` when
`w(0,0)` is the marker `-1`); for a graph with no vertex the shift
`1 << -1` is undefined behaviour and no `Path` is returned. -/
theorem execute_below_two (prev : DynamicProgramming) (ind : Indeterminate)
    (g : GraphMatrix) (h : g.vertexCount < 2) :
    (g.vertexCount = 1 ∧ execute prev ind g
        = .ok (Path.mk [0] (if g.weight 0 0 = -1 then INT_MAX else g.weight 0 0))) ∨
      (g.vertexCount = 0 ∧ execute prev ind g = .error .shiftCount) := by
  by_cases h1 : g.vertexCount = 1
  · exact Or.inl ⟨h1, execute_one prev ind g h1⟩
  · have h0 : g.vertexCount = 0 := by omega
    exact Or.inr ⟨h0, execute_of_setUp_error (setUp_shiftCount prev ind g (Or.inl h0))⟩

theorem execute_below_two_witness :
    ((constGraph 1 7).vertexCount = 1 ∧ execute blank (allRead 0) (constGraph 1 7)
        = .ok (Path.mk [0]
            (if (constGraph 1 7).weight 0 0 = -1 then INT_MAX
              else (constGraph 1 7).weight 0 0))) ∨
      ((constGraph 1 7).vertexCount = 0 ∧
        execute blank (allRead 0) (constGraph 1 7) = .error .shiftCount) :=
  execute_below_two blank (allRead 0) (constGraph 1 7) (by decide)

end HeldKarp

namespace FileUtils

/-- From an accumulator that ends with the separator, the loop followed by
the final append produces what `String.intercalate` builds. -/
theorem pathToStrLoop_go (bound : Nat) (rest : List Int) :
    ∀ (v : Int) (i : Nat) (acc : String), i + (v :: rest).length = bound + 2 →
      ∃ r, pathToStrLoop bound (v :: rest) i (acc ++ "->") = some r ∧
        r ++ toString ((v :: rest).getLast (List.cons_ne_nil v rest))
          = String.intercalate.go acc "->" ((v :: rest).map toString) := by
  induction rest with
  | nil =>
    intro v i acc hi
    have hgt : ¬ i ≤ bound := by
      simp only [List.length_cons, List.length_nil] at hi
      omega
    refine ⟨acc ++ "->", ?_, ?_⟩
    · simp only [pathToStrLoop, hgt, if_false]
    · simp [String.intercalate.go]
  | cons w t ih =>
    intro v i acc hi
    have hle : i ≤ bound := by
      simp only [List.length_cons] at hi
      omega
    have hi' : (i + 1) + (w :: t).length = bound + 2 := by
      simp only [List.length_cons] at hi ⊢
      omega
    obtain ⟨r, hr, hgo⟩ := ih w (i + 1) (acc ++ "->" ++ toString v) hi'
    refine ⟨r, ?_, ?_⟩
    · rw [pathToStrLoop, if_pos hle, ← String.append_assoc]
      exact hr
    · rw [List.getLast_cons (List.cons_ne_nil w t), hgo]
      simp [String.intercalate.go]

/-- C15: for every vertex sequence of length at least 2, `pathToStr` returns the
decimal renderings of the vertices in order joined by `"->"`, with no
leading or trailing separator. -/
theorem pathToStr_joins_vertices (path : List Int) (h : 2 ≤ path.length) :
    pathToStr path = some (String.intercalate "->" (path.map toString)) := by
  match path, h with
  | v :: w :: t, _ =>
    have hb : subSize (v :: w :: t).length 2 = t.length := by
      simp [subSize]
    have hl : subSize (v :: w :: t).length 1 = (v :: w :: t).length - 1 := by
      simp [subSize]
    obtain ⟨r, hr, hgo⟩ := pathToStrLoop_go t.length t w 1 (toString v) (by simp; omega)
    have hloop : pathToStrLoop t.length (v :: w :: t) 0 "" = some r := by
      rw [pathToStrLoop, if_pos (Nat.zero_le _), String.empty_append]
      exact hr
    have hlast : (v :: w :: t)[(v :: w :: t).length - 1]?
        = some ((w :: t).getLast (List.cons_ne_nil w t)) := by
      rw [← List.getLast?_eq_getElem?, List.getLast?_cons_cons, List.getLast?_eq_getLast]
    simp only [pathToStr, hb, hl, hloop, hlast]
    rw [hgo]
    simp [String.intercalate]

theorem pathToStr_joins_vertices_witness :
    pathToStr [3, 2, 1, 0, 4]
        = some (String.intercalate "->" (([3, 2, 1, 0, 4] : List Int).map toString)) ∧
      String.intercalate "->" (([3, 2, 1, 0, 4] : List Int).map toString) = "3->2->1->0->4" :=
  ⟨pathToStr_joins_vertices [3, 2, 1, 0, 4] (by decide), by decide⟩

end FileUtils

namespace GeneticAlgorithm

/-- What the code accepts: the names of at least four characters whose last
four characters are `.tsp` or `.txt`. -/
theorem is_valid_instance_file_iff (filename : List Char) :
    is_valid_instance_file filename ≠ 0 ↔
      (".tsp".toList <:+ filename ∨ ".txt".toList <:+ filename) := by
  have h5 : ∀ l : List Char, l.length ≤ 4 → l ≠ ".atsp".toList := by
    intro l hl h
    rw [h] at hl
    revert hl
    decide
  have hsuf : ∀ e : List Char, e.length = 4 →
      (e <:+ filename ↔ 4 ≤ filename.length ∧ List.drop (filename.length - 4) filename = e) := by
    intro e he
    rw [List.suffix_iff_eq_drop, he]
    constructor
    · intro h
      have hlen := congrArg List.length h
      rw [he, List.length_drop] at hlen
      exact ⟨by omega, h.symm⟩
    · intro h
      exact h.2.symm
  rw [hsuf ".tsp".toList rfl, hsuf ".txt".toList rfl]
  unfold is_valid_instance_file
  by_cases hlen : filename.length < 4
  · simp only [hlen, if_true]
    constructor
    · intro h; exact absurd rfl h
    · intro h
      rcases h with h | h <;> omega
  · have h4 : 4 ≤ filename.length := by omega
    have hd : (List.drop (filename.length - 4) filename).length ≤ 4 := by
      rw [List.length_drop]; omega
    simp only [hlen, if_false, strcmp]
    have hno := h5 _ hd
    simp only [hno, if_false, h4, true_and]
    split_ifs with hc <;> simp_all

/-- C16 (the code at the failing input): `instance2.atsp` ends with the
extension `.atsp`, and `is_valid_instance_file` returns `0` for it: `ext`
holds the last four characters `atsp`, which `strcmp` finds different from
each of `.tsp`, `.atsp` and `.txt`. -/
theorem is_valid_instance_file_atsp :
    ".atsp".toList <:+ "instance2.atsp".toList ∧
      is_valid_instance_file "instance2.atsp".toList = 0 ∧
      List.drop ("instance2.atsp".toList.length - 4) "instance2.atsp".toList = "atsp".toList :=
  ⟨by decide, by decide, by decide⟩

end GeneticAlgorithm

namespace HeldKarp

/-! ## Two runs on graphs that agree where the recursion looks -/

theorem setUp_fresh (prev : DynamicProgramming) (ind : Indeterminate) (g : GraphMatrix)
    (h1 : 1 ≤ g.vertexCount) (h31 : g.vertexCount ≤ 31) :
    setUp prev ind g = .ok (freshTables ind g) :=
  setUp_eq prev ind g h1 h31

theorem sim_scan (Cell Edge : Nat → Nat → Prop) (stack : Nat → Nat → Nat) (fuel m : Nat)
    (hclose : ∀ S p x, Cell S p → x < m → S.testBit x = true →
      Cell (S ^^^ (1 <<< x)) x ∧ Edge x p)
    (ih : ∀ dp dp' S p, Sim Cell Edge dp dp' → dp.graphSize - 1 = m → Cell S p →
      card m S < fuel →
      ∃ r d d', heldKarpAlgorithm stack fuel dp S p = some (r, d) ∧
        heldKarpAlgorithm stack fuel dp' S p = some (r, d') ∧
        Sim Cell Edge d d' ∧ SameFields dp d)
    {S p : Nat} (hcell : Cell S p) (hc : card m S < fuel + 1) (vs : List Nat)
    (hvs : ∀ x ∈ vs, x < m) :
    ∀ (dp dp' : DynamicProgramming) (j : Nat) (w : Int), Sim Cell Edge dp dp' →
      dp.graphSize - 1 = m →
      ∃ d d' j' w',
        vs.foldl (scanVertex (heldKarpAlgorithm stack fuel) S p) (some (dp, j, w))
          = some (d, j', w') ∧
        vs.foldl (scanVertex (heldKarpAlgorithm stack fuel) S p) (some (dp', j, w))
          = some (d', j', w') ∧
        Sim Cell Edge d d' ∧ SameFields dp d := by
  induction vs with
  | nil =>
    intro dp dp' j w hsim _
    exact ⟨dp, dp', j, w, rfl, rfl, hsim, sameFields_refl dp⟩
  | cons x vs ihv =>
    intro dp dp' j w hsim hm
    have hvs' : ∀ y ∈ vs, y < m := fun y hy => hvs y (List.mem_cons_of_mem _ hy)
    have hxm : x < m := hvs x (List.mem_cons_self _ _)
    rw [List.foldl_cons, List.foldl_cons]
    by_cases hb : S &&& (1 <<< x) = 1 <<< x
    · have hx : S.testBit x = true := (and_bit_iff S x).1 hb
      have hcd := card_drop hxm hx
      obtain ⟨hcell1, hedge⟩ := hclose S p x hcell hxm hx
      obtain ⟨r, d1, d1', hcall, hcall', hsim1, hs1⟩ :=
        ih dp dp' (S ^^^ (1 <<< x)) x hsim hm hcell1 (by omega)
      rw [scanVertex_call (heldKarpAlgorithm stack fuel) (fun _ _ => r) d1.graph S p dp d1 j w x
          hb hcall rfl,
        scanVertex_call (heldKarpAlgorithm stack fuel) (fun _ _ => r) d1'.graph S p dp' d1' j w x
          hb hcall' rfl,
        @relax_congr (fun _ _ => r) (fun _ _ => r) d1.graph d1'.graph S p (j, w) x rfl
          (hsim1.weights x p hedge)]
      obtain ⟨d, d', j', w', hf, hf', hsim', hs'⟩ :=
        ihv hvs' d1 d1' _ _ hsim1 (by rw [hs1.2.1]; exact hm)
      exact ⟨d, d', j', w', hf, hf', hsim', sameFields_trans hs1 hs'⟩
    · rw [scanVertex_skip _ S p dp j w x hb, scanVertex_skip _ S p dp' j w x hb]
      exact ihv hvs' dp dp' j w hsim hm

/-- Two related table states give the same value on a cell of `Cell` and
stay related. -/
theorem sim_heldKarp (Cell Edge : Nat → Nat → Prop) (stack : Nat → Nat → Nat) (m : Nat)
    (hclose : ∀ S p x, Cell S p → x < m → S.testBit x = true →
      Cell (S ^^^ (1 <<< x)) x ∧ Edge x p) :
    ∀ fuel dp dp' S p, Sim Cell Edge dp dp' → dp.graphSize - 1 = m → Cell S p →
      card m S < fuel →
      ∃ r d d', heldKarpAlgorithm stack fuel dp S p = some (r, d) ∧
        heldKarpAlgorithm stack fuel dp' S p = some (r, d') ∧
        Sim Cell Edge d d' ∧ SameFields dp d := by
  intro fuel
  induction fuel with
  | zero => intro dp dp' S p _ _ _ hc; omega
  | succ fuel ih =>
    intro dp dp' S p hsim hm hcell hc
    rw [heldKarpAlgorithm_succ, heldKarpAlgorithm_succ, hsim.results S p hcell]
    by_cases hprev : dp.previousResults S p ≠ -1
    · rw [if_pos hprev, if_pos hprev]
      exact ⟨_, dp, dp', rfl, rfl, hsim, sameFields_refl dp⟩
    · rw [if_neg hprev, if_neg hprev]
      obtain ⟨d, d', j', w', hf, hf', hsim', hs'⟩ :=
        sim_scan Cell Edge stack fuel m hclose ih hcell hc (List.range m)
          (fun x hx => List.mem_range.1 hx) dp dp' (stack S p) INT_MAX hsim hm
      rw [hsim.size, hm, hf, hf']
      refine ⟨_, _, _, rfl, rfl, ?_, hs'⟩
      constructor
      · exact hsim'.size
      · exact hsim'.start
      · exact hsim'.mask
      · show (fun a b => _) = (fun a b => _)
        rw [hsim'.preds]
      · intro T q hT
        show (if T = S ∧ q = p then w' else d'.previousResults T q)
          = (if T = S ∧ q = p then w' else d.previousResults T q)
        rw [hsim'.results T q hT]
      · exact hsim'.weights

/-- Two graphs with the same vertex count whose fresh tables are related, and
for which the top cell is in `Cell`, get the same result from `execute`. -/
theorem execute_sim (Cell Edge : Nat → Nat → Prop) (prev : DynamicProgramming)
    (ind : Indeterminate) (g g' : GraphMatrix) (hcount : g'.vertexCount = g.vertexCount)
    (h1 : 1 ≤ g.vertexCount) (h31 : g.vertexCount ≤ 31)
    (hclose : ∀ S p x, Cell S p → x < g.vertexCount - 1 → S.testBit x = true →
      Cell (S ^^^ (1 <<< x)) x ∧ Edge x p)
    (hinit : Sim Cell Edge (freshTables ind g) (freshTables ind g'))
    (htop : Cell (2 ^ (g.vertexCount - 1) - 1) (g.vertexCount - 1)) :
    execute prev ind g' = execute prev ind g := by
  have hc : card (g.vertexCount - 1) (2 ^ (g.vertexCount - 1) - 1) < g.vertexCount := by
    rw [card_full]; omega
  obtain ⟨r, d, d', hcall, hcall', hsim, hs⟩ :=
    sim_heldKarp Cell Edge ind.stack (g.vertexCount - 1) hclose g.vertexCount
      (freshTables ind g) (freshTables ind g') (2 ^ (g.vertexCount - 1) - 1)
      (g.vertexCount - 1) hinit rfl htop hc
  obtain ⟨-, hsz, hst, hmask⟩ := hs
  have e1 : (freshTables ind g).graphSize = g.vertexCount := rfl
  have e2 : (freshTables ind g).startingVertex = g.vertexCount - 1 := rfl
  have e3 : (freshTables ind g).initialMask = 2 ^ (g.vertexCount - 1) - 1 := rfl
  have e1' : (freshTables ind g').graphSize = g.vertexCount := hcount
  have e2' : (freshTables ind g').startingVertex = g.vertexCount - 1 := by
    show g'.vertexCount - 1 = _
    rw [hcount]
  have e3' : (freshTables ind g').initialMask = 2 ^ (g.vertexCount - 1) - 1 := by
    show 2 ^ (g'.vertexCount - 1) - 1 = _
    rw [hcount]
  unfold execute
  rw [setUp_fresh prev ind g h1 h31, setUp_fresh prev ind g' (by omega) (by omega)]
  simp only [e1, e2, e3, e1', e2', e3', hcall, hcall']
  rw [hsim.preds, hsim.size, hsim.start, hsim.mask]

end HeldKarp

namespace HeldKarp

theorem fresh_results (ind : Indeterminate) (g : GraphMatrix) (T q : Nat) :
    (freshTables ind g).previousResults T q
      = if T = 0 ∧ q < g.vertexCount then g.weight (g.vertexCount - 1) q
        else if T < 2 ^ (g.vertexCount - 1) ∧ q < g.vertexCount then -1
        else ind.results T q := rfl

/-- C13: the known optimum is never read: for every two graphs with the same
vertex count and the same weights (whatever their `optimum` fields hold),
`execute` gives the same result, the same weight and vertex sequence when a
`Path` is returned. -/
theorem execute_ignores_optimum (prev : DynamicProgramming) (ind : Indeterminate)
    (g g' : GraphMatrix) (hcount : g'.vertexCount = g.vertexCount)
    (hweight : ∀ u v, u < g.vertexCount → v < g.vertexCount → g'.weight u v = g.weight u v) :
    execute prev ind g' = execute prev ind g := by
  by_cases h32 : g.vertexCount = 32
  · rw [execute_of_setUp_error (setUp_overflow prev ind g h32),
      execute_of_setUp_error (setUp_overflow prev ind g' (by omega))]
  by_cases hout : g.vertexCount = 0 ∨ 33 ≤ g.vertexCount
  · rw [execute_of_setUp_error (setUp_shiftCount prev ind g hout),
      execute_of_setUp_error (setUp_shiftCount prev ind g' (by omega))]
  have h1 : 1 ≤ g.vertexCount := by omega
  have h31 : g.vertexCount ≤ 31 := by omega
  refine execute_sim (fun _ q => q < g.vertexCount)
    (fun x q => x < g.vertexCount ∧ q < g.vertexCount) prev ind g g' hcount h1 h31 ?_ ?_ ?_
  · intro S p x hp hx _
    exact ⟨by omega, by omega, hp⟩
  · constructor
    · exact hcount
    · show g'.vertexCount - 1 = g.vertexCount - 1
      rw [hcount]
    · show 2 ^ (g'.vertexCount - 1) - 1 = 2 ^ (g.vertexCount - 1) - 1
      rw [hcount]
    · rfl
    · intro T q hq
      rw [fresh_results, fresh_results, hcount, hweight _ _ (by omega) hq]
    · intro x q hxq
      exact hweight x q hxq.1 hxq.2
  · show g.vertexCount - 1 < g.vertexCount
    omega

theorem execute_ignores_optimum_witness :
    execute blank (allRead 4) { squareGraph 10 14 with optimum := 0 }
      = execute blank (allRead 4) (squareGraph 10 14) :=
  execute_ignores_optimum blank (allRead 4) (squareGraph 10 14)
    { squareGraph 10 14 with optimum := 0 } rfl (fun _ _ _ _ => rfl)

/-- C14: self-weights are unused: for every two graphs with the same `n ≥ 2`
that agree on `w(u, v)` for all `u ≠ v`, `execute` gives the same result,
the same weight and the same vertex sequence. -/
theorem execute_ignores_self_weights (prev : DynamicProgramming) (ind : Indeterminate)
    (g g' : GraphMatrix) (hcount : g'.vertexCount = g.vertexCount) (h2 : 2 ≤ g.vertexCount)
    (hweight : ∀ u v, u < g.vertexCount → v < g.vertexCount → u ≠ v →
      g'.weight u v = g.weight u v) :
    execute prev ind g' = execute prev ind g := by
  by_cases h32 : g.vertexCount = 32
  · rw [execute_of_setUp_error (setUp_overflow prev ind g h32),
      execute_of_setUp_error (setUp_overflow prev ind g' (by omega))]
  by_cases hout : g.vertexCount = 0 ∨ 33 ≤ g.vertexCount
  · rw [execute_of_setUp_error (setUp_shiftCount prev ind g hout),
      execute_of_setUp_error (setUp_shiftCount prev ind g' (by omega))]
  have h1 : 1 ≤ g.vertexCount := by omega
  have h31 : g.vertexCount ≤ 31 := by omega
  refine execute_sim
    (fun T q => q < g.vertexCount ∧ T.testBit q = false ∧ (T = 0 → q ≠ g.vertexCount - 1))
    (fun x q => x < g.vertexCount ∧ q < g.vertexCount ∧ x ≠ q)
    prev ind g g' hcount h1 h31 ?_ ?_ ?_
  · intro S p x hp hx hbit
    refine ⟨⟨by omega, ?_, fun _ => by omega⟩, by omega, hp.1, ?_⟩
    · rw [testBit_drop]
      simp [hbit]
    · intro hxp
      rw [hxp, hp.2.1] at hbit
      cases hbit
  · constructor
    · exact hcount
    · show g'.vertexCount - 1 = g.vertexCount - 1
      rw [hcount]
    · show 2 ^ (g'.vertexCount - 1) - 1 = 2 ^ (g.vertexCount - 1) - 1
      rw [hcount]
    · rfl
    · intro T q hq
      rw [fresh_results, fresh_results, hcount]
      by_cases h0 : T = 0
      · have hne := hq.2.2 h0
        rw [hweight _ _ (by omega) hq.1 (fun h => hne h.symm)]
      · simp only [h0, false_and, if_false]
    · intro x q hxq
      exact hweight x q hxq.1 hxq.2.1 hxq.2.2
  · refine ⟨by omega, ?_, ?_⟩
    · rw [Nat.testBit_two_pow_sub_one]
      simp
    · intro h
      have hp : 2 ^ 1 ≤ 2 ^ (g.vertexCount - 1) :=
        Nat.pow_le_pow_right (by norm_num) (by omega)
      omega

theorem execute_ignores_self_weights_witness :
    execute blank (allRead 4)
        { squareGraph 10 14 with
          weight := fun u v => if u = v then -1 else (squareGraph 10 14).weight u v }
      = execute blank (allRead 4) (squareGraph 10 14) :=
  execute_ignores_self_weights blank (allRead 4) (squareGraph 10 14)
    { squareGraph 10 14 with
      weight := fun u v => if u = v then -1 else (squareGraph 10 14).weight u v }
    rfl (by decide)
    (fun u v _ _ huv => by simp only [huv, if_false])

end HeldKarp

namespace HeldKarp

/-! ## The first minimum is kept -/

theorem relax_foldl_first (val : Nat → Nat → Int) (g : GraphMatrix) (S p : Nat) (vs : List Nat)
    (hsorted : vs.Pairwise (fun a b => a < b)) :
    ∀ (j : Nat) (m : Int), (vs.foldl (relax val g S p) (j, m)).2 < m →
      ∀ y ∈ vs, S.testBit y = true →
        wrapInt (val (S ^^^ (1 <<< y)) y + g.weight y p) ≤ (vs.foldl (relax val g S p) (j, m)).2 →
        (vs.foldl (relax val g S p) (j, m)).1 ≤ y := by
  induction vs with
  | nil => intro j m _ y hy; exact absurd hy (List.not_mem_nil y)
  | cons x t ih =>
    intro j m
    rw [List.foldl_cons]
    have hxt : ∀ y ∈ t, x < y := (List.pairwise_cons.1 hsorted).1
    have ht := (List.pairwise_cons.1 hsorted).2
    by_cases hacc : S &&& (1 <<< x) = 1 <<< x ∧
        wrapInt (val (S ^^^ (1 <<< x)) x + g.weight x p) < m
    · have hr : relax val g S p (j, m) x
          = (x, wrapInt (val (S ^^^ (1 <<< x)) x + g.weight x p)) := by
        simp [relax, hacc.1, hacc.2]
      rw [hr]
      intro _ y hy hyb hle
      obtain ⟨-, -, h3⟩ :=
        relax_foldl val g S p t x (wrapInt (val (S ^^^ (1 <<< x)) x + g.weight x p))
      rcases h3 with h3 | ⟨-, -, -, h6⟩
      · rw [h3]
        rcases List.mem_cons.1 hy with rfl | hy
        · exact le_refl _
        · exact le_of_lt (hxt y hy)
      · rcases List.mem_cons.1 hy with rfl | hy
        · exact absurd (lt_of_le_of_lt hle h6) (lt_irrefl _)
        · exact ih ht x _ h6 y hy hyb hle
    · have hr : relax val g S p (j, m) x = (j, m) := by
        unfold relax
        by_cases hb : S &&& (1 <<< x) = 1 <<< x
        · have hc : ¬ wrapInt (val (S ^^^ (1 <<< x)) x + g.weight x p) < m :=
            fun h => hacc ⟨hb, h⟩
          simp [hb, hc]
        · simp [hb]
      rw [hr]
      intro hlt y hy hyb hle
      rcases List.mem_cons.1 hy with rfl | hy
      · have hb : S &&& (1 <<< y) = 1 <<< y := (and_bit_iff S y).2 hyb
        have hc : ¬ wrapInt (val (S ^^^ (1 <<< y)) y + g.weight y p) < m :=
          fun h => hacc ⟨hb, h⟩
        exact absurd (lt_of_le_of_lt hle hlt) hc
      · exact ih ht j m hlt y hy hyb hle

end HeldKarp

namespace HeldKarp

/-! ## The recurrence on all allocated cells -/

theorem inRange_drop {n S p x : Nat} (hv : InRange n S p) (hx : S.testBit x = true) :
    InRange n (S ^^^ (1 <<< x)) x := by
  have hlt := testBit_lt hv.1 hx
  exact ⟨drop_lt_pow hv.1 hx, by omega⟩

theorem weightsIn_nonneg {g : GraphMatrix} {W : Int} (hw : WeightsIn g W)
    (h1 : 1 ≤ g.vertexCount) : 0 ≤ W :=
  le_trans (hw 0 0 (by omega) (by omega)).1 (hw 0 0 (by omega) (by omega)).2

theorem candidate_range {g : GraphMatrix} {W : Int} (hw : WeightsIn g W)
    (hn : (g.vertexCount : Int) * W < INT_MAX) (k : Nat)
    (ih : ∀ S p, InRange g.vertexCount S p → card (g.vertexCount - 1) S = k →
      0 ≤ recurrence g k S p ∧ recurrence g k S p ≤ ((k : Int) + 1) * W)
    {S p : Nat} (hv : InRange g.vertexCount S p) (hc : card (g.vertexCount - 1) S = k + 1)
    {y : Nat} (hy : S.testBit y = true) :
    0 ≤ recurrence g k (S ^^^ (1 <<< y)) y + g.weight y p ∧
    recurrence g k (S ^^^ (1 <<< y)) y + g.weight y p ≤ ((k : Int) + 2) * W ∧
    recurrence g k (S ^^^ (1 <<< y)) y + g.weight y p < INT_MAX := by
  have hlt := testBit_lt hv.1 hy
  have hcd : card (g.vertexCount - 1) (S ^^^ (1 <<< y)) = k := by
    have := card_drop hlt hy
    omega
  obtain ⟨h0, h1⟩ := ih _ y (inRange_drop hv hy) hcd
  obtain ⟨w0, w1⟩ := hw y p (by omega) hv.2
  have hW := weightsIn_nonneg hw (by omega : 1 ≤ g.vertexCount)
  have hk : (k : Int) + 2 ≤ (g.vertexCount : Int) := by
    have := card_le (g.vertexCount - 1) S
    have : k + 2 ≤ g.vertexCount := by omega
    exact_mod_cast this
  have hmul := mul_le_mul_of_nonneg_right hk hW
  refine ⟨by omega, by linarith, by linarith⟩

/-- The result of the minimisation loop on an allocated cell whose mask has
`k + 1` set bits: the predecessor is the smallest vertex of the mask that
attains the minimum. -/
theorem loop_facts_all {g : GraphMatrix} {W : Int} (hw : WeightsIn g W)
    (hn : (g.vertexCount : Int) * W < INT_MAX) (k : Nat)
    (ih : ∀ S p, InRange g.vertexCount S p → card (g.vertexCount - 1) S = k →
      0 ≤ recurrence g k S p ∧ recurrence g k S p ≤ ((k : Int) + 1) * W)
    {S p : Nat} (hv : InRange g.vertexCount S p) (hc : card (g.vertexCount - 1) S = k + 1)
    (j : Nat) :
    S.testBit (choice g j k S p) = true ∧
    recurrence g (k + 1) S p
      = recurrence g k (S ^^^ (1 <<< choice g j k S p)) (choice g j k S p)
        + g.weight (choice g j k S p) p ∧
    (∀ y, S.testBit y = true →
      recurrence g (k + 1) S p ≤ recurrence g k (S ^^^ (1 <<< y)) y + g.weight y p) ∧
    (∀ y, S.testBit y = true →
      recurrence g k (S ^^^ (1 <<< y)) y + g.weight y p = recurrence g (k + 1) S p →
      choice g j k S p ≤ y) ∧
    choice g j k S p = choice g 0 k S p := by
  have hval : ∀ i, recurrence g (k + 1) S p
      = ((List.range (g.vertexCount - 1)).foldl (relax (recurrence g k) g S p)
          (i, INT_MAX)).2 := by
    intro i
    exact (relax_foldl_start (recurrence g k) g S p _ 0 i INT_MAX).1
  obtain ⟨h1, -, h3⟩ :=
    relax_foldl (recurrence g k) g S p (List.range (g.vertexCount - 1)) j INT_MAX
  obtain ⟨y0, hy0, hb0⟩ := exists_bit hc
  have hlt : recurrence g (k + 1) S p < INT_MAX := by
    rw [hval j]
    have hc0 := candidate_range hw hn k ih hv hc hb0
    have := h1 y0 (List.mem_range.2 hy0) hb0
    rw [wrapInt_eq hc0.1 hc0.2.2] at this
    exact lt_of_le_of_lt this hc0.2.2
  have hne : (List.range (g.vertexCount - 1)).foldl (relax (recurrence g k) g S p) (j, INT_MAX)
      ≠ (j, INT_MAX) := by
    intro h
    rw [hval j, h] at hlt
    exact lt_irrefl _ hlt
  rcases h3 with h3 | ⟨-, h4, h5, -⟩
  · exact absurd h3 hne
  · have hcc := candidate_range hw hn k ih hv hc h4
    refine ⟨h4, ?_, ?_, ?_, ?_⟩
    · rw [hval j, h5, wrapInt_eq hcc.1 hcc.2.2]
      rfl
    · intro y hy
      have hcy := candidate_range hw hn k ih hv hc hy
      have := h1 y (List.mem_range.2 (testBit_lt hv.1 hy)) hy
      rw [wrapInt_eq hcy.1 hcy.2.2] at this
      rw [hval j]
      exact this
    · intro y hy hyeq
      have hcy := candidate_range hw hn k ih hv hc hy
      have hfirst := relax_foldl_first (recurrence g k) g S p (List.range (g.vertexCount - 1))
        (List.pairwise_lt_range _) j INT_MAX (by rw [← hval j]; exact hlt) y
        (List.mem_range.2 (testBit_lt hv.1 hy)) hy
        (by rw [wrapInt_eq hcy.1 hcy.2.2, ← hval j, hyeq])
      exact hfirst
    · have := (relax_foldl_start (recurrence g k) g S p (List.range (g.vertexCount - 1))
        j 0 INT_MAX).2
      rw [← hval j] at this
      exact this hlt

/-- On an allocated cell whose mask has `k` set bits the recurrence lies in
`[0, (k + 1) * W]`. -/
theorem recurrence_bounds {g : GraphMatrix} {W : Int} (hw : WeightsIn g W)
    (hn : (g.vertexCount : Int) * W < INT_MAX) :
    ∀ k S p, InRange g.vertexCount S p → card (g.vertexCount - 1) S = k →
      0 ≤ recurrence g k S p ∧ recurrence g k S p ≤ ((k : Int) + 1) * W := by
  intro k
  induction k with
  | zero =>
    intro S p hv _
    have := hw (g.vertexCount - 1) p (by have := hv.2; omega) hv.2
    simp only [recurrence]
    constructor
    · exact this.1
    · simpa using this.2
  | succ k ih =>
    intro S p hv hc
    obtain ⟨hb, he, -, -, -⟩ := loop_facts_all hw hn k ih hv hc 0
    obtain ⟨c0, c1, -⟩ := candidate_range hw hn k ih hv hc hb
    rw [he]
    refine ⟨c0, ?_⟩
    push_cast
    have : (k : Int) + 1 + 1 = (k : Int) + 2 := by ring
    rw [this]
    exact c1

theorem recurrence_lt {g : GraphMatrix} {W : Int} (hw : WeightsIn g W)
    (hn : (g.vertexCount : Int) * W < INT_MAX) {S p : Nat} (hv : InRange g.vertexCount S p) :
    0 ≤ recurrence g (card (g.vertexCount - 1) S) S p ∧
    recurrence g (card (g.vertexCount - 1) S) S p < INT_MAX := by
  obtain ⟨h0, h1⟩ := recurrence_bounds hw hn _ S p hv rfl
  have hW := weightsIn_nonneg hw (by have := hv.2; omega : 1 ≤ g.vertexCount)
  have hk : ((card (g.vertexCount - 1) S : Nat) : Int) + 1 ≤ (g.vertexCount : Int) := by
    have := card_le (g.vertexCount - 1) S
    have := hv.2
    have : card (g.vertexCount - 1) S + 1 ≤ g.vertexCount := by omega
    exact_mod_cast this
  have hmul := mul_le_mul_of_nonneg_right hk hW
  exact ⟨h0, by linarith⟩

/-- The recurrence the code computes is the plain recurrence of the
specification. -/
theorem recurrence_eq_specD {g : GraphMatrix} {W : Int} (hw : WeightsIn g W)
    (hn : (g.vertexCount : Int) * W < INT_MAX) :
    ∀ k S p, InRange g.vertexCount S p → card (g.vertexCount - 1) S = k →
      recurrence g k S p = specD g k S p := by
  intro k
  induction k with
  | zero => intro S p _ _; rfl
  | succ k ih =>
    intro S p hv hc
    obtain ⟨hb, he, hmin, -, -⟩ :=
      loop_facts_all hw hn k (recurrence_bounds hw hn k) hv hc 0
    have hmem : ∀ y, y ∈ (List.range (g.vertexCount - 1)).filter (fun x => S.testBit x) ↔
        S.testBit y = true := by
      intro y
      rw [List.mem_filter, List.mem_range]
      constructor
      · intro h; exact h.2
      · intro h; exact ⟨testBit_lt hv.1 h, h⟩
    have hspec : ∀ y, S.testBit y = true →
        specD g k (S ^^^ (1 <<< y)) y = recurrence g k (S ^^^ (1 <<< y)) y := by
      intro y hy
      have hlt := testBit_lt hv.1 hy
      have hcd : card (g.vertexCount - 1) (S ^^^ (1 <<< y)) = k := by
        have := card_drop hlt hy
        omega
      exact (ih _ y (inRange_drop hv hy) hcd).symm
    have hmin? : (((List.range (g.vertexCount - 1)).filter (fun x => S.testBit x)).map
        (fun x => specD g k (S ^^^ (1 <<< x)) x + g.weight x p)).min?
        = some (recurrence g (k + 1) S p) := by
      rw [int_min?_eq_some]
      constructor
      · rw [List.mem_map]
        exact ⟨choice g 0 k S p, (hmem _).2 hb, by rw [hspec _ hb, he]⟩
      · intro b hb'
        obtain ⟨y, hy, rfl⟩ := List.mem_map.1 hb'
        have hy' := (hmem y).1 hy
        rw [hspec y hy']
        exact hmin y hy'
    simp only [specD, hmin?, Option.getD_some]

theorem recurrence_eq_D {g : GraphMatrix} {W : Int} (hw : WeightsIn g W)
    (hn : (g.vertexCount : Int) * W < INT_MAX) {S p : Nat} (hv : InRange g.vertexCount S p) :
    recurrence g (card (g.vertexCount - 1) S) S p = D g S p :=
  recurrence_eq_specD hw hn _ S p hv rfl

end HeldKarp

namespace HeldKarp

/-! ## The memoised recursion on all allocated cells -/

/-- The minimisation loop on the tables follows the loop on the recurrence on
every allocated cell, provided the recursive calls do. -/
theorem scan_foldl_all {g : GraphMatrix} (stack : Nat → Nat → Nat) (fuel : Nat)
    (ih : ∀ dp S p, InRange g.vertexCount S p → card (g.vertexCount - 1) S < fuel →
      InvAll g stack dp →
      ∃ dp', heldKarpAlgorithm stack fuel dp S p
          = some (recurrence g (card (g.vertexCount - 1) S) S p, dp') ∧
        InvAll g stack dp' ∧ Mono dp dp' ∧ dp'.previousResults S p ≠ -1)
    {S p : Nat} (hv : InRange g.vertexCount S p) (hc : card (g.vertexCount - 1) S < fuel + 1)
    (vs : List Nat) :
    ∀ (dp : DynamicProgramming) (j : Nat) (m : Int), InvAll g stack dp →
      ∃ dp', vs.foldl (scanVertex (heldKarpAlgorithm stack fuel) S p) (some (dp, j, m))
          = some (dp', vs.foldl
              (relax (recurrence g (card (g.vertexCount - 1) S - 1)) g S p) (j, m)) ∧
        InvAll g stack dp' ∧ Mono dp dp' ∧
        ∀ x ∈ vs, S.testBit x = true → dp'.previousResults (S ^^^ (1 <<< x)) x ≠ -1 := by
  induction vs with
  | nil =>
    intro dp j m hinv
    exact ⟨dp, rfl, hinv, mono_refl dp, fun x hx => absurd hx (List.not_mem_nil x)⟩
  | cons x vs ihv =>
    intro dp j m hinv
    rw [List.foldl_cons, List.foldl_cons]
    by_cases hb : S &&& (1 <<< x) = 1 <<< x
    · have hx : S.testBit x = true := (and_bit_iff S x).1 hb
      have hlt := testBit_lt hv.1 hx
      have hcd := card_drop hlt hx
      obtain ⟨dp1, hcall, hinv1, hmono1, hne1⟩ :=
        ih dp (S ^^^ (1 <<< x)) x (inRange_drop hv hx) (by omega) hinv
      have hk : card (g.vertexCount - 1) (S ^^^ (1 <<< x))
          = card (g.vertexCount - 1) S - 1 := by omega
      rw [hk] at hcall
      rw [scanVertex_call (heldKarpAlgorithm stack fuel)
        (recurrence g (card (g.vertexCount - 1) S - 1)) g S p dp dp1 j m x hb hcall hinv1.graph]
      obtain ⟨dp', hfold, hinv', hmono', hcells⟩ :=
        ihv dp1 (relax (recurrence g (card (g.vertexCount - 1) S - 1)) g S p (j, m) x).1
          (relax (recurrence g (card (g.vertexCount - 1) S - 1)) g S p (j, m) x).2 hinv1
      refine ⟨dp', hfold, hinv', mono_trans hmono1 hmono', ?_⟩
      intro y hy hyb
      rcases List.mem_cons.1 hy with rfl | hy
      · exact hmono' _ _ hne1
      · exact hcells y hy hyb
    · rw [scanVertex_skip _ S p dp j m x hb]
      have hr : relax (recurrence g (card (g.vertexCount - 1) S - 1)) g S p (j, m) x
          = (j, m) := by
        simp [relax, hb]
      rw [hr]
      obtain ⟨dp', hfold, hinv', hmono', hcells⟩ := ihv dp j m hinv
      refine ⟨dp', hfold, hinv', hmono', ?_⟩
      intro y hy hyb
      rcases List.mem_cons.1 hy with rfl | hy
      · exact absurd ((and_bit_iff S y).2 hyb) hb
      · exact hcells y hy hyb


/-- On tables that satisfy the invariant over all allocated cells, a call on
an allocated cell with enough recursion budget returns the value of the
recurrence and leaves tables that satisfy the invariant. -/
theorem heldKarp_memo_all {g : GraphMatrix} {W : Int} (hw : WeightsIn g W)
    (hn : (g.vertexCount : Int) * W < INT_MAX)
    (stack : Nat → Nat → Nat) :
    ∀ fuel dp S p, InRange g.vertexCount S p → card (g.vertexCount - 1) S < fuel →
      InvAll g stack dp →
      ∃ dp', heldKarpAlgorithm stack fuel dp S p
          = some (recurrence g (card (g.vertexCount - 1) S) S p, dp') ∧
        InvAll g stack dp' ∧ Mono dp dp' ∧ dp'.previousResults S p ≠ -1 := by
  intro fuel
  induction fuel with
  | zero => intro dp S p _ hc _; omega
  | succ fuel ih =>
    intro dp S p hv hc hinv
    rw [heldKarpAlgorithm_succ]
    by_cases hprev : dp.previousResults S p ≠ -1
    · rw [if_pos hprev]
      exact ⟨dp, by rw [hinv.value S p hv hprev], hinv, mono_refl dp, hprev⟩
    · rw [if_neg hprev]
      have hrange := recurrence_lt hw hn hv
      have hS : S ≠ 0 := by
        intro h0
        subst h0
        have hb := hinv.base p hv.2
        have h1 := hrange.1
        rw [card_zero] at h1
        simp only [recurrence] at h1
        apply hprev
        rw [hb]
        omega
      have hk : card (g.vertexCount - 1) S ≠ 0 := fun h => hS (card_eq_zero hv.1 h)
      obtain ⟨k, hk'⟩ := Nat.exists_eq_succ_of_ne_zero hk
      obtain ⟨dp2, hfold, hinv2, hmono2, hcells⟩ :=
        scan_foldl_all stack fuel ih hv hc (List.range (g.vertexCount - 1)) dp (stack S p) INT_MAX hinv
      rw [hinv.size, hfold]
      have hk1 : card (g.vertexCount - 1) S - 1 = k := by omega
      rw [hk1] at hfold ⊢
      have ihk := recurrence_bounds hw hn k
      obtain ⟨hcb, -, -, -, -⟩ := loop_facts_all hw hn k ihk hv hk' (stack S p)
      have hmin : ((List.range (g.vertexCount - 1)).foldl (relax (recurrence g k) g S p)
          (stack S p, INT_MAX)).2 = recurrence g (card (g.vertexCount - 1) S) S p := by
        rw [hk']
        exact (relax_foldl_start (recurrence g k) g S p _ (stack S p) 0 INT_MAX).1
      have hch : ((List.range (g.vertexCount - 1)).foldl (relax (recurrence g k) g S p)
          (stack S p, INT_MAX)).1 = choice g (stack S p) k S p := rfl
      have hne : recurrence g (card (g.vertexCount - 1) S) S p ≠ -1 := by
        have := hrange.1
        omega
      have hcl := testBit_lt hv.1 hcb
      have hdrop : S ^^^ (1 <<< choice g (stack S p) k S p) ≠ S := ne_of_lt (drop_lt hcb)
      generalize hr : (List.range (g.vertexCount - 1)).foldl (relax (recurrence g k) g S p)
          (stack S p, INT_MAX) = r at hmin hch
      obtain ⟨c, mn⟩ := r
      simp only at hmin hch
      subst hmin hch
      refine ⟨_, rfl, ?_, ?_, ?_⟩
      · constructor
        · exact hinv2.graph
        · exact hinv2.size
        · exact hinv2.start
        · exact hinv2.full
        · intro q hq
          have : ¬ (0 = S ∧ q = p) := fun h => hS h.1.symm
          simp only [this, if_false]
          exact hinv2.base q hq
        · intro T q hT hcomp
          by_cases hcell : T = S ∧ q = p
          · obtain ⟨rfl, rfl⟩ := hcell
            simp
          · simp only [hcell, if_false] at hcomp ⊢
            exact hinv2.value T q hT hcomp
        · intro T q hT hcomp hT0
          by_cases hcell : T = S ∧ q = p
          · obtain ⟨rfl, rfl⟩ := hcell
            simp only [and_self, if_true]
            refine ⟨by rw [hk1], ?_⟩
            have : ¬ (T ^^^ (1 <<< choice g (stack T q) k T q) = T ∧
                choice g (stack T q) k T q = q) := fun h => hdrop h.1
            simp only [this, if_false]
            exact hcells _ (List.mem_range.2 hcl) hcb
          · simp only [hcell, if_false] at hcomp ⊢
            obtain ⟨h1, h2⟩ := hinv2.pred T q hT hcomp hT0
            refine ⟨h1, ?_⟩
            split
            · exact hne
            · exact h2
      · intro T q h
        have := hmono2 T q h
        simp only
        split
        · exact hne
        · exact this
      · simp only [and_self, if_true]
        exact hne


end HeldKarp

namespace HeldKarp

/-! ## Properties of the tables -/

theorem invAll_fresh (ind : Indeterminate) (g : GraphMatrix) :
    InvAll g ind.stack (freshTables ind g) := by
  constructor
  · rfl
  · rfl
  · rfl
  · rfl
  · intro p hp
    rw [fresh_results]
    simp [hp]
  · intro S p hv hcomp
    rw [fresh_results] at hcomp ⊢
    by_cases h0 : S = 0
    · subst h0
      simp [hv.2, card_zero, recurrence]
    · simp [h0, hv.1, hv.2] at hcomp
  · intro S p hv hcomp h0
    rw [fresh_results] at hcomp
    simp [h0, hv.1, hv.2] at hcomp

theorem fresh_of_setUp {prev : DynamicProgramming} {ind : Indeterminate} {g : GraphMatrix}
    {dp0 : DynamicProgramming} (hset : setUp prev ind g = .ok dp0) :
    dp0 = freshTables ind g := by
  obtain ⟨h1, h31⟩ := setUp_ok hset
  rw [setUp_fresh prev ind g h1 h31] at hset
  injection hset with hset
  exact hset.symm

/-- A call on an allocated cell of tables that satisfy the invariant, with a
budget of `n` nested calls. -/
theorem heldKarp_call {g : GraphMatrix} {W : Int} (hw : WeightsIn g W)
    (hn : (g.vertexCount : Int) * W < INT_MAX) (stack : Nat → Nat → Nat)
    (dp : DynamicProgramming) (hinv : InvAll g stack dp) {S p : Nat}
    (hv : InRange g.vertexCount S p) :
    ∃ dp', heldKarpAlgorithm stack g.vertexCount dp S p = some (D g S p, dp') ∧
      InvAll g stack dp' ∧ Mono dp dp' ∧ dp'.previousResults S p ≠ -1 := by
  have hc : card (g.vertexCount - 1) S < g.vertexCount := by
    have := card_le (g.vertexCount - 1) S
    have := hv.2
    omega
  obtain ⟨dp', hcall, hinv', hmono, hcomp⟩ :=
    heldKarp_memo_all hw hn stack g.vertexCount dp S p hv hc hinv
  rw [recurrence_eq_D hw hn hv] at hcall
  exact ⟨dp', hcall, hinv', hmono, hcomp⟩

/-- C17: on the tables freshly initialised by `execute`, for a graph whose
weights all lie in `[0, W]` with `n * W < INT_MAX`, for every mask
`S < 2^(n-1)` and every `p < n` the call `heldKarpAlgorithm(S, p)` returns
`D(S, p)`, the plain recurrence `D(∅, i) = w(n-1, i)`,
`D(S, p) = min over x in S of D(S \ {x}, x) + w(x, p)`; and it still returns
`D(S, p)` on the tables an earlier call on any cell `(S1, p1)` has left. -/
theorem heldKarpAlgorithm_eq_plain_recurrence (prev : DynamicProgramming)
    (ind : Indeterminate) (g : GraphMatrix) (W : Int) (dp0 : DynamicProgramming)
    (hset : setUp prev ind g = .ok dp0) (hw : WeightsIn g W)
    (hn : (g.vertexCount : Int) * W < INT_MAX)
    (S p : Nat) (hS : S < 2 ^ (g.vertexCount - 1)) (hp : p < g.vertexCount)
    (S1 p1 : Nat) (hS1 : S1 < 2 ^ (g.vertexCount - 1)) (hp1 : p1 < g.vertexCount) :
    (∃ dp', heldKarpAlgorithm ind.stack g.vertexCount dp0 S p = some (D g S p, dp')) ∧
    ∃ r1 dp1, heldKarpAlgorithm ind.stack g.vertexCount dp0 S1 p1 = some (r1, dp1) ∧
      ∃ dp', heldKarpAlgorithm ind.stack g.vertexCount dp1 S p = some (D g S p, dp') := by
  rw [fresh_of_setUp hset]
  have hinv := invAll_fresh ind g
  obtain ⟨dpA, hA, -, -, -⟩ := heldKarp_call hw hn ind.stack _ hinv (⟨hS, hp⟩ : InRange _ S p)
  obtain ⟨dp1, h1, hinv1, -, -⟩ :=
    heldKarp_call hw hn ind.stack _ hinv (⟨hS1, hp1⟩ : InRange _ S1 p1)
  obtain ⟨dpB, hB, -, -, -⟩ := heldKarp_call hw hn ind.stack _ hinv1 (⟨hS, hp⟩ : InRange _ S p)
  exact ⟨⟨dpA, hA⟩, _, dp1, h1, dpB, hB⟩

theorem weightsIn_square {a d : Int} (ha : 0 ≤ a) (had : a ≤ d) :
    WeightsIn (squareGraph a d) d := by
  intro u v _ _
  simp only [squareGraph]
  split_ifs <;> omega

theorem heldKarpAlgorithm_eq_plain_recurrence_witness :
    (∃ dp', heldKarpAlgorithm (allRead 7).stack (squareGraph 10 14).vertexCount
        squareTables 5 1 = some (D (squareGraph 10 14) 5 1, dp')) ∧
    ∃ r1 dp1, heldKarpAlgorithm (allRead 7).stack (squareGraph 10 14).vertexCount
        squareTables 7 3 = some (r1, dp1) ∧
      ∃ dp', heldKarpAlgorithm (allRead 7).stack (squareGraph 10 14).vertexCount
        dp1 5 1 = some (D (squareGraph 10 14) 5 1, dp') :=
  heldKarpAlgorithm_eq_plain_recurrence blank (allRead 7) (squareGraph 10 14) 14 squareTables
    rfl (weightsIn_square (by decide) (by decide)) (by decide) 5 1 (by decide) (by decide)
    7 3 (by decide) (by decide)

end HeldKarp

namespace HeldKarp

/-! ## Predecessor chains -/

end HeldKarp

namespace FileUtils

/-- C29 (the code on a single-vertex path): the loop bound `path.size() - 2`
wraps to `2^64 - 1`, the loop reads `path[0]` and then `path[1]`, an index
that is not smaller than the length `1`; no string is produced. -/
theorem pathToStr_single_vertex (v : Int) :
    subSize [v].length 2 = 18446744073709551615 ∧
      pathToStrLoop (subSize [v].length 2) [v] 0 ""
        = pathToStrLoop (subSize [v].length 2) [] 1 ("" ++ (toString v ++ "->")) ∧
      pathToStrLoop (subSize [v].length 2) [] 1 ("" ++ (toString v ++ "->")) = none ∧
      pathToStr [v] = none := by
  have hb : subSize [v].length 2 = 18446744073709551615 := by
    show subSize 1 2 = 18446744073709551615
    unfold subSize
    norm_num
  have h1 : pathToStrLoop (subSize [v].length 2) [v] 0 ""
      = pathToStrLoop (subSize [v].length 2) [] 1 ("" ++ (toString v ++ "->")) := by
    conv_lhs => unfold pathToStrLoop
    rw [if_pos (Nat.zero_le _)]
  have h2 : pathToStrLoop (subSize [v].length 2) [] 1 ("" ++ (toString v ++ "->")) = none := by
    rw [hb]
    unfold pathToStrLoop
    rw [if_pos (by norm_num)]
  refine ⟨hb, h1, h2, ?_⟩
  unfold pathToStr
  rw [h1, h2]

end FileUtils

namespace HeldKarp

/-! ## Mask arithmetic -/

theorem shiftLeftInt_one {n : Nat} (h1 : 1 ≤ n) (h31 : n ≤ 31) :
    shiftLeftInt 1 ((n : Int) - 1) = .ok ((2 ^ (n - 1) : Nat) : Int) := by
  obtain ⟨hlo, hhi⟩ := two_pow_bounds h1 h31
  unfold shiftLeftInt
  have hc : ¬ ((n : Int) - 1 < 0 ∨ 32 ≤ (n : Int) - 1) := by omega
  rw [if_neg hc]
  have ht : ((n : Int) - 1).toNat = n - 1 := by omega
  rw [ht, one_mul]
  have hw : wrapInt ((2 : Int) ^ (n - 1)) = (2 : Int) ^ (n - 1) := by
    have : ((2 ^ (n - 1) : Nat) : Int) = (2 : Int) ^ (n - 1) := by
      push_cast; rfl
    rw [← this]
    unfold wrapInt
    omega
  rw [hw]
  push_cast
  rfl

/-- C25: for every vertex count `n` with `2 ≤ n ≤ 31` the mask arithmetic is
defined and stays inside the `int` range: `1 << (n-1)` is `2^(n-1)`, the
subtraction gives `initialMask = 2^(n-1) - 1`, `initialMask + 1` is
`2^(n-1)`, which is the number of rows allocated, each of `n` cells; and for
every `vertex < n-1` and every mask below `2^(n-1)` both `1 << vertex` and
the XOR of the mask with it are at most `INT_MAX`, the XOR being again a
mask below `2^(n-1)`. -/
theorem mask_arithmetic_in_range (prev : DynamicProgramming) (ind : Indeterminate)
    (g : GraphMatrix) (h2 : 2 ≤ g.vertexCount) (h31 : g.vertexCount ≤ 31) :
    shiftLeftInt 1 ((g.vertexCount : Int) - 1) = .ok ((2 ^ (g.vertexCount - 1) : Nat) : Int) ∧
    subInt ((2 ^ (g.vertexCount - 1) : Nat) : Int) 1
      = .ok (((2 ^ (g.vertexCount - 1) : Nat) : Int) - 1) ∧
    addInt (((2 ^ (g.vertexCount - 1) : Nat) : Int) - 1) 1
      = .ok ((2 ^ (g.vertexCount - 1) : Nat) : Int) ∧
    newLength ((2 ^ (g.vertexCount - 1) : Nat) : Int) = .ok (2 ^ (g.vertexCount - 1)) ∧
    ((2 ^ (g.vertexCount - 1) : Nat) : Int) ≤ INT_MAX ∧
    (∃ dp0, setUp prev ind g = .ok dp0 ∧ dp0.initialMask = 2 ^ (g.vertexCount - 1) - 1 ∧
      dp0.graphSize = g.vertexCount ∧ dp0.startingVertex = g.vertexCount - 1 ∧
      (∀ i j, i < 2 ^ (g.vertexCount - 1) → j < g.vertexCount →
        dp0.previousResults i j
          = if i = 0 then g.weight (g.vertexCount - 1) j else -1) ∧
      (∀ i j, ¬ (i < 2 ^ (g.vertexCount - 1) ∧ j < g.vertexCount) →
        dp0.previousResults i j = ind.results i j)) ∧
    ∀ vertex S, vertex < g.vertexCount - 1 → S < 2 ^ (g.vertexCount - 1) →
      (((1 <<< vertex : Nat) : Nat) : Int) ≤ INT_MAX ∧
      S ^^^ (1 <<< vertex) < 2 ^ (g.vertexCount - 1) ∧
      ((S ^^^ (1 <<< vertex) : Nat) : Int) ≤ INT_MAX := by
  obtain ⟨hlo, hhi⟩ := two_pow_bounds (by omega : 1 ≤ g.vertexCount) h31
  refine ⟨shiftLeftInt_one (by omega) h31, ?_, ?_, ?_, ?_, ?_, ?_⟩
  · unfold subInt INT_MIN INT_MAX
    rw [if_pos (by omega)]
  · unfold addInt INT_MIN INT_MAX
    rw [if_pos (by omega)]
    simp
  · unfold newLength
    rw [if_neg (by omega), Int.toNat_natCast]
  · unfold INT_MAX
    omega
  · refine ⟨freshTables ind g, setUp_fresh prev ind g (by omega) h31, rfl, rfl, rfl, ?_, ?_⟩
    · intro i j hi hj
      rw [fresh_results]
      by_cases h0 : i = 0
      · simp [h0, hj]
      · simp [h0, hi, hj]
    · intro i j hout
      rw [fresh_results]
      have h0 : ¬ (i = 0 ∧ j < g.vertexCount) := by
        intro h
        apply hout
        refine ⟨?_, h.2⟩
        rw [h.1]
        exact Nat.two_pow_pos _
      simp only [h0, hout, if_false]
  · intro vertex S hv hS
    have hbit : 1 <<< vertex < 2 ^ (g.vertexCount - 1) := by
      rw [Nat.one_shiftLeft]
      exact Nat.pow_lt_pow_right (by norm_num) hv
    have hx : S ^^^ (1 <<< vertex) < 2 ^ (g.vertexCount - 1) := Nat.xor_lt_two_pow hS hbit
    have hc : ∀ k : Nat, k < 2 ^ (g.vertexCount - 1) → (k : Int) ≤ INT_MAX := by
      intro k hk
      have : (k : Int) < ((2 ^ (g.vertexCount - 1) : Nat) : Int) := by exact_mod_cast hk
      unfold INT_MAX
      omega
    exact ⟨hc _ hbit, hx, hc _ hx⟩

theorem mask_arithmetic_in_range_witness :
    shiftLeftInt 1 (((constGraph 31 1).vertexCount : Int) - 1)
      = .ok ((2 ^ ((constGraph 31 1).vertexCount - 1) : Nat) : Int) ∧
    subInt ((2 ^ ((constGraph 31 1).vertexCount - 1) : Nat) : Int) 1
      = .ok (((2 ^ ((constGraph 31 1).vertexCount - 1) : Nat) : Int) - 1) ∧
    addInt (((2 ^ ((constGraph 31 1).vertexCount - 1) : Nat) : Int) - 1) 1
      = .ok ((2 ^ ((constGraph 31 1).vertexCount - 1) : Nat) : Int) ∧
    newLength ((2 ^ ((constGraph 31 1).vertexCount - 1) : Nat) : Int)
      = .ok (2 ^ ((constGraph 31 1).vertexCount - 1)) ∧
    ((2 ^ ((constGraph 31 1).vertexCount - 1) : Nat) : Int) ≤ INT_MAX ∧
    (∃ dp0, setUp blank (allRead 0) (constGraph 31 1) = .ok dp0 ∧
      dp0.initialMask = 2 ^ ((constGraph 31 1).vertexCount - 1) - 1 ∧
      dp0.graphSize = (constGraph 31 1).vertexCount ∧
      dp0.startingVertex = (constGraph 31 1).vertexCount - 1 ∧
      (∀ i j, i < 2 ^ ((constGraph 31 1).vertexCount - 1) → j < (constGraph 31 1).vertexCount →
        dp0.previousResults i j
          = if i = 0 then (constGraph 31 1).weight ((constGraph 31 1).vertexCount - 1) j
            else -1) ∧
      (∀ i j, ¬ (i < 2 ^ ((constGraph 31 1).vertexCount - 1) ∧
          j < (constGraph 31 1).vertexCount) →
        dp0.previousResults i j = (allRead 0).results i j)) ∧
    ∀ vertex S, vertex < (constGraph 31 1).vertexCount - 1 →
      S < 2 ^ ((constGraph 31 1).vertexCount - 1) →
      (((1 <<< vertex : Nat) : Nat) : Int) ≤ INT_MAX ∧
      S ^^^ (1 <<< vertex) < 2 ^ ((constGraph 31 1).vertexCount - 1) ∧
      ((S ^^^ (1 <<< vertex) : Nat) : Int) ≤ INT_MAX :=
  mask_arithmetic_in_range blank (allRead 0) (constGraph 31 1) (by decide) (by decide)

end HeldKarp

namespace HeldKarp

/-! ## Recursion depth -/

theorem scanVertex_none (recur : DynamicProgramming → Nat → Nat → Option (Int × DynamicProgramming))
    (S p : Nat) (vs : List Nat) : vs.foldl (scanVertex recur S p) none = none := by
  induction vs with
  | nil => rfl
  | cons x vs ih => rw [List.foldl_cons]; exact ih

theorem scan_fuel_mono (stack : Nat → Nat → Nat) (fuel : Nat)
    (ih : ∀ dp S p r, heldKarpAlgorithm stack fuel dp S p = some r →
      heldKarpAlgorithm stack (fuel + 1) dp S p = some r)
    (S p : Nat) (vs : List Nat) :
    ∀ (acc : Option (DynamicProgramming × Nat × Int)) (out : DynamicProgramming × Nat × Int),
      vs.foldl (scanVertex (heldKarpAlgorithm stack fuel) S p) acc = some out →
      vs.foldl (scanVertex (heldKarpAlgorithm stack (fuel + 1)) S p) acc = some out := by
  induction vs with
  | nil => intro acc out h; exact h
  | cons x vs ihv =>
    intro acc out h
    rw [List.foldl_cons] at h ⊢
    have hstep : scanVertex (heldKarpAlgorithm stack (fuel + 1)) S p acc x
        = scanVertex (heldKarpAlgorithm stack fuel) S p acc x := by
      cases acc with
      | none => rfl
      | some a =>
        obtain ⟨dp, j, w⟩ := a
        by_cases hb : S &&& (1 <<< x) = 1 <<< x
        · cases hcall : heldKarpAlgorithm stack fuel dp (S ^^^ (1 <<< x)) x with
          | none =>
            have : scanVertex (heldKarpAlgorithm stack fuel) S p (some (dp, j, w)) x = none := by
              simp [scanVertex, hb, hcall]
            rw [this, scanVertex_none] at h
            cases h
          | some r =>
            have h1 := ih dp _ x r hcall
            simp only [scanVertex, hb, hcall, h1]
        · rw [scanVertex_skip _ S p dp j w x hb, scanVertex_skip _ S p dp j w x hb]
    rw [hstep]
    exact ihv _ out h

/-- A result obtained within a recursion budget is obtained within every
larger budget. -/
theorem heldKarp_fuel_mono (stack : Nat → Nat → Nat) :
    ∀ fuel dp S p r, heldKarpAlgorithm stack fuel dp S p = some r →
      heldKarpAlgorithm stack (fuel + 1) dp S p = some r := by
  intro fuel
  induction fuel with
  | zero => intro dp S p r h; cases h
  | succ fuel ih =>
    intro dp S p r h
    rw [heldKarpAlgorithm_succ] at h ⊢
    by_cases hprev : dp.previousResults S p ≠ -1
    · rw [if_pos hprev] at h ⊢
      exact h
    · rw [if_neg hprev] at h ⊢
      cases hfold : (List.range (dp.graphSize - 1)).foldl
          (scanVertex (heldKarpAlgorithm stack fuel) S p) (some (dp, stack S p, INT_MAX)) with
      | none =>
        rw [hfold] at h
        cases h
      | some out =>
        rw [hfold] at h
        rw [scan_fuel_mono stack fuel ih S p _ _ out hfold]
        exact h

theorem heldKarp_fuel_le (stack : Nat → Nat → Nat) {f1 f2 : Nat} (hle : f1 ≤ f2)
    (dp : DynamicProgramming) (S p : Nat) (r : Int × DynamicProgramming)
    (h : heldKarpAlgorithm stack f1 dp S p = some r) :
    heldKarpAlgorithm stack f2 dp S p = some r := by
  induction hle with
  | refl => exact h
  | step _ ih => exact heldKarp_fuel_mono stack _ dp S p r ih

/-- C23: for every mask `S < 2^(n-1)` and every vertex `p < n`, whatever the
tables hold, `heldKarpAlgorithm(S, p)` returns within a nesting depth of
`popcount(S) + 1 ≤ n` calls (and so returns the same within every larger
budget), because each recursive call is made on the mask with exactly one
set bit cleared, which is a smaller mask with one vertex less. -/
theorem heldKarpAlgorithm_terminates (stack : Nat → Nat → Nat) (dp : DynamicProgramming)
    (S p : Nat) (hS : S < 2 ^ (dp.graphSize - 1)) (hp : p < dp.graphSize) :
    (∃ r dp', heldKarpAlgorithm stack (card (dp.graphSize - 1) S + 1) dp S p = some (r, dp') ∧
      ∀ fuel, card (dp.graphSize - 1) S + 1 ≤ fuel →
        heldKarpAlgorithm stack fuel dp S p = some (r, dp')) ∧
    card (dp.graphSize - 1) S + 1 ≤ dp.graphSize ∧
    ∀ x, x < dp.graphSize - 1 → S &&& (1 <<< x) = 1 <<< x →
      S ^^^ (1 <<< x) < S ∧ S ^^^ (1 <<< x) < 2 ^ (dp.graphSize - 1) ∧
      (S ^^^ (1 <<< x)).testBit x = false ∧
      (∀ y, y ≠ x → (S ^^^ (1 <<< x)).testBit y = S.testBit y) ∧
      card (dp.graphSize - 1) (S ^^^ (1 <<< x)) + 1 = card (dp.graphSize - 1) S := by
  obtain ⟨r, dp', hcall, -⟩ :=
    heldKarp_total stack (dp.graphSize - 1) (card (dp.graphSize - 1) S + 1) dp S p rfl
      (Nat.lt_succ_self _)
  refine ⟨⟨r, dp', hcall, fun fuel hf => heldKarp_fuel_le stack hf dp S p _ hcall⟩, ?_, ?_⟩
  · have := card_le (dp.graphSize - 1) S
    omega
  · intro x hx hb
    have hbit : S.testBit x = true := (and_bit_iff S x).1 hb
    refine ⟨drop_lt hbit, drop_lt_pow hS hbit, ?_, ?_, card_drop hx hbit⟩
    · rw [testBit_drop]
      simp [hbit]
    · intro y hy
      rw [testBit_drop]
      have : ¬ x = y := fun h => hy h.symm
      simp [this]

theorem heldKarpAlgorithm_terminates_witness :
    (∃ r dp', heldKarpAlgorithm (allRead 7).stack (card (squareTables.graphSize - 1) 5 + 1)
        squareTables 5 1 = some (r, dp') ∧
      ∀ fuel, card (squareTables.graphSize - 1) 5 + 1 ≤ fuel →
        heldKarpAlgorithm (allRead 7).stack fuel squareTables 5 1 = some (r, dp')) ∧
    card (squareTables.graphSize - 1) 5 + 1 ≤ squareTables.graphSize ∧
    ∀ x, x < squareTables.graphSize - 1 → 5 &&& (1 <<< x) = 1 <<< x →
      5 ^^^ (1 <<< x) < 5 ∧ 5 ^^^ (1 <<< x) < 2 ^ (squareTables.graphSize - 1) ∧
      (5 ^^^ (1 <<< x)).testBit x = false ∧
      (∀ y, y ≠ x → (5 ^^^ (1 <<< x)).testBit y = Nat.testBit 5 y) ∧
      card (squareTables.graphSize - 1) (5 ^^^ (1 <<< x)) + 1
        = card (squareTables.graphSize - 1) 5 :=
  heldKarpAlgorithm_terminates (allRead 7).stack squareTables 5 1 (by decide) (by decide)

end HeldKarp

namespace HeldKarp

/-! ## The constant graph: every tour ties -/

theorem weightsIn_const (n : Nat) {c : Int} (hc : 0 ≤ c) : WeightsIn (constGraph n c) c :=
  fun _ _ _ _ => ⟨hc, le_refl c⟩

theorem recurrence_const (n : Nat) {c : Int} (hc : 0 ≤ c) (hn : (n : Int) * c < INT_MAX) :
    ∀ k S p, InRange n S p → card (n - 1) S = k →
      recurrence (constGraph n c) k S p = ((k : Int) + 1) * c := by
  have hw := weightsIn_const n hc
  have hn' : ((constGraph n c).vertexCount : Int) * c < INT_MAX := hn
  intro k
  induction k with
  | zero => intro S p _ _; simp [recurrence, constGraph]
  | succ k ih =>
    intro S p hv hcard
    obtain ⟨hb, he, -, -, -⟩ :=
      loop_facts_all hw hn' k (recurrence_bounds hw hn' k) (S := S) (p := p) hv hcard 0
    have hlt := testBit_lt hv.1 hb
    have hcd : card (n - 1) (S ^^^ (1 <<< choice (constGraph n c) 0 k S p)) = k := by
      have := card_drop hlt hb
      have hcard' : card (n - 1) S = k + 1 := hcard
      omega
    rw [he, ih _ _ (inRange_drop hv hb) hcd]
    simp only [constGraph]
    push_cast
    ring

/-- On the constant graph the loop keeps the smallest vertex of the mask. -/
theorem choice_const (n : Nat) {c : Int} (hc : 0 ≤ c) (hn : (n : Int) * c < INT_MAX)
    (j k S p : Nat) (hv : InRange n S p) (hcard : card (n - 1) S = k + 1) :
    S.testBit (choice (constGraph n c) j k S p) = true ∧
      ∀ y, S.testBit y = true → choice (constGraph n c) j k S p ≤ y := by
  have hw := weightsIn_const n hc
  have hn' : ((constGraph n c).vertexCount : Int) * c < INT_MAX := hn
  obtain ⟨hb, -, -, hfirst, -⟩ :=
    loop_facts_all hw hn' k (recurrence_bounds hw hn' k) (S := S) (p := p) hv hcard j
  refine ⟨hb, ?_⟩
  intro y hy
  apply hfirst y hy
  have hlt := testBit_lt hv.1 hy
  have hcd : card (n - 1) (S ^^^ (1 <<< y)) = k := by
    have := card_drop hlt hy
    omega
  rw [recurrence_const n hc hn k _ y (inRange_drop hv hy) hcd,
    recurrence_const n hc hn (k + 1) S p hv hcard]
  simp only [constGraph]
  push_cast
  ring

theorem upper_lt {m j S : Nat} (h : Upper m j S) : S < 2 ^ m := by
  apply Nat.lt_pow_two_of_testBit
  intro i hi
  rw [h i]
  simp only [decide_eq_false_iff_not]
  omega

theorem upper_drop {m j S : Nat} (h : Upper m j S) (hj : j < m) :
    S.testBit j = true ∧ Upper m (j + 1) (S ^^^ (1 <<< j)) := by
  constructor
  · rw [h j]
    simp only [decide_eq_true_eq]
    omega
  · intro y
    rw [testBit_drop, h y]
    by_cases hjy : j = y
    · subst hjy
      have h1 : decide (j ≤ j ∧ j < m) = true := by
        simp only [decide_eq_true_eq]; omega
      have h2 : decide (j + 1 ≤ j ∧ j < m) = false := by
        simp only [decide_eq_false_iff_not]; omega
      rw [h1, h2]
      simp
    · have h3 : decide (j = y) = false := by simpa using hjy
      rw [h3, Bool.xor_false]
      by_cases hc : j ≤ y ∧ y < m
      · have : j + 1 ≤ y ∧ y < m := by omega
        simp only [hc, this, and_self, decide_True]
      · have : ¬ (j + 1 ≤ y ∧ y < m) := by omega
        simp only [hc, this, decide_False]

theorem upper_card (m : Nat) : ∀ k j S, j + k = m → Upper m j S → card m S = k := by
  intro k
  induction k with
  | zero =>
    intro j S hjk h
    rw [← card_zero m]
    apply card_congr
    intro x hx
    rw [h x, Nat.zero_testBit]
    simp only [decide_eq_false_iff_not]
    omega
  | succ k ih =>
    intro j S hjk h
    obtain ⟨hb, hup⟩ := upper_drop h (by omega : j < m)
    have := ih (j + 1) _ (by omega) hup
    have hcd := card_drop (by omega : j < m) hb
    omega

theorem route_const (n : Nat) {c : Int} (hc : 0 ≤ c) (hn : (n : Int) * c < INT_MAX)
    (stack : Nat → Nat → Nat) :
    ∀ k j S p, j + k = n - 1 → Upper (n - 1) j S → p < n →
      route (constGraph n c) stack k S p = (List.range' j k).reverse := by
  intro k
  induction k with
  | zero => intro j S p _ _ _; rfl
  | succ k ih =>
    intro j S p hjk hup hp
    have hv : InRange n S p := ⟨upper_lt hup, hp⟩
    have hcard := upper_card (n - 1) (k + 1) j S hjk hup
    obtain ⟨hb, hmin⟩ := choice_const n hc hn (stack S p) k S p hv hcard
    obtain ⟨hbj, hup'⟩ := upper_drop hup (by omega : j < n - 1)
    have hch : choice (constGraph n c) (stack S p) k S p = j := by
      apply le_antisymm (hmin j hbj)
      rw [hup _] at hb
      simp only [decide_eq_true_eq] at hb
      exact hb.1
    simp only [route]
    rw [hch, ih (j + 1) _ j (by omega) hup' (by omega), List.range'_succ, List.reverse_cons]

/-- C28: for every `n` in `[2, 31]` and constant `c ≥ 0` with
`n * c < INT_MAX`, on the graph whose every weight is `c` all tours tie and
`execute` returns exactly the vertex sequence `[n-2, n-3, ..., 1, 0, n-1]`. -/
theorem execute_constGraph_path (prev : DynamicProgramming) (ind : Indeterminate) (n : Nat)
    (c : Int) (h2 : 2 ≤ n) (h31 : n ≤ 31) (hc : 0 ≤ c) (hn : (n : Int) * c < INT_MAX) :
    ∃ r, execute prev ind (constGraph n c) = .ok r ∧
      r.path = (List.range (n - 1)).reverse ++ [n - 1] := by
  have hpos := nonNegative_const n hc
  have hsum : SumsBelow (constGraph n c) := sumsBelow_of_bound hpos (boundedBy_const n c) hn
  have h2' : 2 ≤ (constGraph n c).vertexCount := h2
  refine ⟨solution (constGraph n c), execute_eq prev ind h2' h31 hpos hsum, ?_⟩
  have hfull : Upper (n - 1) 0 (fullMask (constGraph n c)) := by
    intro y
    rw [testBit_fullMask]
    show decide (y < n - 1) = decide (0 ≤ y ∧ y < n - 1)
    simp
  have := route_const n hc hn (fun _ _ => 0) (n - 1) 0 (fullMask (constGraph n c)) (n - 1)
    (by omega) hfull (by omega)
  show route (constGraph n c) (fun _ _ => 0) (n - 1) (fullMask (constGraph n c)) (n - 1)
      ++ [n - 1] = _
  rw [this, List.range_eq_range']

theorem execute_constGraph_path_witness :
    (∃ r, execute blank (allRead 6) (constGraph 5 10) = .ok r ∧
      r.path = (List.range (5 - 1)).reverse ++ [5 - 1]) ∧
    (List.range (5 - 1)).reverse ++ [5 - 1] = [3, 2, 1, 0, 4] :=
  ⟨execute_constGraph_path blank (allRead 6) 5 10 (by decide) (by decide) (by decide)
    (by decide), by decide⟩

end HeldKarp

namespace HeldKarp

/-! ## Erasing the log -/

theorem scanVertexLogged_erase
    (recurL : DynamicProgramming → Nat → Nat → Option (Int × DynamicProgramming × List Event))
    (recur : DynamicProgramming → Nat → Nat → Option (Int × DynamicProgramming))
    (h : ∀ dp S p, (recurL dp S p).map (fun t => (t.1, t.2.1)) = recur dp S p)
    (S p : Nat) (acc : Option (DynamicProgramming × Nat × Int × List Event)) (x : Nat) :
    (scanVertexLogged recurL S p acc x).map (fun t => (t.1, t.2.1, t.2.2.1))
      = scanVertex recur S p (acc.map (fun t => (t.1, t.2.1, t.2.2.1))) x := by
  cases acc with
  | none => rfl
  | some a =>
    obtain ⟨dp, j, m, log⟩ := a
    simp only [scanVertexLogged, scanVertex, Option.map_some']
    by_cases hb : S &&& (1 <<< x) = 1 <<< x
    · simp only [hb, if_true]
      rw [← h dp (S ^^^ (1 <<< x)) x]
      cases recurL dp (S ^^^ (1 <<< x)) x with
      | none => rfl
      | some out =>
        obtain ⟨r, dp1, inner⟩ := out
        simp only [Option.map_some']
        split <;> rfl
    · simp only [hb, if_false, Option.map_some']

theorem scanLogged_foldl_erase
    (recurL : DynamicProgramming → Nat → Nat → Option (Int × DynamicProgramming × List Event))
    (recur : DynamicProgramming → Nat → Nat → Option (Int × DynamicProgramming))
    (h : ∀ dp S p, (recurL dp S p).map (fun t => (t.1, t.2.1)) = recur dp S p)
    (S p : Nat) (vs : List Nat) :
    ∀ acc : Option (DynamicProgramming × Nat × Int × List Event),
      (vs.foldl (scanVertexLogged recurL S p) acc).map (fun t => (t.1, t.2.1, t.2.2.1))
        = vs.foldl (scanVertex recur S p) (acc.map (fun t => (t.1, t.2.1, t.2.2.1))) := by
  induction vs with
  | nil => intro acc; rfl
  | cons x vs ih =>
    intro acc
    rw [List.foldl_cons, List.foldl_cons, ih, scanVertexLogged_erase recurL recur h]

theorem heldKarpLogged_succ (stack : Nat → Nat → Nat) (fuel : Nat) (dp : DynamicProgramming)
    (S p : Nat) :
    heldKarpLogged stack (fuel + 1) dp S p =
      if dp.previousResults S p ≠ -1 then
        some (dp.previousResults S p, dp, [Event.call S p])
      else
        match (List.range (dp.graphSize - 1)).foldl
            (scanVertexLogged (heldKarpLogged stack fuel) S p)
            (some (dp, stack S p, INT_MAX, [Event.call S p, Event.loop S p])) with
        | none => none
        | some (dp, predecessor, minPathWeight, log) =>
          some (minPathWeight,
            { dp with
              predecessors := fun m v =>
                if m = S ∧ v = p then predecessor else dp.predecessors m v
              previousResults := fun m v =>
                if m = S ∧ v = p then minPathWeight else dp.previousResults m v },
            log ++ [Event.store S p]) := by
  rfl

/-- Erasing the log of `heldKarpLogged` gives `heldKarpAlgorithm`. -/
theorem heldKarpLogged_erase (stack : Nat → Nat → Nat) :
    ∀ fuel dp S p, (heldKarpLogged stack fuel dp S p).map (fun t => (t.1, t.2.1))
      = heldKarpAlgorithm stack fuel dp S p := by
  intro fuel
  induction fuel with
  | zero => intro dp S p; rfl
  | succ fuel ih =>
    intro dp S p
    rw [heldKarpAlgorithm_succ, heldKarpLogged_succ]
    by_cases hprev : dp.previousResults S p ≠ -1
    · rw [if_pos hprev, if_pos hprev]
      rfl
    · rw [if_neg hprev, if_neg hprev]
      have hfold := scanLogged_foldl_erase (heldKarpLogged stack fuel)
        (heldKarpAlgorithm stack fuel) ih S p (List.range (dp.graphSize - 1))
        (some (dp, stack S p, INT_MAX, [Event.call S p, Event.loop S p]))
      simp only [Option.map_some'] at hfold
      rw [← hfold]
      cases (List.range (dp.graphSize - 1)).foldl
          (scanVertexLogged (heldKarpLogged stack fuel) S p)
          (some (dp, stack S p, INT_MAX, [Event.call S p, Event.loop S p])) with
      | none => rfl
      | some out => rfl

theorem pathStepLogged_foldl (predecessors : Nat → Nat → Nat) (vs : List Nat) :
    ∀ acc : (List Nat × Nat × Nat) × List Event,
      (vs.foldl (pathStepLogged predecessors) acc).1 = vs.foldl (pathStep predecessors) acc.1 := by
  induction vs with
  | nil => intro acc; rfl
  | cons x vs ih => intro acc; rw [List.foldl_cons, List.foldl_cons, ih]; rfl

/-- Erasing the log of `getPathVectorLogged` gives `getPathVector`. -/
theorem getPathVectorLogged_erase (predecessors : Nat → Nat → Nat) (mask vertex n : Nat) :
    (getPathVectorLogged predecessors mask vertex n).1 = getPathVector predecessors mask vertex n := by
  unfold getPathVectorLogged getPathVector
  simp only [pathStepLogged_foldl]

/-- The log of the reconstruction loop. -/
theorem pathStepLogged_log (predecessors : Nat → Nat → Nat) (k : Nat) :
    ∀ (path : List Nat) (mask vertex : Nat) (log : List Event),
      ((List.range k).reverse.foldl (pathStepLogged predecessors)
          ((path, mask, vertex), log)).2
        = log ++ fillLog predecessors k mask vertex := by
  induction k with
  | zero => intro path mask vertex log; simp [fillLog]
  | succ k ih =>
    intro path mask vertex log
    rw [List.range_succ, List.reverse_append, List.reverse_singleton, List.singleton_append,
      List.foldl_cons]
    have hstep : pathStepLogged predecessors ((path, mask, vertex), log) k
        = ((path.set k vertex, mask ^^^ (1 <<< predecessors mask vertex),
            predecessors mask vertex), log ++ [Event.fillStep k mask vertex]) := rfl
    rw [hstep, ih]
    simp [fillLog]

theorem getPathVectorLogged_log (predecessors : Nat → Nat → Nat) (mask vertex n : Nat) :
    (getPathVectorLogged predecessors mask vertex n).2 = fillLog predecessors n mask vertex := by
  unfold getPathVectorLogged
  rw [pathStepLogged_log]
  rfl

/-- Erasing the log of `executeLogged` gives `execute`. -/
theorem executeLogged_erase (prev : DynamicProgramming) (ind : Indeterminate) (g : GraphMatrix) :
    (executeLogged prev ind g).map Prod.fst = execute prev ind g := by
  unfold executeLogged execute
  cases hs : setUp prev ind g with
  | error e => rfl
  | ok dp =>
    simp only
    rw [← heldKarpLogged_erase]
    cases heldKarpLogged ind.stack dp.graphSize dp dp.initialMask dp.startingVertex with
    | none => rfl
    | some out =>
      obtain ⟨r, dp1, log⟩ := out
      simp only [Option.map_some', Except.map, getPathVectorLogged_erase]

/-- A run of `executeLogged` that returns: the result of `execute` and the
two parts of the log. -/
theorem executeLogged_of_call {prev : DynamicProgramming} {ind : Indeterminate}
    {g : GraphMatrix} {dp dp' : DynamicProgramming} {r : Int} {log : List Event}
    (hs : setUp prev ind g = .ok dp)
    (hc : heldKarpLogged ind.stack dp.graphSize dp dp.initialMask dp.startingVertex
      = some (r, dp', log)) :
    executeLogged prev ind g
      = .ok (Path.mk (getPathVector dp'.predecessors dp'.initialMask dp'.startingVertex
            dp'.graphSize) r,
          log ++ fillLog dp'.predecessors dp'.graphSize dp'.initialMask dp'.startingVertex) := by
  unfold executeLogged
  rw [hs]
  simp only
  rw [hc]
  simp only [getPathVectorLogged_erase, getPathVectorLogged_log]

end HeldKarp

namespace HeldKarp

/-! ## The cells the recurrence is called on -/

theorem cell_drop {n S p x : Nat} (hv : Cell n S p) (hx : S.testBit x = true) :
    Cell n (S ^^^ (1 <<< x)) x := by
  have hlt := testBit_lt hv.1 hx
  refine ⟨drop_lt_pow hv.1 hx, by omega, ?_⟩
  rw [testBit_drop, hx]
  simp

theorem scanVertexLogged_none
    (recur : DynamicProgramming → Nat → Nat → Option (Int × DynamicProgramming × List Event))
    (S p : Nat) (vs : List Nat) : vs.foldl (scanVertexLogged recur S p) none = none := by
  induction vs with
  | nil => rfl
  | cons x vs ih => rw [List.foldl_cons]; exact ih

theorem scanVertexLogged_skip
    (recur : DynamicProgramming → Nat → Nat → Option (Int × DynamicProgramming × List Event))
    (S p : Nat) (dp : DynamicProgramming) (j : Nat) (m : Int) (log : List Event) (x : Nat)
    (hb : ¬ S &&& (1 <<< x) = 1 <<< x) :
    scanVertexLogged recur S p (some (dp, j, m, log)) x = some (dp, j, m, log) := by
  simp [scanVertexLogged, hb]

theorem scanVertexLogged_call
    (recur : DynamicProgramming → Nat → Nat → Option (Int × DynamicProgramming × List Event))
    (S p : Nat) (dp dp1 : DynamicProgramming) (j : Nat) (m r : Int) (log inner : List Event)
    (x : Nat) (hb : S &&& (1 <<< x) = 1 <<< x)
    (hr : recur dp (S ^^^ (1 <<< x)) x = some (r, dp1, inner)) :
    ∃ j1 m1, scanVertexLogged recur S p (some (dp, j, m, log)) x
      = some (dp1, j1, m1, log ++ inner ++ [Event.sum r (dp1.graph.weight x p)]) := by
  simp only [scanVertexLogged, hb, hr, if_true]
  split
  · exact ⟨_, _, rfl⟩
  · exact ⟨_, _, rfl⟩

theorem scanLogged_cells (stack : Nat → Nat → Nat) (fuel : Nat)
    (ih : ∀ dp S p r dp' log, heldKarpLogged stack fuel dp S p = some (r, dp', log) →
      Cell dp.graphSize S p →
      dp'.graphSize = dp.graphSize ∧ ∀ e ∈ log, AccessOk dp.graphSize e)
    {n S : Nat} (p : Nat) (hS : S < 2 ^ (n - 1)) (vs : List Nat) :
    ∀ (dp : DynamicProgramming) (j : Nat) (m : Int) (log0 : List Event)
      (dp' : DynamicProgramming) (j' : Nat) (m' : Int) (log' : List Event),
      dp.graphSize = n → (∀ e ∈ log0, AccessOk n e) →
      vs.foldl (scanVertexLogged (heldKarpLogged stack fuel) S p) (some (dp, j, m, log0))
        = some (dp', j', m', log') →
      dp'.graphSize = n ∧ ∀ e ∈ log', AccessOk n e := by
  induction vs with
  | nil =>
    intro dp j m log0 dp' j' m' log' hn hlog h
    simp only [List.foldl_nil, Option.some.injEq, Prod.mk.injEq] at h
    obtain ⟨rfl, -, -, rfl⟩ := h
    exact ⟨hn, hlog⟩
  | cons x vs ihv =>
    intro dp j m log0 dp' j' m' log' hn hlog h
    rw [List.foldl_cons] at h
    by_cases hb : S &&& (1 <<< x) = 1 <<< x
    · have hx : S.testBit x = true := (and_bit_iff S x).1 hb
      have hlt := testBit_lt hS hx
      have hcell : Cell n (S ^^^ (1 <<< x)) x := by
        refine ⟨drop_lt_pow hS hx, by omega, ?_⟩
        rw [testBit_drop, hx]
        simp
      cases hr : heldKarpLogged stack fuel dp (S ^^^ (1 <<< x)) x with
      | none =>
        have : scanVertexLogged (heldKarpLogged stack fuel) S p (some (dp, j, m, log0)) x
            = none := by
          simp only [scanVertexLogged, hb, hr, if_true]
        rw [this, scanVertexLogged_none] at h
        cases h
      | some out =>
        obtain ⟨r, dp1, inner⟩ := out
        obtain ⟨j1, m1, hstep⟩ := scanVertexLogged_call (heldKarpLogged stack fuel) S p dp dp1
          j m r log0 inner x hb hr
        rw [hstep] at h
        obtain ⟨hsz, hin⟩ := ih dp _ x r dp1 inner hr (by rw [hn]; exact hcell)
        rw [hn] at hsz hin
        exact ihv dp1 j1 m1 _ dp' j' m' log' hsz (by
          intro e he
          rcases List.mem_append.1 he with he | he
          · rcases List.mem_append.1 he with he | he
            · exact hlog e he
            · exact hin e he
          · rw [List.mem_singleton.1 he]
            trivial) h
    · rw [scanVertexLogged_skip _ S p dp j m log0 x hb] at h
      exact ihv dp j m log0 dp' j' m' log' hn hlog h

/-- Every call, loop entry and store of a run that starts on a cell of the
tables whose mask does not hold the end vertex is on such a cell again. -/
theorem heldKarpLogged_cells (stack : Nat → Nat → Nat) :
    ∀ fuel dp S p r dp' log, heldKarpLogged stack fuel dp S p = some (r, dp', log) →
      Cell dp.graphSize S p →
      dp'.graphSize = dp.graphSize ∧ ∀ e ∈ log, AccessOk dp.graphSize e := by
  intro fuel
  induction fuel with
  | zero => intro dp S p r dp' log h; cases h
  | succ fuel ih =>
    intro dp S p r dp' log h hv
    rw [heldKarpLogged_succ] at h
    by_cases hprev : dp.previousResults S p ≠ -1
    · rw [if_pos hprev] at h
      simp only [Option.some.injEq, Prod.mk.injEq] at h
      obtain ⟨-, rfl, rfl⟩ := h
      refine ⟨rfl, ?_⟩
      intro e he
      rw [List.mem_singleton.1 he]
      exact hv
    · rw [if_neg hprev] at h
      cases hf : (List.range (dp.graphSize - 1)).foldl
          (scanVertexLogged (heldKarpLogged stack fuel) S p)
          (some (dp, stack S p, INT_MAX, [Event.call S p, Event.loop S p])) with
      | none => rw [hf] at h; cases h
      | some out =>
        obtain ⟨dp2, j2, m2, log2⟩ := out
        rw [hf] at h
        simp only [Option.some.injEq, Prod.mk.injEq] at h
        obtain ⟨-, rfl, rfl⟩ := h
        obtain ⟨h1, h2⟩ := scanLogged_cells stack fuel ih p hv.1 _ dp (stack S p) INT_MAX
          [Event.call S p, Event.loop S p] dp2 j2 m2 log2 rfl (by
            intro e he
            simp only [List.mem_cons, List.mem_singleton, List.not_mem_nil, or_false] at he
            rcases he with rfl | rfl
            · exact hv
            · exact hv) hf
        refine ⟨h1, ?_⟩
        intro e he
        rcases List.mem_append.1 he with he | he
        · exact h2 e he
        · rw [List.mem_singleton.1 he]
          exact hv

theorem logged_of_erased {stack : Nat → Nat → Nat} {fuel : Nat} {dp dp' : DynamicProgramming}
    {S p : Nat} {r : Int} (h : heldKarpAlgorithm stack fuel dp S p = some (r, dp')) :
    ∃ log, heldKarpLogged stack fuel dp S p = some (r, dp', log) := by
  rw [← heldKarpLogged_erase] at h
  cases hl : heldKarpLogged stack fuel dp S p with
  | none => rw [hl] at h; cases h
  | some out =>
    obtain ⟨r1, dp1, log⟩ := out
    rw [hl] at h
    simp only [Option.map_some', Option.some.injEq, Prod.mk.injEq] at h
    obtain ⟨rfl, rfl⟩ := h
    exact ⟨log, rfl⟩

theorem fillLog_only_fillSteps (predecessors : Nat → Nat → Nat) (S p : Nat) :
    ∀ k m v, Event.call S p ∉ fillLog predecessors k m v ∧
      Event.loop S p ∉ fillLog predecessors k m v ∧
      Event.store S p ∉ fillLog predecessors k m v ∧
      ∀ r w, Event.sum r w ∉ fillLog predecessors k m v := by
  intro k
  induction k with
  | zero => intro m v; simp [fillLog]
  | succ k ih => intro m v; simp [fillLog, ih]

end HeldKarp

namespace HeldKarp

/-! ## What the log of the recurrence records -/

theorem logFacts_call (g : GraphMatrix) (dp : DynamicProgramming) (B S p : Nat) :
    LogFacts g dp dp B [Event.call S p] := by
  refine ⟨?_, ?_, ?_⟩
  · intro T q e he
    rcases he with rfl | rfl <;> simp
  · intro T q _
    exact ⟨rfl, rfl⟩
  · intro r w h
    simp at h

theorem logFacts_sum (g : GraphMatrix) (dp : DynamicProgramming) (B : Nat) (r w : Int)
    (h : ∃ T q xs, Valid g.vertexCount T q ∧ IsOrdering T xs ∧
      r + w = walkWeight g (g.vertexCount - 1) xs q) :
    LogFacts g dp dp B [Event.sum r w] := by
  refine ⟨?_, ?_, ?_⟩
  · intro T q e he
    rcases he with rfl | rfl <;> simp
  · intro T q _
    exact ⟨rfl, rfl⟩
  · intro r' w' h'
    simp only [List.mem_singleton, Event.sum.injEq] at h'
    obtain ⟨rfl, rfl⟩ := h'
    exact h

theorem logFacts_nil (g : GraphMatrix) (dp : DynamicProgramming) (B : Nat) :
    LogFacts g dp dp B [] := by
  refine ⟨?_, ?_, ?_⟩
  · intro T q e he
    simp
  · intro T q _
    exact ⟨rfl, rfl⟩
  · intro r w h
    simp at h

theorem logFacts_bound {g : GraphMatrix} {dp dp' : DynamicProgramming} {B B' : Nat}
    {log : List Event} (hB : B ≤ B') (h : LogFacts g dp dp' B log) :
    LogFacts g dp dp' B' log := by
  refine ⟨?_, h.2.1, h.2.2⟩
  intro T q e he
  obtain ⟨h1, h2⟩ := h.1 T q e he
  refine ⟨h1, fun hm => ?_⟩
  obtain ⟨a, b, c⟩ := h2 hm
  exact ⟨by omega, b, c⟩

theorem logFacts_append {g : GraphMatrix} {dp dp1 dp2 : DynamicProgramming} {B : Nat}
    {l1 l2 : List Event} (h1 : LogFacts g dp dp1 B l1) (h2 : LogFacts g dp1 dp2 B l2)
    (m1 : Mono dp dp1) (m2 : Mono dp1 dp2) : LogFacts g dp dp2 B (l1 ++ l2) := by
  refine ⟨?_, ?_, ?_⟩
  · intro T q e he
    obtain ⟨c1, f1⟩ := h1.1 T q e he
    obtain ⟨c2, f2⟩ := h2.1 T q e he
    constructor
    · rw [List.count_append]
      by_cases hm : e ∈ l1
      · have hz : l2.count e = 0 := by
          apply List.count_eq_zero_of_not_mem
          intro hm2
          exact (f1 hm).2.2.2 (f2 hm2).2.2.1
        omega
      · have hz : l1.count e = 0 := List.count_eq_zero_of_not_mem hm
        omega
    · intro hm
      rcases List.mem_append.1 hm with hm | hm
      · obtain ⟨a, v, b, c⟩ := f1 hm
        exact ⟨a, v, b, m2 T q c⟩
      · obtain ⟨a, v, b, c⟩ := f2 hm
        refine ⟨a, v, ?_, c⟩
        by_contra hne
        exact m1 T q hne b
  · intro T q hm
    have hm1 : Event.store T q ∉ l1 := fun h => hm (List.mem_append_left _ h)
    have hm2 : Event.store T q ∉ l2 := fun h => hm (List.mem_append_right _ h)
    obtain ⟨a1, b1⟩ := h1.2.1 T q hm1
    obtain ⟨a2, b2⟩ := h2.2.1 T q hm2
    exact ⟨a2.trans a1, b2.trans b1⟩
  · intro r w hm
    rcases List.mem_append.1 hm with hm | hm
    · exact h1.2.2 r w hm
    · exact h2.2.2 r w hm

theorem scanLogged_facts {g : GraphMatrix} (hpos : NonNegative g) (hsum : SumsBelow g)
    (stack : Nat → Nat → Nat) (fuel : Nat)
    (ih : ∀ dp S p, Valid g.vertexCount S p → card (g.vertexCount - 1) S < fuel →
      Inv g stack dp →
      ∃ dp' log, heldKarpLogged stack fuel dp S p
          = some (recurrence g (card (g.vertexCount - 1) S) S p, dp', log) ∧
        Inv g stack dp' ∧ Mono dp dp' ∧ dp'.previousResults S p ≠ -1 ∧
        LogFacts g dp dp' (S + 1) log)
    {S p : Nat} (hv : Valid g.vertexCount S p) (hc : card (g.vertexCount - 1) S < fuel + 1)
    (vs : List Nat) :
    ∀ (dp : DynamicProgramming) (j : Nat) (m : Int) (log0 : List Event), Inv g stack dp →
      ∃ dp' j' m' flog,
        vs.foldl (scanVertexLogged (heldKarpLogged stack fuel) S p) (some (dp, j, m, log0))
          = some (dp', j', m', log0 ++ flog) ∧
        Inv g stack dp' ∧ Mono dp dp' ∧ LogFacts g dp dp' S flog := by
  induction vs with
  | nil =>
    intro dp j m log0 hinv
    exact ⟨dp, j, m, [], by simp, hinv, mono_refl dp, logFacts_nil g dp S⟩
  | cons x vs ihv =>
    intro dp j m log0 hinv
    rw [List.foldl_cons]
    by_cases hb : S &&& (1 <<< x) = 1 <<< x
    · have hx : S.testBit x = true := (and_bit_iff S x).1 hb
      have hlt := testBit_lt hv.1 hx
      have hcd := card_drop hlt hx
      obtain ⟨dp1, inner, hcall, hinv1, hmono1, -, hfacts1⟩ :=
        ih dp (S ^^^ (1 <<< x)) x (valid_drop hv hx) (by omega) hinv
      obtain ⟨j1, m1, hstep⟩ := scanVertexLogged_call (heldKarpLogged stack fuel) S p dp dp1
        j m _ log0 inner x hb hcall
      rw [hstep]
      obtain ⟨dp', j', m', flog, hfold, hinv', hmono', hfacts'⟩ := ihv dp1 j1 m1
        (log0 ++ inner ++ [Event.sum (recurrence g (card (g.vertexCount - 1)
          (S ^^^ (1 <<< x))) (S ^^^ (1 <<< x)) x) (dp1.graph.weight x p)]) hinv1
      obtain ⟨k, hk⟩ : ∃ k, card (g.vertexCount - 1) S = k + 1 := ⟨_, hcd.symm⟩
      have hk' : card (g.vertexCount - 1) (S ^^^ (1 <<< x)) = k := by omega
      have hpath := (candidate_path hpos hsum k (exists_ordering hpos hsum k) hv hk hx (p := p)).1
      have hs : LogFacts g dp1 dp1 S
          [Event.sum (recurrence g (card (g.vertexCount - 1)
            (S ^^^ (1 <<< x))) (S ^^^ (1 <<< x)) x) (dp1.graph.weight x p)] := by
        apply logFacts_sum
        rw [hinv1.graph, hk']
        obtain ⟨xs, ho, he⟩ := hpath
        exact ⟨S, p, xs, hv, ho, he⟩
      have hdrop : (S ^^^ (1 <<< x)) + 1 ≤ S := drop_lt hx
      have hin := logFacts_append (logFacts_bound hdrop hfacts1) hs hmono1 (mono_refl dp1)
      refine ⟨dp', j', m', inner ++ [Event.sum (recurrence g (card (g.vertexCount - 1)
          (S ^^^ (1 <<< x))) (S ^^^ (1 <<< x)) x) (dp1.graph.weight x p)] ++ flog, ?_,
        hinv', mono_trans hmono1 hmono', ?_⟩
      · rw [hfold]
        simp
      · exact logFacts_append hin hfacts' hmono1 hmono'
    · rw [scanVertexLogged_skip _ S p dp j m log0 x hb]
      exact ihv dp j m log0 hinv

/-- On tables that satisfy the invariant, the instrumented call on a valid
cell returns the value of the recurrence, and its log satisfies
`LogFacts`. -/
theorem heldKarpLogged_memo {g : GraphMatrix} (hpos : NonNegative g) (hsum : SumsBelow g)
    (stack : Nat → Nat → Nat) :
    ∀ fuel dp S p, Valid g.vertexCount S p → card (g.vertexCount - 1) S < fuel →
      Inv g stack dp →
      ∃ dp' log, heldKarpLogged stack fuel dp S p
          = some (recurrence g (card (g.vertexCount - 1) S) S p, dp', log) ∧
        Inv g stack dp' ∧ Mono dp dp' ∧ dp'.previousResults S p ≠ -1 ∧
        LogFacts g dp dp' (S + 1) log := by
  intro fuel
  induction fuel with
  | zero => intro dp S p _ hc _; omega
  | succ fuel ih =>
    intro dp S p hv hc hinv
    obtain ⟨dp', hcall, hinv', hmono', hcomp⟩ :=
      heldKarp_memo hpos hsum stack (fuel + 1) dp S p hv hc hinv
    obtain ⟨log, hlog⟩ := logged_of_erased hcall
    refine ⟨dp', log, hlog, hinv', hmono', hcomp, ?_⟩
    rw [heldKarpLogged_succ] at hlog
    by_cases hprev : dp.previousResults S p ≠ -1
    · rw [if_pos hprev] at hlog
      simp only [Option.some.injEq, Prod.mk.injEq] at hlog
      obtain ⟨-, rfl, rfl⟩ := hlog
      exact logFacts_call g dp (S + 1) S p
    · rw [if_neg hprev] at hlog
      obtain ⟨dp2, j2, m2, flog, hfold, hinv2, hmono2, hfacts⟩ :=
        scanLogged_facts hpos hsum stack fuel ih hv hc (List.range (dp.graphSize - 1)) dp
          (stack S p) INT_MAX [Event.call S p, Event.loop S p] hinv
      rw [hfold] at hlog
      simp only [Option.some.injEq, Prod.mk.injEq] at hlog
      obtain ⟨hm2, rfl, rfl⟩ := hlog
      simp only [and_self, if_true] at hcomp
      have hprev' : dp.previousResults S p = -1 := not_not.1 hprev
      have hnot : ∀ T q e, (e = Event.store T q ∨ e = Event.loop T q) → e ∈ flog → T < S :=
        fun T q e he hm => ((hfacts.1 T q e he).2 hm).1
      refine ⟨?_, ?_, ?_⟩
      · intro T q e he
        by_cases hcell : T = S ∧ q = p
        · obtain ⟨rfl, rfl⟩ := hcell
          have hz : flog.count e = 0 := by
            apply List.count_eq_zero_of_not_mem
            intro hm
            have := hnot T q e he hm
            omega
          constructor
          · rcases he with rfl | rfl
            · simp only [List.count_append, List.count_cons, List.count_nil, hz]
              simp
            · simp only [List.count_append, List.count_cons, List.count_nil, hz]
              simp
          · intro _
            refine ⟨by omega, hv, hprev', ?_⟩
            simpa using hcomp
        · have hne1 : Event.loop S p ≠ e := by
            rcases he with rfl | rfl
            · simp
            · intro h
              simp only [Event.loop.injEq] at h
              exact hcell ⟨h.1.symm, h.2.symm⟩
          have hne2 : Event.store S p ≠ e := by
            rcases he with rfl | rfl
            · intro h
              simp only [Event.store.injEq] at h
              exact hcell ⟨h.1.symm, h.2.symm⟩
            · simp
          have hne0 : Event.call S p ≠ e := by
            rcases he with rfl | rfl <;> simp
          obtain ⟨c1, f1⟩ := hfacts.1 T q e he
          constructor
          · simp only [List.count_append, List.count_cons, List.count_nil, beq_iff_eq, hne0,
              hne1, hne2, if_false]
            omega
          · intro hm
            have hm' : e ∈ flog := by
              rcases List.mem_append.1 hm with h | h
              · rcases List.mem_append.1 h with h | h
                · simp only [List.mem_cons, List.mem_singleton, List.not_mem_nil,
                    or_false] at h
                  rcases h with h | h
                  · exact absurd h.symm hne0
                  · exact absurd h.symm hne1
                · exact h
              · exact absurd (List.mem_singleton.1 h).symm hne2
            obtain ⟨a, v, b, c⟩ := f1 hm'
            refine ⟨by omega, v, b, ?_⟩
            simp only [hcell, if_false]
            exact c
      · intro T q hm
        have hcell : ¬ (T = S ∧ q = p) := by
          rintro ⟨rfl, rfl⟩
          exact hm (List.mem_append_right _ (List.mem_singleton.2 rfl))
        have hm' : Event.store T q ∉ flog :=
          fun h => hm (List.mem_append_left _ (List.mem_append_right _ h))
        simp only [hcell, if_false]
        exact hfacts.2.1 T q hm'
      · intro r w hm
        apply hfacts.2.2 r w
        rcases List.mem_append.1 hm with h | h
        · rcases List.mem_append.1 h with h | h
          · simp at h
          · exact h
        · simp at h

end HeldKarp

namespace HeldKarp

/-! ## The log of `execute` -/

theorem fillLog_steps (predecessors : Nat → Nat → Nat) :
    ∀ k m v i, i < k → ∃ m' v', Event.fillStep i m' v' ∈ fillLog predecessors k m v := by
  intro k
  induction k with
  | zero => intro m v i hi; omega
  | succ k ih =>
    intro m v i hi
    by_cases hik : i = k
    · subst hik
      exact ⟨m, v, by simp [fillLog]⟩
    · obtain ⟨m', v', h⟩ := ih (m ^^^ (1 <<< predecessors m v)) (predecessors m v) i (by omega)
      exact ⟨m', v', by simp only [fillLog]; exact List.mem_cons_of_mem _ h⟩

/-- The cells the reconstruction reads: at position `i` the mask has `i`
vertices and the cell is a computed one. -/
theorem fillLog_facts {g : GraphMatrix} (hpos : NonNegative g) (hsum : SumsBelow g)
    (stack : Nat → Nat → Nat) (dp : DynamicProgramming) (hinv : Inv g stack dp) :
    ∀ k S p, Valid g.vertexCount S p → card (g.vertexCount - 1) S = k →
      dp.previousResults S p ≠ -1 →
      ∀ i m v, Event.fillStep i m v ∈ fillLog dp.predecessors (k + 1) S p →
        i ≤ k ∧ card (g.vertexCount - 1) m = i ∧ (i = k → m = S) ∧
        Valid g.vertexCount m v ∧ dp.previousResults m v ≠ -1 := by
  intro k
  induction k with
  | zero =>
    intro S p hv hc hcomp i m v hm
    simp only [fillLog, List.mem_singleton, Event.fillStep.injEq] at hm
    obtain ⟨rfl, rfl, rfl⟩ := hm
    exact ⟨le_refl _, hc, fun _ => rfl, hv, hcomp⟩
  | succ k ih =>
    intro S p hv hc hcomp i m v hm
    have hS : S ≠ 0 := by
      intro h
      subst h
      rw [card_zero] at hc
      omega
    obtain ⟨hp1, hp2⟩ := hinv.pred S p hv hcomp hS
    have hk : card (g.vertexCount - 1) S - 1 = k := by omega
    rw [hk] at hp1
    obtain ⟨hb, -, -, -⟩ :=
      loop_facts hpos hsum k (exists_ordering hpos hsum k) hv hc (stack S p)
    have hlt := testBit_lt hv.1 hb
    have hcd : card (g.vertexCount - 1) (S ^^^ (1 <<< choice g (stack S p) k S p)) = k := by
      have := card_drop hlt hb
      omega
    rw [hp1] at hp2
    rw [fillLog, hp1] at hm
    rcases List.mem_cons.1 hm with h | h
    · simp only [Event.fillStep.injEq] at h
      obtain ⟨rfl, rfl, rfl⟩ := h
      exact ⟨le_refl _, hc, fun _ => rfl, hv, hcomp⟩
    · obtain ⟨a, b, -, d, e⟩ := ih _ _ (valid_drop hv hb) hcd hp2 i m v h
      exact ⟨by omega, b, fun h => by omega, d, e⟩

/-- The run of `execute` on a graph with `2 ≤ n ≤ 31` vertices, non-negative
weights and path sums below `INT_MAX`: the log of the recurrence, the tables
it leaves, and the log of the reconstruction. -/
theorem executeLogged_run (prev : DynamicProgramming) (ind : Indeterminate) {g : GraphMatrix}
    (h2 : 2 ≤ g.vertexCount) (h31 : g.vertexCount ≤ 31)
    (hpos : NonNegative g) (hsum : SumsBelow g) :
    ∃ dp' log, Inv g ind.stack dp' ∧
      dp'.previousResults (fullMask g) (g.vertexCount - 1) ≠ -1 ∧
      LogFacts g (freshTables ind g) dp' (fullMask g + 1) log ∧
      (∀ e ∈ log, AccessOk g.vertexCount e) ∧
      executeLogged prev ind g
        = .ok (solution g,
            log ++ fillLog dp'.predecessors g.vertexCount (fullMask g) (g.vertexCount - 1)) ∧
      execute prev ind g = .ok (solution g) := by
  have hv := valid_full h2
  have hcard : card (g.vertexCount - 1) (fullMask g) = g.vertexCount - 1 := card_full _
  have hinit : Inv g ind.stack (freshTables ind g) :=
    inv_initial ind.results ind.heap ind.stack g
  obtain ⟨dp', log, hcall, hinv, -, hcomp, hfacts⟩ :=
    heldKarpLogged_memo hpos hsum ind.stack g.vertexCount (freshTables ind g) (fullMask g)
      (g.vertexCount - 1) hv (by omega) hinit
  have hs := setUp_fresh prev ind g (by omega) h31
  have hcall' : heldKarpLogged ind.stack (freshTables ind g).graphSize (freshTables ind g)
      (freshTables ind g).initialMask (freshTables ind g).startingVertex
        = some (recurrence g (card (g.vertexCount - 1) (fullMask g)) (fullMask g)
            (g.vertexCount - 1), dp', log) := hcall
  have hrun := executeLogged_of_call hs hcall'
  have hex := execute_eq prev ind h2 h31 hpos hsum
  have herase := executeLogged_erase prev ind g
  rw [hrun, hex] at herase
  simp only [Except.map, Except.ok.injEq] at herase
  rw [herase, hinv.size, hinv.full, hinv.start] at hrun
  have hcell : Cell (freshTables ind g).graphSize (fullMask g) (g.vertexCount - 1) :=
    ⟨hv.1, hv.2.1, hv.2.2.1⟩
  obtain ⟨-, hok⟩ := heldKarpLogged_cells ind.stack _ _ _ _ _ _ _ hcall hcell
  exact ⟨dp', log, hinv, hcomp, hfacts, hok, hrun, hex⟩

/-- On the tables `execute` starts from, the log of the recurrence stores
no cell of the base row. -/
theorem store_ne_zero {ind : Indeterminate} {g : GraphMatrix} (hpos : NonNegative g)
    {dp' : DynamicProgramming} {B : Nat} {log : List Event}
    (hfacts : LogFacts g (freshTables ind g) dp' B log) {S p : Nat}
    (h : Event.store S p ∈ log) : S ≠ 0 := by
  obtain ⟨-, hv, hfresh, -⟩ := (hfacts.1 S p _ (Or.inl rfl)).2 h
  intro h0
  subst h0
  rw [fresh_results] at hfresh
  simp only [hv.2.1, and_self, if_true] at hfresh
  have hne : g.vertexCount - 1 ≠ p := fun h => hv.2.2.2 rfl h.symm
  have := hpos (g.vertexCount - 1) p (by have := hv.2.1; omega) hv.2.1 hne
  omega

theorem executeLogged_of_setUp_error {prev : DynamicProgramming} {ind : Indeterminate}
    {g : GraphMatrix} {e : Undefined} (h : setUp prev ind g = .error e) :
    executeLogged prev ind g = .error e := by
  unfold executeLogged
  rw [h]

theorem executeLogged_one (prev : DynamicProgramming) (ind : Indeterminate) (g : GraphMatrix)
    (h : g.vertexCount = 1) :
    ∃ r, executeLogged prev ind g
      = .ok (r, if g.weight 0 0 = -1
          then [Event.call 0 0, Event.loop 0 0, Event.store 0 0, Event.fillStep 0 0 0]
          else [Event.call 0 0, Event.fillStep 0 0 0]) := by
  unfold executeLogged
  rw [setUp_eq prev ind g (by omega) (by omega)]
  simp only [initializeValues, h]
  rw [heldKarpLogged_succ]
  by_cases hw : g.weight 0 0 = -1
  · simp [hw, getPathVectorLogged_log, fillLog]
  · simp [hw, getPathVectorLogged_log, fillLog]

end HeldKarp

namespace HeldKarp

/-! ## Compute-once, overflow and reconstruction claims -/

/-- C21: on a graph with non-negative weights and path sums below `INT_MAX`,
in the log of one run of `execute` each pair `(S, p)` has at most one entry
of the minimisation loop and at most one store of `previousResults[S][p]`
and `predecessors[S][p]`; for `2 ≤ n ≤ 31` the run returns and no store is
on the base row written by `initializeValues`; and a call on a pair whose
`previousResults` cell is computed returns the stored value with both tables
unchanged and nothing but the call in its log. -/
theorem heldKarpAlgorithm_compute_once (prev : DynamicProgramming) (ind : Indeterminate)
    {g : GraphMatrix} (hpos : NonNegative g) (hsum : SumsBelow g) :
    (2 ≤ g.vertexCount → g.vertexCount ≤ 31 →
      ∃ r log, executeLogged prev ind g = .ok (r, log) ∧ execute prev ind g = .ok r ∧
        ∀ S p, Event.store S p ∈ log → S ≠ 0) ∧
    (∀ r log, executeLogged prev ind g = .ok (r, log) →
      ∀ S p, log.count (Event.loop S p) ≤ 1 ∧ log.count (Event.store S p) ≤ 1) ∧
    ∀ stack fuel dp S p, dp.previousResults S p ≠ -1 →
      heldKarpLogged stack (fuel + 1) dp S p
        = some (dp.previousResults S p, dp, [Event.call S p]) ∧
      heldKarpAlgorithm stack (fuel + 1) dp S p = some (dp.previousResults S p, dp) := by
  refine ⟨?_, ?_, ?_⟩
  · intro h2 h31
    obtain ⟨dp', log, -, -, hfacts, -, hrun, hex⟩ := executeLogged_run prev ind h2 h31 hpos hsum
    refine ⟨_, _, hrun, hex, ?_⟩
    intro S p hm
    rcases List.mem_append.1 hm with h | h
    · exact store_ne_zero hpos hfacts h
    · exact absurd h (fillLog_only_fillSteps _ S p _ _ _).2.2.1
  · intro r log hlog S p
    by_cases h0 : g.vertexCount = 0 ∨ 32 ≤ g.vertexCount
    · obtain ⟨e, he⟩ := setUp_error prev ind g h0
      rw [executeLogged_of_setUp_error he] at hlog
      cases hlog
    · by_cases h1 : g.vertexCount = 1
      · obtain ⟨r', hr'⟩ := executeLogged_one prev ind g h1
        rw [hr'] at hlog
        simp only [Except.ok.injEq, Prod.mk.injEq] at hlog
        obtain ⟨-, rfl⟩ := hlog
        split
        · simp only [List.count_cons, List.count_nil, beq_iff_eq]
          constructor <;> simp <;> split <;> omega
        · simp only [List.count_cons, List.count_nil, beq_iff_eq]
          constructor <;> simp
      · obtain ⟨dp', log', -, -, hfacts, -, hrun, -⟩ :=
          executeLogged_run prev ind (by omega) (by omega) hpos hsum
        rw [hrun] at hlog
        simp only [Except.ok.injEq, Prod.mk.injEq] at hlog
        obtain ⟨-, rfl⟩ := hlog
        obtain ⟨-, f2, f3, -⟩ := fillLog_only_fillSteps dp'.predecessors S p g.vertexCount
          (fullMask g) (g.vertexCount - 1)
        rw [List.count_append, List.count_append, List.count_eq_zero_of_not_mem f2,
          List.count_eq_zero_of_not_mem f3]
        exact ⟨(hfacts.1 S p _ (Or.inr rfl)).1, (hfacts.1 S p _ (Or.inl rfl)).1⟩
  · intro stack fuel dp S p h
    rw [heldKarpLogged_succ, heldKarpAlgorithm_succ, if_pos h, if_pos h]
    exact ⟨rfl, rfl⟩

theorem heldKarpAlgorithm_compute_once_witness :
    (2 ≤ (squareGraph 10 14).vertexCount → (squareGraph 10 14).vertexCount ≤ 31 →
      ∃ r log, executeLogged blank (allRead 7) (squareGraph 10 14) = .ok (r, log) ∧
        execute blank (allRead 7) (squareGraph 10 14) = .ok r ∧
        ∀ S p, Event.store S p ∈ log → S ≠ 0) ∧
    (∀ r log, executeLogged blank (allRead 7) (squareGraph 10 14) = .ok (r, log) →
      ∀ S p, log.count (Event.loop S p) ≤ 1 ∧ log.count (Event.store S p) ≤ 1) ∧
    ∀ stack fuel dp S p, dp.previousResults S p ≠ -1 →
      heldKarpLogged stack (fuel + 1) dp S p
        = some (dp.previousResults S p, dp, [Event.call S p]) ∧
      heldKarpAlgorithm stack (fuel + 1) dp S p = some (dp.previousResults S p, dp) :=
  heldKarpAlgorithm_compute_once blank (allRead 7)
    (nonNegative_square (by decide) (by decide))
    (sumsBelow_of_bound (nonNegative_square (by decide) (by decide))
      (boundedBy_square (by decide) (by decide)) (by decide))

/-- C24: on a graph with `n ≥ 2` vertices whose weights between distinct
vertices lie in `[0, W]` with `n * W < INT_MAX`, every sum of a returned
value and a weight that a run of `execute` forms lies in `[0, n * W]`, so
the 32-bit addition does not wrap and the candidate is below the initial
minimum `INT_MAX`; for `n ≤ 31` the run returns. -/
theorem heldKarpAlgorithm_sums_in_range (prev : DynamicProgramming) (ind : Indeterminate)
    {g : GraphMatrix} (W : Int) (h2 : 2 ≤ g.vertexCount) (hpos : NonNegative g)
    (hW : BoundedBy g W) (hn : (g.vertexCount : Int) * W < INT_MAX) :
    (g.vertexCount ≤ 31 →
      ∃ r log, executeLogged prev ind g = .ok (r, log) ∧ execute prev ind g = .ok r) ∧
    ∀ r log, executeLogged prev ind g = .ok (r, log) →
      ∀ v w, Event.sum v w ∈ log →
        0 ≤ v + w ∧ v + w ≤ (g.vertexCount : Int) * W ∧ wrapInt (v + w) = v + w ∧
        v + w < INT_MAX := by
  have hsum := sumsBelow_of_bound hpos hW hn
  refine ⟨?_, ?_⟩
  · intro h31
    obtain ⟨dp', log, -, -, -, -, hrun, hex⟩ := executeLogged_run prev ind h2 h31 hpos hsum
    exact ⟨_, _, hrun, hex⟩
  · intro r log hlog v w hm
    by_cases h32 : 32 ≤ g.vertexCount
    · obtain ⟨e, he⟩ := setUp_error prev ind g (Or.inr h32)
      rw [executeLogged_of_setUp_error he] at hlog
      cases hlog
    · obtain ⟨dp', log', -, -, hfacts, -, hrun, -⟩ :=
        executeLogged_run prev ind h2 (by omega) hpos hsum
      rw [hrun] at hlog
      simp only [Except.ok.injEq, Prod.mk.injEq] at hlog
      obtain ⟨-, rfl⟩ := hlog
      have hm' : Event.sum v w ∈ log' := by
        rcases List.mem_append.1 hm with h | h
        · exact h
        · exact absurd h ((fillLog_only_fillSteps _ 0 0 _ _ _).2.2.2 v w)
      obtain ⟨T, q, xs, hv, ho, he⟩ := hfacts.2.2 v w hm'
      have h0 : 0 ≤ v + w := by rw [he]; exact ordering_nonneg hpos hv ho
      have hlt : v + w < INT_MAX := by rw [he]; exact hsum T xs q hv ho
      refine ⟨h0, ?_, wrapInt_eq h0 hlt, hlt⟩
      obtain ⟨s1, s2, s3, s4, s5⟩ := ordering_side hv ho
      have hle := walkWeight_le hW xs _ q s1 hv.2.1 s2 ho.1 s3 s4 s5
      have hlen := ordering_length_le hv ho
      have hW0 : 0 ≤ W :=
        le_trans (hpos 0 1 (by omega) (by omega) (by omega))
          (hW 0 1 (by omega) (by omega) (by omega))
      have hlen' : ((xs.length : Int) + 1) ≤ (g.vertexCount : Int) := by exact_mod_cast hlen
      have := mul_le_mul_of_nonneg_right hlen' hW0
      rw [he]
      linarith

theorem heldKarpAlgorithm_sums_in_range_witness :
    ((squareGraph 10 14).vertexCount ≤ 31 →
      ∃ r log, executeLogged blank (allRead 7) (squareGraph 10 14) = .ok (r, log) ∧
        execute blank (allRead 7) (squareGraph 10 14) = .ok r) ∧
    ∀ r log, executeLogged blank (allRead 7) (squareGraph 10 14) = .ok (r, log) →
      ∀ v w, Event.sum v w ∈ log →
        0 ≤ v + w ∧ v + w ≤ ((squareGraph 10 14).vertexCount : Int) * 14 ∧
        wrapInt (v + w) = v + w ∧ v + w < INT_MAX :=
  heldKarpAlgorithm_sums_in_range blank (allRead 7) 14 (by decide)
    (nonNegative_square (by decide) (by decide))
    (boundedBy_square (by decide) (by decide)) (by decide)

/-- C26 (the code departs from it): on every graph with `2 ≤ n ≤ 31`
vertices, non-negative weights and path sums below `INT_MAX`, the last
iteration of the loop of `getPathVector` (position `0`) reads
`predecessors[0][v]`, a cell of row `0`, and `heldKarpAlgorithm` stores no
cell of row `0` during the run; the reads at the positions `i ≥ 1` are all
of cells stored earlier in the run. -/
theorem getPathVector_reads_unassigned_cell (prev : DynamicProgramming) (ind : Indeterminate)
    {g : GraphMatrix} (h2 : 2 ≤ g.vertexCount) (h31 : g.vertexCount ≤ 31)
    (hpos : NonNegative g) (hsum : SumsBelow g) :
    ∃ r log, executeLogged prev ind g = .ok (r, log) ∧ execute prev ind g = .ok r ∧
      (∃ v, Event.fillStep 0 0 v ∈ log) ∧ (∀ v, Event.store 0 v ∉ log) ∧
      ∀ i mask vertex, Event.fillStep i mask vertex ∈ log → 1 ≤ i →
        Event.store mask vertex ∈ log := by
  obtain ⟨dp', log, hinv, hcomp, hfacts, hok, hrun, hex⟩ :=
    executeLogged_run prev ind h2 h31 hpos hsum
  have hv := valid_full h2
  have hcard : card (g.vertexCount - 1) (fullMask g) = g.vertexCount - 1 := card_full _
  have hn : g.vertexCount - 1 + 1 = g.vertexCount := by omega
  have hfill := fillLog_facts hpos hsum ind.stack dp' hinv _ _ _ hv hcard hcomp
  rw [hn] at hfill
  have hnofill : ∀ i m v, Event.fillStep i m v ∉ log := fun i m v h => hok _ h
  refine ⟨_, _, hrun, hex, ?_, ?_, ?_⟩
  · obtain ⟨m, v, hm⟩ := fillLog_steps dp'.predecessors g.vertexCount (fullMask g)
      (g.vertexCount - 1) 0 (by omega)
    obtain ⟨-, hc, -, hval, -⟩ := hfill 0 m v hm
    have hm0 : m = 0 := card_eq_zero hval.1 hc
    subst hm0
    exact ⟨v, List.mem_append_right _ hm⟩
  · intro v hm
    rcases List.mem_append.1 hm with h | h
    · exact store_ne_zero hpos hfacts h rfl
    · exact (fillLog_only_fillSteps _ 0 v _ _ _).2.2.1 h
  · intro i m v hm hi
    rcases List.mem_append.1 hm with h | h
    · exact absurd h (hnofill i m v)
    · obtain ⟨-, hc, -, hval, hne⟩ := hfill i m v h
      apply List.mem_append_left
      by_contra hns
      have hsame := (hfacts.2.1 m v hns).1
      have hm0 : m ≠ 0 := by
        intro h0
        subst h0
        rw [card_zero] at hc
        omega
      rw [fresh_results] at hsame
      simp only [hm0, false_and, if_false, hval.1, hval.2.1, and_self, if_true] at hsame
      exact hne hsame

theorem getPathVector_reads_unassigned_cell_witness :
    ∃ r log, executeLogged blank (allRead 7) (pairGraph 5 5) = .ok (r, log) ∧
      execute blank (allRead 7) (pairGraph 5 5) = .ok r ∧
      (∃ v, Event.fillStep 0 0 v ∈ log) ∧ (∀ v, Event.store 0 v ∉ log) ∧
      ∀ i mask vertex, Event.fillStep i mask vertex ∈ log → 1 ≤ i →
        Event.store mask vertex ∈ log :=
  getPathVector_reads_unassigned_cell blank (allRead 7) (g := pairGraph 5 5)
    (by decide) (by decide) (by intro u v _ _ _; simp only [pairGraph]; split_ifs <;> omega)
    (sumsBelow_of_bound (W := 5)
      (by intro u v _ _ _; simp only [pairGraph]; split_ifs <;> omega)
      (by intro u v _ _ _; simp only [pairGraph]; split_ifs <;> omega) (by decide))

/-- C27: on every graph with `2 ≤ n ≤ 31` vertices, non-negative weights
and path sums below `INT_MAX`, the sequence `execute` returns has `n`
elements, its last element is `n - 1` and no earlier element is `n - 1`;
the reconstruction has one step for each position `i < n`, and at the step
that fills position `i` the working mask is below `2^(n-1)` and has exactly
`i` bits set: it is the full mask at `i = n - 1` and `0` at `i = 0`. -/
theorem getPathVector_mask_popcount (prev : DynamicProgramming) (ind : Indeterminate)
    {g : GraphMatrix} (h2 : 2 ≤ g.vertexCount) (h31 : g.vertexCount ≤ 31)
    (hpos : NonNegative g) (hsum : SumsBelow g) :
    ∃ r log, executeLogged prev ind g = .ok (r, log) ∧ execute prev ind g = .ok r ∧
      r.path.length = g.vertexCount ∧
      r.path.getLast? = some (g.vertexCount - 1) ∧
      (∀ v ∈ r.path.dropLast, v ≠ g.vertexCount - 1) ∧
      (∀ i, i < g.vertexCount → ∃ mask vertex, Event.fillStep i mask vertex ∈ log) ∧
      ∀ i mask vertex, Event.fillStep i mask vertex ∈ log →
        i < g.vertexCount ∧ mask < 2 ^ (g.vertexCount - 1) ∧
        card (g.vertexCount - 1) mask = i ∧
        (i = g.vertexCount - 1 → mask = 2 ^ (g.vertexCount - 1) - 1) ∧
        (i = 0 → mask = 0) := by
  obtain ⟨dp', log, hinv, hcomp, hfacts, hok, hrun, hex⟩ :=
    executeLogged_run prev ind h2 h31 hpos hsum
  have hv := valid_full h2
  have hcard : card (g.vertexCount - 1) (fullMask g) = g.vertexCount - 1 := card_full _
  have hn : g.vertexCount - 1 + 1 = g.vertexCount := by omega
  have hfill := fillLog_facts hpos hsum ind.stack dp' hinv _ _ _ hv hcard hcomp
  rw [hn] at hfill
  obtain ⟨xs, ho, hpath, -⟩ := solution_route hpos hsum h2
  have hlen := (solution_perm hpos hsum h2).length_eq
  rw [List.length_range] at hlen
  refine ⟨_, _, hrun, hex, hlen, ?_, ?_, ?_, ?_⟩
  · rw [hpath]
    simp
  · rw [hpath, List.dropLast_concat]
    intro v hvx
    have := ordering_lt hv ho v hvx
    omega
  · intro i hi
    obtain ⟨m, v, hm⟩ := fillLog_steps dp'.predecessors g.vertexCount (fullMask g)
      (g.vertexCount - 1) i hi
    exact ⟨m, v, List.mem_append_right _ hm⟩
  · intro i m v hm
    rcases List.mem_append.1 hm with h | h
    · exact absurd h (fun h => hok _ h)
    · obtain ⟨hi, hc, hfull, hval, -⟩ := hfill i m v h
      refine ⟨by omega, hval.1, hc, hfull, ?_⟩
      intro h0
      subst h0
      exact card_eq_zero hval.1 hc

theorem getPathVector_mask_popcount_witness :
    ∃ r log, executeLogged blank (allRead 7) (squareGraph 10 14) = .ok (r, log) ∧
      execute blank (allRead 7) (squareGraph 10 14) = .ok r ∧
      r.path.length = (squareGraph 10 14).vertexCount ∧
      r.path.getLast? = some ((squareGraph 10 14).vertexCount - 1) ∧
      (∀ v ∈ r.path.dropLast, v ≠ (squareGraph 10 14).vertexCount - 1) ∧
      (∀ i, i < (squareGraph 10 14).vertexCount →
        ∃ mask vertex, Event.fillStep i mask vertex ∈ log) ∧
      ∀ i mask vertex, Event.fillStep i mask vertex ∈ log →
        i < (squareGraph 10 14).vertexCount ∧
        mask < 2 ^ ((squareGraph 10 14).vertexCount - 1) ∧
        card ((squareGraph 10 14).vertexCount - 1) mask = i ∧
        (i = (squareGraph 10 14).vertexCount - 1 →
          mask = 2 ^ ((squareGraph 10 14).vertexCount - 1) - 1) ∧
        (i = 0 → mask = 0) :=
  getPathVector_mask_popcount blank (allRead 7) (by decide) (by decide)
    (nonNegative_square (by decide) (by decide))
    (sumsBelow_of_bound (nonNegative_square (by decide) (by decide))
      (boundedBy_square (by decide) (by decide)) (by decide))

end HeldKarp

namespace GeneticAlgorithm

/-! ## Sorting the population -/

theorem swap_chromosomes_apply {F : Type} (pop : Nat → Chromosome F) (i j k : Nat) :
    swap_chromosomes pop i j k = if k = j then pop i else if k = i then pop j else pop k := by
  simp only [swap_chromosomes, Function.update_apply]

theorem swap_chromosomes_eq {F : Type} (pop : Nat → Chromosome F) (i j : Nat) :
    swap_chromosomes pop i j = pop ∘ (Equiv.swap i j) := by
  funext k
  rw [swap_chromosomes_apply, Function.comp_apply, Equiv.swap_apply_def]
  split_ifs <;> simp_all

theorem swap_chromosomes_perm {F : Type} (pop : Nat → Chromosome F) {n i j : Nat}
    (hi : i < n) (hj : j < n) :
    ((List.range n).map (swap_chromosomes pop i j)).Perm ((List.range n).map pop) := by
  rw [swap_chromosomes_eq, ← List.map_map]
  apply List.Perm.map
  rw [List.perm_ext_iff_of_nodup ((List.nodup_range n).map (Equiv.swap i j).injective)
    (List.nodup_range n)]
  intro a
  simp only [List.mem_map, List.mem_range]
  constructor
  · rintro ⟨k, hk, rfl⟩
    rw [Equiv.swap_apply_def]
    split_ifs <;> omega
  · intro ha
    refine ⟨Equiv.swap i j a, ?_, Equiv.swap_apply_self i j a⟩
    rw [Equiv.swap_apply_def]
    split_ifs <;> omega

/-- The inner loop after `t` iterations: the array is a rearrangement of
the cells below `n`, the prefix before `i` still dominates everything after
it, and the cell `i` dominates the cells `i+1 .. i+t`. -/
theorem sortInner_loop {F : Type} [LinearOrder F] (n i : Nat) (pop0 : Nat → Chromosome F)
    (hQ : ∀ a b, a < i → a < b → b < n → (pop0 b).fitness ≤ (pop0 a).fitness) :
    ∀ t, i + 1 + t ≤ n →
      ((List.range n).map ((List.range' (i + 1) t).foldl
        (fun pop j => if (pop i).fitness < (pop j).fitness then swap_chromosomes pop i j
          else pop) pop0)).Perm ((List.range n).map pop0) ∧
      (∀ k, n ≤ k → (List.range' (i + 1) t).foldl
        (fun pop j => if (pop i).fitness < (pop j).fitness then swap_chromosomes pop i j
          else pop) pop0 k = pop0 k) ∧
      (∀ a b, a < i → a < b → b < n →
        ((List.range' (i + 1) t).foldl
          (fun pop j => if (pop i).fitness < (pop j).fitness then swap_chromosomes pop i j
            else pop) pop0 b).fitness ≤
        ((List.range' (i + 1) t).foldl
          (fun pop j => if (pop i).fitness < (pop j).fitness then swap_chromosomes pop i j
            else pop) pop0 a).fitness) ∧
      ∀ b, i < b → b ≤ i + t →
        ((List.range' (i + 1) t).foldl
          (fun pop j => if (pop i).fitness < (pop j).fitness then swap_chromosomes pop i j
            else pop) pop0 b).fitness ≤
        ((List.range' (i + 1) t).foldl
          (fun pop j => if (pop i).fitness < (pop j).fitness then swap_chromosomes pop i j
            else pop) pop0 i).fitness := by
  intro t
  induction t with
  | zero =>
    intro _
    exact ⟨List.Perm.refl _, fun _ _ => rfl, hQ, fun b h1 h2 => by omega⟩
  | succ t ih =>
    intro ht
    obtain ⟨hperm, hframe, hq, hr⟩ := ih (by omega)
    rw [List.range'_concat, List.foldl_append]
    simp only [List.foldl_cons, List.foldl_nil, one_mul]
    generalize (List.range' (i + 1) t).foldl
      (fun pop j => if (pop i).fitness < (pop j).fitness then swap_chromosomes pop i j
        else pop) pop0 = pop at hperm hframe hq hr ⊢
    by_cases hlt : (pop i).fitness < (pop (i + 1 + t)).fitness
    · rw [if_pos hlt]
      refine ⟨(swap_chromosomes_perm pop (by omega) (by omega)).trans hperm, ?_, ?_, ?_⟩
      · intro k hk
        rw [swap_chromosomes_apply, if_neg (by omega), if_neg (by omega)]
        exact hframe k hk
      · intro a b ha hab hb
        rw [swap_chromosomes_apply, swap_chromosomes_apply, if_neg (by omega : ¬ a = i + 1 + t),
          if_neg (by omega : ¬ a = i)]
        by_cases h1 : b = i + 1 + t
        · rw [if_pos h1]
          exact hq a i ha (by omega) (by omega)
        · rw [if_neg h1]
          by_cases h2 : b = i
          · rw [if_pos h2]
            exact hq a (i + 1 + t) ha (by omega) (by omega)
          · rw [if_neg h2]
            exact hq a b ha hab hb
      · intro b hb1 hb2
        rw [swap_chromosomes_apply, swap_chromosomes_apply, if_neg (by omega : ¬ i = i + 1 + t),
          if_pos rfl]
        by_cases h1 : b = i + 1 + t
        · rw [if_pos h1]
          exact le_of_lt hlt
        · rw [if_neg h1, if_neg (by omega : ¬ b = i)]
          exact le_trans (hr b hb1 (by omega)) (le_of_lt hlt)
    · rw [if_neg hlt]
      refine ⟨hperm, hframe, hq, ?_⟩
      intro b hb1 hb2
      by_cases h1 : b = i + 1 + t
      · rw [h1]
        exact not_lt.1 hlt
      · exact hr b hb1 (by omega)

theorem sortInner_facts {F : Type} [LinearOrder F] (n i : Nat) (hi : i < n)
    (pop0 : Nat → Chromosome F)
    (hQ : ∀ a b, a < i → a < b → b < n → (pop0 b).fitness ≤ (pop0 a).fitness) :
    ((List.range n).map (sortInner n i pop0)).Perm ((List.range n).map pop0) ∧
    (∀ k, n ≤ k → sortInner n i pop0 k = pop0 k) ∧
    ∀ a b, a < i + 1 → a < b → b < n →
      (sortInner n i pop0 b).fitness ≤ (sortInner n i pop0 a).fitness := by
  obtain ⟨h1, h2, h3, h4⟩ := sortInner_loop n i pop0 hQ (n - (i + 1)) (by omega)
  refine ⟨h1, h2, ?_⟩
  intro a b ha hab hb
  by_cases hai : a = i
  · subst hai
    exact h4 b hab (by omega)
  · exact h3 a b (by omega) hab hb

theorem sort_population_loop {F : Type} [LinearOrder F] (n : Nat) (pop0 : Nat → Chromosome F) :
    ∀ m, m ≤ n →
      ((List.range n).map ((List.range m).foldl (fun pop i => sortInner n i pop) pop0)).Perm
        ((List.range n).map pop0) ∧
      (∀ k, n ≤ k → (List.range m).foldl (fun pop i => sortInner n i pop) pop0 k = pop0 k) ∧
      ∀ a b, a < m → a < b → b < n →
        ((List.range m).foldl (fun pop i => sortInner n i pop) pop0 b).fitness ≤
        ((List.range m).foldl (fun pop i => sortInner n i pop) pop0 a).fitness := by
  intro m
  induction m with
  | zero =>
    intro _
    exact ⟨List.Perm.refl _, fun _ _ => rfl, fun a b h => by omega⟩
  | succ m ih =>
    intro hm
    obtain ⟨hperm, hframe, hq⟩ := ih (by omega)
    rw [List.range_succ, List.foldl_append]
    simp only [List.foldl_cons, List.foldl_nil]
    generalize (List.range m).foldl (fun pop i => sortInner n i pop) pop0 = pop
      at hperm hframe hq ⊢
    obtain ⟨h1, h2, h3⟩ := sortInner_facts n m (by omega) pop hq
    exact ⟨h1.trans hperm, fun k hk => (h2 k hk).trans (hframe k hk), h3⟩

/-- C30: for every population of `popl_size` chromosomes with totally
ordered fitness values, after `sort_population` the fitness values are in
non-increasing order by index, the `popl_size` cells of the array are a
permutation of the chromosomes they held before, and nothing beyond the
array is touched. -/
theorem sort_population_descending_perm {F : Type} [LinearOrder F] (popl_size : Nat)
    (population : Nat → Chromosome F) :
    (∀ a b, a < b → b < popl_size →
      (sort_population popl_size population b).fitness
        ≤ (sort_population popl_size population a).fitness) ∧
    ((List.range popl_size).map (sort_population popl_size population)).Perm
      ((List.range popl_size).map population) ∧
    ∀ k, popl_size ≤ k → sort_population popl_size population k = population k := by
  obtain ⟨h1, h2, h3⟩ := sort_population_loop popl_size population popl_size (le_refl _)
  exact ⟨fun a b hab hb => h3 a b (by omega) hab hb, h1, h2⟩

theorem sort_population_descending_perm_witness :
    (∀ a b, a < b → b < 3 →
      (sort_population 3 (fun k => Chromosome.mk [] ([1, 3, 2].getD k 0)) b).fitness
        ≤ (sort_population 3 (fun k => Chromosome.mk [] ([1, 3, 2].getD k 0)) a).fitness) ∧
    ((List.range 3).map
        (sort_population 3 (fun k => Chromosome.mk [] ([1, 3, 2].getD k 0)))).Perm
      ((List.range 3).map (fun k => Chromosome.mk [] ([1, 3, 2].getD k 0))) ∧
    ∀ k, 3 ≤ k →
      sort_population 3 (fun k => Chromosome.mk [] ([1, 3, 2].getD k 0)) k
        = Chromosome.mk [] ([1, 3, 2].getD k 0) :=
  sort_population_descending_perm 3 (fun k => Chromosome.mk [] ([1, 3, 2].getD k 0))

end GeneticAlgorithm

namespace GeneticAlgorithm

/-! ## Fitness and tour length -/

/-- C33 (the code departs from it): for every chromosome,
`calculate_fitness` divides `10000` by the sum of the consecutive gene pairs
plus the edge from the last gene to city 1 (`dist_matrix[..][0]`), whereas
`calculate_actual_distance` closes the tour with the edge from the last gene
to the first gene. The two sums differ by exactly these two edges, so
`fitness * distance = 10000` holds when the first gene is `1` (and the
distance is not `0`), not for every permutation. -/
theorem calculate_fitness_closing_edge (chromo_length : Nat) (dist_matrix : Int → Int → Rat)
    (c : Chromosome Rat) :
    (calculate_fitness chromo_length dist_matrix c).fitness
      = 10000 / (calculate_actual_distance chromo_length dist_matrix c
          - dist_matrix (c.genes.getD (chromo_length - 1) 0 - 1) (c.genes.getD 0 0 - 1)
          + dist_matrix (c.genes.getD (chromo_length - 1) 0 - 1) 0) ∧
    (c.genes.getD 0 0 = 1 → calculate_actual_distance chromo_length dist_matrix c ≠ 0 →
      (calculate_fitness chromo_length dist_matrix c).fitness
        * calculate_actual_distance chromo_length dist_matrix c = 10000) := by
  have h : (calculate_fitness chromo_length dist_matrix c).fitness
      = 10000 / (calculate_actual_distance chromo_length dist_matrix c
          - dist_matrix (c.genes.getD (chromo_length - 1) 0 - 1) (c.genes.getD 0 0 - 1)
          + dist_matrix (c.genes.getD (chromo_length - 1) 0 - 1) 0) := by
    simp only [calculate_fitness, calculate_actual_distance]
    congr 1
    ring
  refine ⟨h, ?_⟩
  intro h1 hne
  rw [h, h1]
  simp only [sub_self, sub_add_cancel]
  field_simp

theorem calculate_fitness_closing_edge_witness :
    ((calculate_fitness 3 triangleMatrix tourFromTwo).fitness
      = 10000 / (calculate_actual_distance 3 triangleMatrix tourFromTwo
          - triangleMatrix (tourFromTwo.genes.getD (3 - 1) 0 - 1) (tourFromTwo.genes.getD 0 0 - 1)
          + triangleMatrix (tourFromTwo.genes.getD (3 - 1) 0 - 1) 0) ∧
      (tourFromTwo.genes.getD 0 0 = 1 →
        calculate_actual_distance 3 triangleMatrix tourFromTwo ≠ 0 →
        (calculate_fitness 3 triangleMatrix tourFromTwo).fitness
          * calculate_actual_distance 3 triangleMatrix tourFromTwo = 10000)) ∧
    calculate_actual_distance 3 triangleMatrix tourFromTwo = 7 ∧
    (calculate_fitness 3 triangleMatrix tourFromTwo).fitness = 2000 ∧
    (calculate_fitness 3 triangleMatrix tourFromTwo).fitness
      * calculate_actual_distance 3 triangleMatrix tourFromTwo = 14000 := by
  have hd : calculate_actual_distance 3 triangleMatrix tourFromTwo = 7 := by
    simp [calculate_actual_distance, triangleMatrix, tourFromTwo, List.range_succ]
    norm_num
  have hf : (calculate_fitness 3 triangleMatrix tourFromTwo).fitness = 2000 := by
    simp [calculate_fitness, triangleMatrix, tourFromTwo, List.range_succ]
    norm_num
  refine ⟨calculate_fitness_closing_edge 3 triangleMatrix tourFromTwo, hd, hf, ?_⟩
  rw [hd, hf]
  norm_num

end GeneticAlgorithm

namespace GeneticAlgorithm

/-! ## Gene arrays -/

theorem getD_set_of_lt (l : List Int) {i : Nat} (hi : i < l.length) (x : Int) (j : Nat) :
    (l.set i x).getD j 0 = if j = i then x else l.getD j 0 := by
  rw [List.getD_eq_getElem?_getD, List.getD_eq_getElem?_getD, List.getElem?_set]
  by_cases h : i = j
  · subst h
    simp [hi]
  · have h' : ¬ j = i := fun e => h e.symm
    simp [h, h']

theorem isTour_length {L : Nat} {genes : List Int} (h : IsTour L genes) : genes.length = L := by
  have := h.length_eq
  simpa [IsTour] using this

theorem isTour_nodup {L : Nat} {genes : List Int} (h : IsTour L genes) : genes.Nodup := by
  rw [h.nodup_iff]
  apply (List.nodup_range L).map
  intro a b hab
  simpa using hab

theorem isTour_mem {L : Nat} {genes : List Int} (h : IsTour L genes) (x : Int) :
    x ∈ genes ↔ 1 ≤ x ∧ x ≤ L := by
  rw [h.mem_iff]
  simp only [List.mem_map, List.mem_range]
  constructor
  · rintro ⟨a, ha, rfl⟩
    omega
  · rintro ⟨h1, h2⟩
    exact ⟨(x - 1).toNat, by omega, by omega⟩

theorem isTour_ne_zero {L : Nat} {genes : List Int} (h : IsTour L genes) {x : Int}
    (hx : x ∈ genes) : x ≠ 0 := by
  have := (isTour_mem h x).1 hx
  omega

theorem getD_mem {l : List Int} {a : Nat} (ha : a < l.length) : l.getD a 0 ∈ l := by
  rw [List.getD_eq_getElem l 0 ha]
  exact List.getElem_mem ha

theorem getD_inj_of_nodup {l : List Int} (hnd : l.Nodup) {a b : Nat} (ha : a < l.length)
    (hb : b < l.length) (h : l.getD a 0 = l.getD b 0) : a = b := by
  rw [List.getD_eq_getElem l 0 ha, List.getD_eq_getElem l 0 hb] at h
  exact (List.Nodup.getElem_inj_iff hnd).1 h

theorem if_exist_eq_one_iff (L : Nat) (genes : List Int) (x : Int) :
    if_exist L genes x = 1 ↔ ∃ j, j < L ∧ genes.getD j 0 = x := by
  unfold if_exist
  constructor
  · intro h
    split at h
    · rename_i hany
      rw [List.any_eq_true] at hany
      obtain ⟨j, hj, hx⟩ := hany
      exact ⟨j, List.mem_range.1 hj, (of_decide_eq_true hx).symm⟩
    · cases h
  · rintro ⟨j, hj, hx⟩
    rw [if_pos]
    rw [List.any_eq_true]
    exact ⟨j, List.mem_range.2 hj, decide_eq_true hx.symm⟩

theorem if_exist_ne_one_iff (L : Nat) (genes : List Int) (x : Int) :
    if_exist L genes x ≠ 1 ↔ ¬ ∃ j, j < L ∧ genes.getD j 0 = x :=
  not_congr (if_exist_eq_one_iff L genes x)

/-! ## Positions modulo the length -/

theorem add_mod_inj {L n a b : Nat} (ha : a < L) (hb : b < L)
    (h : (n + a) % L = (n + b) % L) : a = b := by
  have h1 : a % L = b % L := Nat.ModEq.add_left_cancel' n h
  rwa [Nat.mod_eq_of_lt ha, Nat.mod_eq_of_lt hb] at h1

theorem add_mod_ne_self {L i d : Nat} (hd0 : 0 < d) (hd : d < L) : (i + d) % L ≠ i % L := by
  intro h
  have := add_mod_inj hd (by omega : 0 < L) (h.trans (by simp))
  omega

theorem mod_succ_mod (L i k : Nat) : ((i + k) % L + 1) % L = (i + (k + 1)) % L := by
  rw [Nat.mod_add_mod]
  rfl

theorem exists_offset {L i j : Nat} (hi : i < L) (hj : j < L) :
    ∃ k, k < L ∧ (i + k) % L = j := by
  by_cases h : i ≤ j
  · exact ⟨j - i, by omega, by rw [show i + (j - i) = j by omega]; exact Nat.mod_eq_of_lt hj⟩
  · refine ⟨j + L - i, by omega, ?_⟩
    rw [show i + (j + L - i) = j + L by omega, Nat.add_mod_right]
    exact Nat.mod_eq_of_lt hj

end GeneticAlgorithm

namespace GeneticAlgorithm

/-! ## The fill loop of `create_ChildV2` -/

theorem getElem?_eq_getD {l : List Int} {a : Nat} (ha : a < l.length) :
    l[a]? = some (l.getD a 0) := by
  rw [List.getD_eq_getElem l 0 ha]
  exact List.getElem?_eq_getElem ha

/-- The skip loop stops at the first index from `c` on whose gene the child
does not hold yet. -/
theorem skipLoop_eq (L : Nat) (genes m : List Int) :
    ∀ d c, c + d < m.length →
      (∀ a, c ≤ a → a < c + d → if_exist L genes (m.getD a 0) = 1) →
      if_exist L genes (m.getD (c + d) 0) ≠ 1 →
      skipLoop L genes (m.drop c) c = .ok (c + d) := by
  intro d
  induction d with
  | zero =>
    intro c hc _ hlast
    rw [Nat.add_zero] at hlast ⊢
    rw [List.drop_eq_getElem_cons (by omega : c < m.length)]
    simp only [skipLoop]
    rw [← List.getD_eq_getElem m 0 (by omega : c < m.length), if_neg hlast]
  | succ d ih =>
    intro c hc hall hlast
    rw [List.drop_eq_getElem_cons (by omega : c < m.length)]
    simp only [skipLoop]
    rw [← List.getD_eq_getElem m 0 (by omega : c < m.length),
      if_pos (hall c (le_refl _) (by omega))]
    have := ih (c + 1) (by omega) (fun a h1 h2 => hall a (by omega) (by omega))
      (by rw [show c + 1 + d = c + (d + 1) by omega]; exact hlast)
    rw [this]
    congr 1
    omega

/-- A child with an empty position does not hold every gene of the parent. -/
theorem exists_missing {L : Nat} {genes m : List Int} (hlen : genes.length = L)
    (hm : m.length = L) (hnd : m.Nodup) (hnz : ∀ x ∈ m, x ≠ 0) {i : Nat} (hi : i < L)
    (h0 : genes.getD i 0 = 0) :
    ∃ a, a < L ∧ ¬ ∃ j, j < L ∧ genes.getD j 0 = m.getD a 0 := by
  by_contra hcon
  push_neg at hcon
  have hsub : m ⊆ genes.filter (fun x => decide (x ≠ 0)) := by
    intro x hx
    obtain ⟨a, ha, rfl⟩ := List.getElem_of_mem hx
    obtain ⟨j, hj, he⟩ := hcon a (by omega)
    rw [List.getD_eq_getElem m 0 ha] at he
    rw [List.mem_filter]
    refine ⟨?_, by simpa using hnz _ hx⟩
    rw [← he]
    exact getD_mem (by omega)
  have h1 := (List.subperm_of_subset hnd hsub).length_le
  have h2 : (genes.filter (fun x => decide (x ≠ 0))).length < genes.length := by
    rw [List.length_filter_lt_length_iff_exists]
    exact ⟨0, by rw [← h0]; exact getD_mem (by omega), by simp⟩
  omega

theorem exists_first (P : Nat → Prop) (c : Nat) :
    ∀ d, ¬ P (c + d) → ∃ d', d' ≤ d ∧ ¬ P (c + d') ∧ ∀ t, t < d' → P (c + t) := by
  intro d
  induction d using Nat.strong_induction_on with
  | _ d ih =>
    intro hd
    by_cases hall : ∀ t, t < d → P (c + t)
    · exact ⟨d, le_refl _, hd, hall⟩
    · push_neg at hall
      obtain ⟨t, ht, hPt⟩ := hall
      obtain ⟨d', h1, h2, h3⟩ := ih t ht hPt
      exact ⟨d', by omega, h2, h3⟩

/-- One iteration of the fill loop at an empty position: the child gets the
first gene of `m` from index `c` on that it does not hold yet. -/
theorem fillLoop_step {L : Nat} {m : List Int} (hm : m.length = L) (hnd : m.Nodup)
    (hnz : ∀ x ∈ m, x ≠ 0) (z : Nat) {genes : List Int} (hlen : genes.length = L)
    {c i : Nat} (hi : i < L) (hiz : i ≠ z) (hc : c ≤ L)
    (hplaced : ∀ a, a < c → a < L → ∃ j, j < L ∧ genes.getD j 0 = m.getD a 0)
    (h0 : genes.getD i 0 = 0) :
    ∃ c', c ≤ c' ∧ c' < L ∧
      (¬ ∃ j, j < L ∧ genes.getD j 0 = m.getD c' 0) ∧
      (∀ a, a < c' → a < L → ∃ j, j < L ∧ genes.getD j 0 = m.getD a 0) ∧
      ∀ fuel, fillLoop L m z (fuel + 1) genes c i
        = fillLoop L m z fuel (genes.set i (m.getD c' 0)) (c' + 1) ((i + 1) % L) := by
  obtain ⟨a, ha, hmiss⟩ := exists_missing hlen hm hnd hnz hi h0
  have hca : c ≤ a := by
    by_contra hlt
    exact hmiss (hplaced a (by omega) ha)
  obtain ⟨d', hd', hnot, hbefore⟩ :=
    exists_first (fun t => ∃ j, j < L ∧ genes.getD j 0 = m.getD t 0) c (a - c)
      (by rw [show c + (a - c) = a by omega]; exact hmiss)
  have hcL : c < L := by omega
  have hc'L : c + d' < L := by omega
  refine ⟨c + d', by omega, hc'L, hnot, ?_, ?_⟩
  · intro t ht htL
    by_cases htc : t < c
    · exact hplaced t htc htL
    · have := hbefore (t - c) (by omega)
      rwa [show c + (t - c) = t by omega] at this
  · intro fuel
    simp only [fillLoop]
    rw [if_pos hiz, Nat.mod_eq_of_lt hcL, getElem?_eq_getD (by omega : c < m.length)]
    simp only
    by_cases hd0 : d' = 0
    · subst hd0
      rw [Nat.add_zero] at hnot
      rw [if_pos ((if_exist_ne_one_iff L genes _).2 hnot)]
      rfl
    · have hex : if_exist L genes (m.getD c 0) = 1 := by
        rw [if_exist_eq_one_iff]
        have := hbefore 0 (by omega)
        simpa using this
      rw [if_neg (by rw [hex]; simp), if_pos h0]
      rw [skipLoop_eq L genes m d' c (by omega)
        (fun t h1 h2 => by
          rw [if_exist_eq_one_iff]
          have := hbefore (t - c) (by omega)
          rwa [show c + (t - c) = t by omega] at this)
        ((if_exist_ne_one_iff L genes _).2 hnot)]
      simp only
      rw [getElem?_eq_getD (by omega : c + d' < m.length)]

/-- Once the child holds every gene of `m` and has no empty position, the
remaining iterations of the fill loop change nothing. -/
theorem fillLoop_full {L : Nat} {m : List Int} (hm : m.length = L) (z : Nat)
    {genes : List Int}
    (hall : ∀ a, a < L → ∃ j, j < L ∧ genes.getD j 0 = m.getD a 0)
    (hnz : ∀ j, j < L → genes.getD j 0 ≠ 0) :
    ∀ d fuel c i, i < L → d < L → z = (i + d) % L → d ≤ fuel →
      fillLoop L m z fuel genes c i = .ok genes := by
  intro d
  induction d with
  | zero =>
    intro fuel c i hi _ hz _
    have hiz : i = z := by rw [hz, Nat.add_zero, Nat.mod_eq_of_lt hi]
    cases fuel with
    | zero => simp [fillLoop, hiz]
    | succ fuel => simp [fillLoop, hiz]
  | succ d ih =>
    intro fuel c i hi hd hz hfuel
    have hiz : i ≠ z := by
      rw [hz]
      have := add_mod_ne_self (i := i) (Nat.succ_pos d) hd
      rw [Nat.mod_eq_of_lt hi] at this
      exact fun h => this h.symm
    obtain ⟨fuel', rfl⟩ : ∃ f, fuel = f + 1 := ⟨fuel - 1, by omega⟩
    have hL : 0 < L := by omega
    have hcL : c % L < L := Nat.mod_lt _ hL
    simp only [fillLoop]
    rw [if_pos hiz, getElem?_eq_getD (by omega : c % L < m.length)]
    simp only
    have hex : if_exist L genes (m.getD (c % L) 0) = 1 :=
      (if_exist_eq_one_iff L genes _).2 (hall _ hcL)
    rw [if_neg (by rw [hex]; simp), if_neg (hnz i hi)]
    apply ih fuel' _ _ (Nat.mod_lt _ hL) (by omega) _ (by omega)
    rw [hz, Nat.mod_add_mod]
    congr 1
    omega

end GeneticAlgorithm

namespace GeneticAlgorithm

/-- The fill loop over a block of `r` empty positions that starts at `i`:
after `r` iterations every position of the block holds a gene of `m`, the
genes held before are where they were, and no gene occurs twice. -/
theorem fillLoop_block {L : Nat} {m : List Int} (hm : m.length = L) (hnd : m.Nodup)
    (hnz : ∀ x ∈ m, x ≠ 0) (z e : Nat) :
    ∀ r genes c i, genes.length = L → i < L → r + e < L → z = (i + (r + e)) % L →
      c ≤ L →
      (∀ a, a < c → a < L → ∃ j, j < L ∧ genes.getD j 0 = m.getD a 0) →
      (∀ k, k < r → genes.getD ((i + k) % L) 0 = 0) →
      (∀ a b, a < L → b < L → genes.getD a 0 = genes.getD b 0 → genes.getD a 0 ≠ 0 → a = b) →
      (∀ a, a < L → genes.getD a 0 ≠ 0 → genes.getD a 0 ∈ m) →
      ∃ genes' c', (∀ fuel, r ≤ fuel → fillLoop L m z fuel genes c i
          = fillLoop L m z (fuel - r) genes' c' ((i + r) % L)) ∧
        genes'.length = L ∧
        (∀ j, j < L → genes.getD j 0 ≠ 0 → genes'.getD j 0 = genes.getD j 0) ∧
        (∀ k, k < r → genes'.getD ((i + k) % L) 0 ≠ 0) ∧
        (∀ a b, a < L → b < L → genes'.getD a 0 = genes'.getD b 0 →
          genes'.getD a 0 ≠ 0 → a = b) ∧
        (∀ a, a < L → genes'.getD a 0 ≠ 0 → genes'.getD a 0 ∈ m) := by
  intro r
  induction r with
  | zero =>
    intro genes c i hlen hi _ _ _ _ _ hinj hvals
    refine ⟨genes, c, ?_, hlen, fun _ _ _ => rfl, fun k hk => by omega, hinj, hvals⟩
    intro fuel _
    rw [Nat.add_zero, Nat.mod_eq_of_lt hi, Nat.sub_zero]
  | succ r ih =>
    intro genes c i hlen hi hre hz hc hplaced hzero hinj hvals
    have h0 : genes.getD i 0 = 0 := by
      have := hzero 0 (Nat.succ_pos r)
      rwa [Nat.add_zero, Nat.mod_eq_of_lt hi] at this
    have hiz : i ≠ z := by
      rw [hz]
      have := add_mod_ne_self (i := i) (by omega : 0 < r + 1 + e) hre
      rw [Nat.mod_eq_of_lt hi] at this
      exact fun h => this h.symm
    obtain ⟨c', hcc', hc'L, hnot, hbefore, hstep⟩ :=
      fillLoop_step hm hnd hnz z hlen hi hiz hc hplaced h0
    have hL : 0 < L := by omega
    have hx_mem : m.getD c' 0 ∈ m := getD_mem (by omega)
    have hx_ne : m.getD c' 0 ≠ 0 := hnz _ hx_mem
    have hset : ∀ j, (genes.set i (m.getD c' 0)).getD j 0
        = if j = i then m.getD c' 0 else genes.getD j 0 :=
      fun j => getD_set_of_lt genes (by omega) _ j
    have hpos : ∀ k, ((i + 1) % L + k) % L = (i + (k + 1)) % L := by
      intro k
      rw [Nat.mod_add_mod]
      congr 1
      omega
    obtain ⟨genes', c'', hrun, hlen', hkeep, hblock, hinj', hvals'⟩ :=
      ih (genes.set i (m.getD c' 0)) (c' + 1) ((i + 1) % L)
        (by rw [List.length_set]; exact hlen) (Nat.mod_lt _ hL) (by omega)
        (by rw [hz, hpos]; congr 1; omega)
        (by omega)
        (by
          intro a ha haL
          by_cases hac : a = c'
          · subst hac
            exact ⟨i, hi, by rw [hset, if_pos rfl]⟩
          · obtain ⟨j, hj, he⟩ := hbefore a (by omega) haL
            refine ⟨j, hj, ?_⟩
            rw [hset, if_neg, he]
            intro hji
            subst hji
            rw [h0] at he
            exact hnz _ (getD_mem (by omega : a < m.length)) he.symm)
        (by
          intro k hk
          rw [hpos, hset, if_neg]
          · exact hzero (k + 1) (by omega)
          · have := add_mod_ne_self (i := i) (Nat.succ_pos k) (by omega : k + 1 < L)
            rwa [Nat.mod_eq_of_lt hi] at this)
        (by
          intro a b ha hb hab hne
          rw [hset, hset] at hab
          rw [hset] at hne
          by_cases hai : a = i
          · by_cases hbi : b = i
            · rw [hai, hbi]
            · rw [if_pos hai, if_neg hbi] at hab
              exact absurd ⟨b, hb, hab.symm⟩ hnot
          · by_cases hbi : b = i
            · rw [if_neg hai, if_pos hbi] at hab
              exact absurd ⟨a, ha, hab⟩ hnot
            · rw [if_neg hai, if_neg hbi] at hab
              rw [if_neg hai] at hne
              exact hinj a b ha hb hab hne)
        (by
          intro a ha hne
          rw [hset] at hne ⊢
          by_cases hai : a = i
          · rw [if_pos hai]
            exact hx_mem
          · rw [if_neg hai] at hne ⊢
            exact hvals a ha hne)
    refine ⟨genes', c'', ?_, hlen', ?_, ?_, hinj', hvals'⟩
    · intro fuel hfuel
      obtain ⟨f, rfl⟩ : ∃ f, fuel = f + 1 := ⟨fuel - 1, by omega⟩
      rw [hstep f, hrun f (by omega), hpos]
      congr 1
      omega
    · intro j hj hne
      have hji : j ≠ i := fun h => hne (h ▸ h0)
      have h1 : (genes.set i (m.getD c' 0)).getD j 0 = genes.getD j 0 := by
        rw [hset, if_neg hji]
      rw [← h1]
      apply hkeep j hj
      rw [h1]
      exact hne
    · intro k hk
      cases k with
      | zero =>
        rw [Nat.add_zero, Nat.mod_eq_of_lt hi]
        have h1 : (genes.set i (m.getD c' 0)).getD i 0 = m.getD c' 0 := by
          rw [hset, if_pos rfl]
        rw [hkeep i hi (by rw [h1]; exact hx_ne), h1]
        exact hx_ne
      | succ k =>
        rw [← hpos]
        exact hblock k (by omega)

end GeneticAlgorithm

namespace GeneticAlgorithm

/-! ## The segment copied from the first parent -/

theorem getD_replicate_zero (L j : Nat) : (List.replicate L (0 : Int)).getD j 0 = 0 := by
  rw [List.getD_eq_getElem?_getD, List.getElem?_replicate]
  split <;> rfl

/-- The copy loop over the positions `n, n+1, ..., n+k-1` taken modulo the
length: these positions get the genes of `p`, the others stay, and `z` is
the last position written. -/
theorem copyLoop_range {L : Nat} (hL : 0 < L) {p : List Int} (hp : p.length = L) :
    ∀ k n (genes : List Int) (z0 : Nat), genes.length = L →
      ∃ genes', copyLoop L p (List.range' n k) (genes, z0)
          = .ok (genes', if k = 0 then z0 else (n + (k - 1)) % L) ∧
        genes'.length = L ∧
        (∀ j, (∃ t, t < k ∧ (n + t) % L = j) → genes'.getD j 0 = p.getD j 0) ∧
        (∀ j, (¬ ∃ t, t < k ∧ (n + t) % L = j) → genes'.getD j 0 = genes.getD j 0) := by
  intro k
  induction k with
  | zero =>
    intro n genes z0 hlen
    refine ⟨genes, rfl, hlen, ?_, fun _ _ => rfl⟩
    rintro j ⟨t, ht, -⟩
    omega
  | succ k ih =>
    intro n genes z0 hlen
    have hn : n % L < L := Nat.mod_lt _ hL
    have hset : ∀ j, (genes.set (n % L) (p.getD (n % L) 0)).getD j 0
        = if j = n % L then p.getD (n % L) 0 else genes.getD j 0 :=
      fun j => getD_set_of_lt genes (by omega) _ j
    obtain ⟨genes', hrun, hlen', hin, hout⟩ :=
      ih (n + 1) (genes.set (n % L) (p.getD (n % L) 0)) (n % L)
        (by rw [List.length_set]; exact hlen)
    refine ⟨genes', ?_, hlen', ?_, ?_⟩
    · rw [List.range'_succ]
      simp only [copyLoop]
      rw [getElem?_eq_getD (by omega : n % L < p.length)]
      simp only
      rw [hrun]
      congr 2
      by_cases hk : k = 0
      · subst hk
        simp
      · rw [if_neg hk, if_neg (Nat.succ_ne_zero k)]
        congr 1
        omega
    · rintro j ⟨t, ht, rfl⟩
      cases t with
      | zero =>
        by_cases hex : ∃ t, t < k ∧ (n + 1 + t) % L = (n + 0) % L
        · exact hin _ hex
        · rw [hout _ hex, hset]
          simp
      | succ t =>
        apply hin
        exact ⟨t, by omega, by congr 1; omega⟩
    · intro j hj
      have h1 : ¬ ∃ t, t < k ∧ (n + 1 + t) % L = j := by
        rintro ⟨t, ht, he⟩
        exact hj ⟨t + 1, by omega, by rw [← he]; congr 1; omega⟩
      have h2 : j ≠ n % L := by
        intro h
        exact hj ⟨0, by omega, by rw [h]; rfl⟩
      rw [hout j h1, hset, if_neg h2]

end GeneticAlgorithm

namespace GeneticAlgorithm

/-! ## The child of the crossover -/

theorem fillLoop_done (L : Nat) (m : List Int) (z fuel : Nat) (genes : List Int) (c : Nat) :
    fillLoop L m z fuel genes c z = .ok genes := by
  cases fuel <;> simp [fillLoop]

theorem perm_of_filled {L : Nat} {m genes : List Int} (hm : m.length = L)
    (hlen : genes.length = L) (hnz : ∀ j, j < L → genes.getD j 0 ≠ 0)
    (hinj : ∀ a b, a < L → b < L → genes.getD a 0 = genes.getD b 0 →
      genes.getD a 0 ≠ 0 → a = b)
    (hvals : ∀ a, a < L → genes.getD a 0 ≠ 0 → genes.getD a 0 ∈ m) : genes.Perm m := by
  have hnd : genes.Nodup := by
    rw [List.nodup_iff_injective_get]
    intro a b hab
    apply Fin.ext
    have ha := a.2
    have hb := b.2
    apply hinj a b (by omega) (by omega) _ (hnz a (by omega))
    rw [List.getD_eq_getElem genes 0 a.2, List.getD_eq_getElem genes 0 b.2]
    exact hab
  have hsub : genes ⊆ m := by
    intro x hx
    obtain ⟨a, ha, rfl⟩ := List.getElem_of_mem hx
    have := hvals a (by omega) (hnz a (by omega))
    rwa [List.getD_eq_getElem genes 0 ha] at this
  exact (List.subperm_of_subset hnd hsub).perm_of_length_le (by omega)

/-- For a length `L ≥ 2` whose product with `30` fits an `int`, and parents
that are tours, `create_ChildV2` returns a child of `L` genes when the fill
loop is given `L - 1` iterations; for `L ≥ 4` the child is a tour. -/
theorem create_ChildV2_ok {F : Type} {L : Nat} (h2 : 2 ≤ L) (hov : L * 30 ≤ INT_MAX) (r : Nat)
    {p m : Chromosome F} (Chro : Chromosome F) (hp : IsTour L p.genes)
    (hm : IsTour L m.genes) :
    ∃ genes, (∀ fuel, L - 1 ≤ fuel →
        create_ChildV2 L fuel r p m Chro = .ok { Chro with genes := genes }) ∧
      genes.length = L ∧ (4 ≤ L → IsTour L genes) := by
  have hL : 0 < L := by omega
  have hpl := isTour_length hp
  have hml := isTour_length hm
  have hmnd := isTour_nodup hm
  have hmnz : ∀ x ∈ m.genes, x ≠ 0 := fun x hx => isTour_ne_zero hm hx
  have hrand : getRandomNumber L r = .ok (r % L) := by
    unfold getRandomNumber modInt
    rw [if_neg (by omega)]
  have hmul : mulInt L 30 = .ok (L * 30) := by
    unfold mulInt
    rw [if_pos hov]
  obtain ⟨genes0, hcopy, hlen0, hin0, hout0⟩ :=
    copyLoop_range hL hpl (L * 30 / 100) (r % L % L) (List.replicate L (0 : Int)) 1
      (by simp)
  have hnL : r % L % L < L := Nat.mod_lt _ hL
  have hseg : L * 30 / 100 < L := by omega
  -- the position `z` and the block of empty positions after it
  obtain ⟨z, hz⟩ : ∃ z, z = if L * 30 / 100 = 0 then 1 else (r % L % L + (L * 30 / 100 - 1)) % L :=
    ⟨_, rfl⟩
  rw [← hz] at hcopy
  have hzL : z < L := by
    rw [hz]
    split
    · omega
    · exact Nat.mod_lt _ hL
  have hpos : ∀ k, ((z + 1) % L + k) % L = (z + (k + 1)) % L := by
    intro k
    rw [Nat.mod_add_mod]
    congr 1
    omega
  have hseg_pos : ∀ k, 0 < L * 30 / 100 →
      ((z + 1) % L + k) % L = (r % L % L + (L * 30 / 100 + k)) % L := by
    intro k hs
    rw [hpos, hz, if_neg (by omega), Nat.mod_add_mod]
    congr 1
    omega
  have hzero : ∀ k, k < L - 1 - (L * 30 / 100 - 1) →
      genes0.getD (((z + 1) % L + k) % L) 0 = 0 := by
    intro k hk
    rw [hout0, getD_replicate_zero]
    rintro ⟨t, ht, he⟩
    rw [hseg_pos k (by omega)] at he
    have := add_mod_inj (by omega) (by omega) he
    omega
  have hval0 : ∀ j, j < L → genes0.getD j 0 ≠ 0 →
      (∃ t, t < L * 30 / 100 ∧ (r % L % L + t) % L = j) ∧ genes0.getD j 0 = p.genes.getD j 0 := by
    intro j _ hne
    by_cases hex : ∃ t, t < L * 30 / 100 ∧ (r % L % L + t) % L = j
    · exact ⟨hex, hin0 j hex⟩
    · rw [hout0 j hex, getD_replicate_zero] at hne
      exact absurd rfl hne
  have hmem_pm : ∀ x, x ∈ p.genes → x ∈ m.genes := fun x hx =>
    (isTour_mem hm x).2 ((isTour_mem hp x).1 hx)
  obtain ⟨genes', c', hrun, hlen', hkeep, hblock, hinj', hvals'⟩ :=
    fillLoop_block hml hmnd hmnz z (L * 30 / 100 - 1) (L - 1 - (L * 30 / 100 - 1)) genes0 0
      ((z + 1) % L) hlen0 (Nat.mod_lt _ hL) (by omega)
      (by
        rw [Nat.mod_add_mod, show z + 1 + (L - 1 - (L * 30 / 100 - 1) + (L * 30 / 100 - 1))
          = z + L by omega, Nat.add_mod_right, Nat.mod_eq_of_lt hzL])
      (by omega) (fun a ha => by omega) hzero
      (by
        intro a b ha hb hab hne
        obtain ⟨-, ea⟩ := hval0 a ha hne
        obtain ⟨-, eb⟩ := hval0 b hb (hab ▸ hne)
        rw [ea, eb] at hab
        exact getD_inj_of_nodup (isTour_nodup hp) (by omega) (by omega) hab)
      (by
        intro a ha hne
        obtain ⟨-, ea⟩ := hval0 a ha hne
        rw [ea]
        exact hmem_pm _ (getD_mem (by omega)))
  have hcreate : ∀ fuel, create_ChildV2 L fuel r p m Chro
      = match fillLoop L m.genes z fuel genes0 0 ((z + 1) % L) with
        | .error e => .error e
        | .ok genes => .ok { Chro with genes := genes } := by
    intro fuel
    unfold create_ChildV2
    rw [hrand]
    simp only
    rw [hmul]
    simp only [hcopy]
  by_cases hs : L * 30 / 100 = 0
  · refine ⟨genes', ?_, hlen', fun h4 => by omega⟩
    intro fuel hfuel
    have hend : ((z + 1) % L + (L - 1 - (L * 30 / 100 - 1))) % L = z := by
      rw [hs, Nat.mod_add_mod, show z + 1 + (L - 1 - (0 - 1)) = z + L by omega,
        Nat.add_mod_right, Nat.mod_eq_of_lt hzL]
    rw [hcreate, hrun fuel (by omega), hend, fillLoop_done]
  · have hnz' : ∀ j, j < L → genes'.getD j 0 ≠ 0 := by
      intro j hj
      obtain ⟨k, hk, he⟩ := exists_offset (Nat.mod_lt (z + 1) hL) hj
      by_cases hkb : k < L - 1 - (L * 30 / 100 - 1)
      · rw [← he]
        exact hblock k hkb
      · have hseg_j : ∃ t, t < L * 30 / 100 ∧ (r % L % L + t) % L = j := by
          refine ⟨L * 30 / 100 + k - L, by omega, ?_⟩
          rw [← he, hseg_pos k (by omega)]
          rw [show r % L % L + (L * 30 / 100 + k)
            = r % L % L + (L * 30 / 100 + k - L) + L by omega, Nat.add_mod_right]
        have h0 : genes0.getD j 0 ≠ 0 := by
          rw [hin0 j hseg_j]
          exact isTour_ne_zero hp (getD_mem (by omega))
        rw [hkeep j hj h0]
        exact h0
    have hperm := perm_of_filled hml hlen' hnz' hinj' hvals'
    refine ⟨genes', ?_, hlen', fun _ => hperm.trans hm⟩
    intro fuel hfuel
    rw [hcreate, hrun fuel (by omega)]
    rw [@fillLoop_full L m.genes hml z genes' ?_ hnz' (L * 30 / 100 - 1)
      (fuel - (L - 1 - (L * 30 / 100 - 1))) c' _ (Nat.mod_lt _ hL) (by omega) ?_ (by omega)]
    · intro a ha
      have hmem : m.genes.getD a 0 ∈ genes' := hperm.mem_iff.2 (getD_mem (by omega))
      obtain ⟨j, hj, he⟩ := List.getElem_of_mem hmem
      exact ⟨j, by omega, by rw [List.getD_eq_getElem genes' 0 hj]; exact he⟩
    · rw [Nat.mod_add_mod, Nat.add_assoc, Nat.mod_add_mod,
        show z + 1 + (L - 1 - (L * 30 / 100 - 1) + (L * 30 / 100 - 1)) = z + L by omega,
        Nat.add_mod_right, Nat.mod_eq_of_lt hzL]

end GeneticAlgorithm

namespace GeneticAlgorithm

/-! ## Claims on `create_ChildV2` -/

theorem isTour_identity (L : Nat) : IsTour L (identityTour L).genes := List.Perm.refl _

/-- A product `chromo_length * 30` beyond `INT_MAX` ends the run before any
gene of the child is written. -/
theorem create_ChildV2_returns_inRange {F : Type} {chromo_length fuel r : Nat}
    {p m Chro child : Chromosome F} (hL : 0 < chromo_length)
    (h : create_ChildV2 chromo_length fuel r p m Chro = .ok child) :
    chromo_length * 30 ≤ INT_MAX := by
  by_contra hov
  have hrand : getRandomNumber chromo_length r = .ok (r % chromo_length) := by
    unfold getRandomNumber modInt
    rw [if_neg (by omega)]
  have hmul : mulInt chromo_length 30 = .error .signedOverflow := by
    unfold mulInt
    rw [if_neg hov]
  unfold create_ChildV2 at h
  rw [hrand] at h
  simp only at h
  rw [hmul] at h
  cases h

/-- C31: for every `chromo_length ≥ 4`, every value `rand()` returns (so
every segment start) and every pair of parents that are permutations of
`1..chromo_length`, every child that `create_ChildV2` returns, the fill loop
being given `chromo_length - 1` iterations, is a permutation of
`1..chromo_length`, and its fitness field is not touched. A child is
returned whenever `chromo_length * 30` fits an `int`, hence for every length
up to `1000`, the largest `read_instance_file` accepts. Returning a child
means that no read of `m.genes` was at an index beyond `chromo_length - 1`:
such a read ends the run of the model with `outOfBounds`. -/
theorem create_ChildV2_preserves_tours {F : Type} (chromo_length r fuel : Nat)
    (p m Chro : Chromosome F) (h4 : 4 ≤ chromo_length)
    (hp : IsTour chromo_length p.genes) (hm : IsTour chromo_length m.genes)
    (hfuel : chromo_length - 1 ≤ fuel) :
    (∀ child, create_ChildV2 chromo_length fuel r p m Chro = .ok child →
      IsTour chromo_length child.genes ∧ child.fitness = Chro.fitness) ∧
    (chromo_length * 30 ≤ INT_MAX →
      ∃ child, create_ChildV2 chromo_length fuel r p m Chro = .ok child) ∧
    (chromo_length ≤ 1000 → chromo_length * 30 ≤ INT_MAX) ∧
    m.genes.length = chromo_length := by
  refine ⟨?_, ?_, ?_, isTour_length hm⟩
  · intro child h
    have hov := create_ChildV2_returns_inRange (by omega) h
    obtain ⟨genes, hrun, -, htour⟩ := create_ChildV2_ok (by omega) hov r Chro hp hm
    rw [hrun fuel hfuel] at h
    simp only [Except.ok.injEq] at h
    subst h
    exact ⟨htour h4, rfl⟩
  · intro hov
    obtain ⟨genes, hrun, -, -⟩ := create_ChildV2_ok (by omega) hov r Chro hp hm
    exact ⟨_, hrun fuel hfuel⟩
  · intro h
    unfold INT_MAX
    omega

theorem create_ChildV2_preserves_tours_witness :
    ∃ child, create_ChildV2 4 3 3 (chromosomeOf [1, 2, 3, 4]) (chromosomeOf [2, 1, 4, 3])
        (chromosomeOf []) = .ok child ∧
      IsTour 4 child.genes ∧ child.fitness = (chromosomeOf []).fitness ∧
      (chromosomeOf [2, 1, 4, 3]).genes.length = 4 := by
  obtain ⟨htour, hret, -, hlen⟩ :=
    create_ChildV2_preserves_tours 4 3 3 (chromosomeOf [1, 2, 3, 4])
      (chromosomeOf [2, 1, 4, 3]) (chromosomeOf []) (by decide)
      (by unfold IsTour chromosomeOf; decide) (by unfold IsTour chromosomeOf; decide)
      (by decide)
  obtain ⟨child, hchild⟩ := hret (by decide)
  exact ⟨child, hchild, (htour child hchild).1, (htour child hchild).2, hlen⟩

end GeneticAlgorithm

namespace GeneticAlgorithm

/-! ## The cells selection, crossover and mutation write -/

theorem mulInt_ok {a b prod : Nat} (h : mulInt a b = .ok prod) :
    prod = a * b ∧ a * b ≤ INT_MAX := by
  unfold mulInt at h
  split at h
  · rename_i hle
    simp only [Except.ok.injEq] at h
    exact ⟨h.symm, hle⟩
  · cases h

theorem modInt_ok {a b k : Nat} (h : modInt a b = .ok k) : k = a % b ∧ 0 < b := by
  unfold modInt at h
  split at h
  · cases h
  · rename_i hb
    simp only [Except.ok.injEq] at h
    exact ⟨h.symm, Nat.pos_of_ne_zero hb⟩

theorem selection_fold_frame {F : Type} (popl_size n : Nat) (rand : Nat → Nat)
    (hn : n ≤ popl_size / 2) (h2 : 0 < popl_size / 2) (l : List Nat) :
    ∀ st : (Nat → Chromosome F) × Nat, (∀ i ∈ l, n + i < popl_size) →
      ∀ j, j < n ∨ popl_size ≤ j →
        (l.foldl (fun st i =>
          (swap_chromosomes st.1 (n + i)
            (popl_size / 2 + (rand st.2 % popl_size) % (popl_size / 2)), st.2 + 1)) st).1 j
          = st.1 j := by
  induction l with
  | nil => intro st _ j _; rfl
  | cons i l ih =>
    intro st hl j hj
    rw [List.foldl_cons, ih _ (fun i' hi' => hl i' (List.mem_cons_of_mem _ hi')) j hj]
    simp only
    have h1 := hl i (List.mem_cons_self _ _)
    have h3 : (rand st.2 % popl_size) % (popl_size / 2) < popl_size / 2 := Nat.mod_lt _ h2
    rw [swap_chromosomes_apply, if_neg (by omega), if_neg (by omega)]

/-- The function `selection` returns, and changes no cell below
`40 * popl_size / 100` and none from `popl_size` on. -/
theorem selection_frame {F : Type} (popl_size : Nat) (rand : Nat → Nat) (k : Nat)
    (pop : Nat → Chromosome F) (h5 : 5 ≤ popl_size) (hov : 40 * popl_size ≤ INT_MAX) :
    ∃ st, selection popl_size rand k pop = .ok st ∧
      ∀ j, j < 40 * popl_size / 100 ∨ popl_size ≤ j → st.1 j = pop j := by
  have hmul : mulInt 40 popl_size = .ok (40 * popl_size) := by
    unfold mulInt
    rw [if_pos hov]
  unfold selection
  rw [hmul]
  refine ⟨_, rfl, ?_⟩
  intro j hj
  exact selection_fold_frame popl_size (40 * popl_size / 100) rand (by omega) (by omega) _
    (pop, k) (fun i hi => by have := List.mem_range.1 hi; omega) j hj

theorem mutationStep_frame {F : Type} (chromo_length popl_size : Nat) (rand : Nat → Nat)
    (st st' : (Nat → Chromosome F) × Nat)
    (h : mutationStep chromo_length popl_size rand st = .ok st') :
    (∀ j, j < 20 * popl_size / 100 ∨ popl_size ≤ j → st'.1 j = st.1 j) ∧
    ∀ j, (st'.1 j).genes.length = (st.1 j).genes.length := by
  unfold mutationStep at h
  split at h
  · cases h
  · split at h
    · cases h
    · split at h
      · cases h
      · split at h
        · cases h
        · rename_i prod hmul
          obtain ⟨hprod, -⟩ := mulInt_ok hmul
          split at h
          · cases h
          · rename_i k hmod
            obtain ⟨hk, hpos⟩ := modInt_ok hmod
            have hklt : k < popl_size - prod / 100 := by rw [hk]; exact Nat.mod_lt _ hpos
            simp only at h
            split at h
            · cases h
            · split at h
              · cases h
              · simp only [Except.ok.injEq] at h
                subst h
                subst hprod
                constructor
                · intro j hj
                  simp only
                  rw [Function.update_noteq (by omega)]
                · intro j
                  simp only
                  by_cases hj : j = 20 * popl_size / 100 + k
                  · subst hj
                    rw [Function.update_same]
                    simp
                  · rw [Function.update_noteq hj]

theorem mutationLoop_frame {F : Type} (chromo_length popl_size : Nat) (rand : Nat → Nat) :
    ∀ z (st st' : (Nat → Chromosome F) × Nat),
      mutationLoop chromo_length popl_size rand z st = .ok st' →
      ∀ j, j < 20 * popl_size / 100 ∨ popl_size ≤ j → st'.1 j = st.1 j := by
  intro z
  induction z with
  | zero =>
    intro st st' h j _
    simp only [mutationLoop, Except.ok.injEq] at h
    rw [h]
  | succ z ih =>
    intro st st' h j hj
    simp only [mutationLoop] at h
    split at h
    · cases h
    · rename_i st1 hstep
      rw [ih st1 st' h j hj, (mutationStep_frame _ _ _ _ _ hstep).1 j hj]

theorem mutationStep_returns {F : Type} (chromo_length popl_size : Nat) (rand : Nat → Nat)
    (st : (Nat → Chromosome F) × Nat) (hL : 1 ≤ chromo_length) (hp : 1 ≤ popl_size)
    (hov : 20 * popl_size ≤ INT_MAX) (hlen : ∀ j, chromo_length ≤ (st.1 j).genes.length) :
    ∃ st', mutationStep chromo_length popl_size rand st = .ok st' := by
  have hrand : ∀ r, getRandomNumber chromo_length r = .ok (r % chromo_length) := by
    intro r
    unfold getRandomNumber modInt
    rw [if_neg (by omega)]
  have hmul : mulInt 20 popl_size = .ok (20 * popl_size) := by
    unfold mulInt
    rw [if_pos hov]
  have hmod : ∀ g, modInt g (popl_size - 20 * popl_size / 100)
      = .ok (g % (popl_size - 20 * popl_size / 100)) := by
    intro g
    unfold modInt
    rw [if_neg (by omega)]
  have hget : ∀ j i, i < chromo_length → ∃ x, (st.1 j).genes[i]? = some x := by
    intro j i hi
    exact ⟨_, List.getElem?_eq_getElem (by have := hlen j; omega)⟩
  have hL' : 0 < chromo_length := hL
  obtain ⟨x1, h1⟩ := hget (20 * popl_size / 100 + rand (st.2 + 2) % chromo_length %
    (popl_size - 20 * popl_size / 100)) (rand (st.2 + 1) % chromo_length % chromo_length)
    (Nat.mod_lt _ hL')
  obtain ⟨x2, h2⟩ := hget (20 * popl_size / 100 + rand (st.2 + 2) % chromo_length %
    (popl_size - 20 * popl_size / 100)) (rand st.2 % chromo_length % chromo_length)
    (Nat.mod_lt _ hL')
  unfold mutationStep
  simp only [hrand, hmul, hmod, h1, h2]
  exact ⟨_, rfl⟩

theorem mutationLoop_returns {F : Type} (chromo_length popl_size : Nat) (rand : Nat → Nat)
    (hL : 1 ≤ chromo_length) (hp : 1 ≤ popl_size) (hov : 20 * popl_size ≤ INT_MAX) :
    ∀ z (st : (Nat → Chromosome F) × Nat), (∀ j, chromo_length ≤ (st.1 j).genes.length) →
      ∃ st', mutationLoop chromo_length popl_size rand z st = .ok st' := by
  intro z
  induction z with
  | zero => intro st _; exact ⟨st, rfl⟩
  | succ z ih =>
    intro st hlen
    obtain ⟨st1, h1⟩ := mutationStep_returns chromo_length popl_size rand st hL hp hov hlen
    obtain ⟨st2, h2⟩ := ih st1 (fun j => by
      rw [(mutationStep_frame _ _ _ _ _ h1).2 j]; exact hlen j)
    refine ⟨st2, ?_⟩
    simp only [mutationLoop, h1]
    exact h2

end GeneticAlgorithm

namespace GeneticAlgorithm

theorem percentage_of_difference_self {F : Type} (chromo_length : Nat) (c : Chromosome F)
    (hlen : chromo_length ≤ c.genes.length) :
    percentage_of_difference chromo_length c c = .ok 0 := by
  unfold percentage_of_difference
  rw [if_neg (by omega)]
  have hfold : ∀ (l : List Nat) (s : Rat),
      l.foldl (fun (sum : Rat) i =>
        if c.genes.getD i 0 ≠ c.genes.getD i 0 then sum + 1 else sum) s = s := by
    intro l
    induction l with
    | nil => intro s; rfl
    | cons i l ih => intro s; rw [List.foldl_cons, if_neg (fun h => h rfl), ih]
  simp only [hfold]
  simp

/-- The draw of the second parent ends as soon as `rand()` gives an index
other than `i`. -/
theorem drawPartner_ok {F : Type} (chromo_length popl_size : Nat) (rand : Nat → Nat)
    (pop : Nat → Chromosome F) (i : Nat) (hL : 1 ≤ chromo_length) (hi : i < popl_size / 2)
    (hlen : chromo_length ≤ (pop i).genes.length) :
    ∀ fuel k, (∃ t, t < fuel ∧ (rand (k + t) % chromo_length) % (popl_size / 2) ≠ i) →
      ∃ nb k', drawPartner chromo_length popl_size rand pop i fuel k = .ok (nb, k') ∧
        nb < popl_size / 2 := by
  have hrand : ∀ r, getRandomNumber chromo_length r = .ok (r % chromo_length) := by
    intro r
    unfold getRandomNumber modInt
    rw [if_neg (by omega)]
  intro fuel
  induction fuel with
  | zero => rintro k ⟨t, ht, -⟩; omega
  | succ fuel ih =>
    rintro k ⟨t, ht, hne⟩
    simp only [drawPartner, hrand]
    by_cases hnb : rand k % chromo_length % (popl_size / 2) = i
    · rw [if_pos hnb, hnb, percentage_of_difference_self chromo_length (pop i) hlen]
      simp only
      rw [if_pos (by norm_num)]
      apply ih (k + 1)
      cases t with
      | zero => exact absurd hnb hne
      | succ t => exact ⟨t, by omega, by rwa [show k + 1 + t = k + (t + 1) by omega]⟩
    · rw [if_neg hnb]
      exact ⟨_, _, rfl, Nat.mod_lt _ (by omega)⟩

theorem crossoverLoop_frame {F : Type} (chromo_length popl_size fuel : Nat)
    (rand : Nat → Nat) (l : List Nat) :
    ∀ st st' : (Nat → Chromosome F) × Nat, (∀ i ∈ l, i < popl_size / 2) →
      crossoverLoop chromo_length popl_size fuel rand l st = .ok st' →
      ∀ j, j < popl_size / 2 ∨ popl_size ≤ j → st'.1 j = st.1 j := by
  induction l with
  | nil =>
    intro st st' _ h j _
    simp only [crossoverLoop, Except.ok.injEq] at h
    rw [h]
  | cons i l ih =>
    intro st st' hl h j hj
    simp only [crossoverLoop] at h
    split at h
    · cases h
    · split at h
      · cases h
      · have hi := hl i (List.mem_cons_self _ _)
        rw [ih _ st' (fun i' hi' => hl i' (List.mem_cons_of_mem _ hi')) h j hj]
        simp only
        rw [Function.update_noteq (by omega)]

/-- The loop of `crossoverV2` returns when the parents are tours, the loops
have budget enough and `rand()` eventually gives every index a partner. -/
theorem crossoverLoop_returns {F : Type} (chromo_length popl_size fuel : Nat)
    (rand : Nat → Nat) (h2 : 2 ≤ chromo_length) (hov : chromo_length * 30 ≤ INT_MAX)
    (hfuel : chromo_length - 1 ≤ fuel)
    (hrand : ∀ k i, i < popl_size / 2 →
      ∃ t, t < fuel ∧ (rand (k + t) % chromo_length) % (popl_size / 2) ≠ i)
    (l : List Nat) :
    ∀ st : (Nat → Chromosome F) × Nat, (∀ i ∈ l, i < popl_size / 2) →
      (∀ j, j < popl_size / 2 → IsTour chromo_length (st.1 j).genes) →
      ∃ st', crossoverLoop chromo_length popl_size fuel rand l st = .ok st' := by
  induction l with
  | nil => intro st _ _; exact ⟨st, rfl⟩
  | cons i l ih =>
    intro st hl htour
    have hi := hl i (List.mem_cons_self _ _)
    obtain ⟨nb, k', hdraw, hnb⟩ := drawPartner_ok chromo_length popl_size rand st.1 i
      (by omega) hi (by rw [isTour_length (htour i hi)]) fuel st.2 (hrand st.2 i hi)
    obtain ⟨genes, hchild, -, -⟩ := create_ChildV2_ok h2 hov (rand k')
      (st.1 (popl_size / 2 + i)) (htour i hi) (htour nb hnb)
    obtain ⟨st', hst'⟩ := ih
      (Function.update st.1 (popl_size / 2 + i)
        { st.1 (popl_size / 2 + i) with genes := genes }, k' + 1)
      (fun i' hi' => hl i' (List.mem_cons_of_mem _ hi'))
      (fun j hj => by
        simp only
        rw [Function.update_noteq (by omega)]
        exact htour j hj)
    refine ⟨st', ?_⟩
    simp only [crossoverLoop, hdraw, hchild fuel hfuel]
    exact hst'

end GeneticAlgorithm

namespace GeneticAlgorithm

/-! ## Elitism -/

theorem selection_returns_frame {F : Type} (popl_size : Nat) (rand : Nat → Nat) (k : Nat)
    (pop : Nat → Chromosome F) (h5 : 5 ≤ popl_size) (st : (Nat → Chromosome F) × Nat)
    (h : selection popl_size rand k pop = .ok st) :
    ∀ j, j < 40 * popl_size / 100 ∨ popl_size ≤ j → st.1 j = pop j := by
  have hov : 40 * popl_size ≤ INT_MAX := by
    unfold selection at h
    split at h
    · cases h
    · rename_i prod hmul
      exact (mulInt_ok hmul).2
  obtain ⟨st', hst', hframe⟩ := selection_frame popl_size rand k pop h5 hov
  rw [hst'] at h
  simp only [Except.ok.injEq] at h
  subst h
  exact hframe

/-- C34: for every `popl_size ≥ 5` and every stream of `rand()` values, the
three index bounds are positive, so cell `0` lies below each of them; every
run of `selection` that returns changes no cell outside
`[40 * popl_size / 100, popl_size)`; every run of `crossoverV2` that returns
changes no cell outside `[popl_size / 2, popl_size)`; every run of
`mutation` that returns changes no cell outside `[20 * popl_size / 100,
popl_size)`. `selection` returns whenever `40 * popl_size` fits an `int`,
hence for every size up to `200`, the largest `main` passes to
`init_population`. `crossoverV2` returns when `2 ≤ chromo_length`,
`chromo_length * 30 ≤ INT_MAX`, the parents are tours, the loops have a
budget of `chromo_length - 1` iterations and `rand()` gives each index a
partner within the budget; `mutation` returns when `chromo_length ≥ 1`,
`20 * popl_size` fits an `int` and every gene array has `chromo_length`
elements. -/
theorem genetic_operators_keep_elite {F : Type} (chromo_length popl_size fuel : Nat)
    (rand : Nat → Nat) (k : Nat) (pop : Nat → Chromosome F) (h5 : 5 ≤ popl_size) :
    (0 < 40 * popl_size / 100 ∧ 0 < popl_size / 2 ∧ 0 < 20 * popl_size / 100) ∧
    (∀ st, selection popl_size rand k pop = .ok st →
      ∀ j, j < 40 * popl_size / 100 ∨ popl_size ≤ j → st.1 j = pop j) ∧
    (∀ st, crossoverV2 chromo_length popl_size fuel rand k pop = .ok st →
      ∀ j, j < popl_size / 2 ∨ popl_size ≤ j → st.1 j = pop j) ∧
    (∀ st, mutation chromo_length popl_size rand k pop = .ok st →
      ∀ j, j < 20 * popl_size / 100 ∨ popl_size ≤ j → st.1 j = pop j) ∧
    (popl_size ≤ 200 → 40 * popl_size ≤ INT_MAX) ∧
    (40 * popl_size ≤ INT_MAX → ∃ st, selection popl_size rand k pop = .ok st) ∧
    (2 ≤ chromo_length → chromo_length * 30 ≤ INT_MAX → chromo_length - 1 ≤ fuel →
      (∀ j, j < popl_size / 2 → IsTour chromo_length (pop j).genes) →
      (∀ k' i, i < popl_size / 2 →
        ∃ t, t < fuel ∧ (rand (k' + t) % chromo_length) % (popl_size / 2) ≠ i) →
      ∃ st, crossoverV2 chromo_length popl_size fuel rand k pop = .ok st) ∧
    (1 ≤ chromo_length → 20 * popl_size ≤ INT_MAX →
      (∀ j, chromo_length ≤ (pop j).genes.length) →
      ∃ st, mutation chromo_length popl_size rand k pop = .ok st) := by
  refine ⟨⟨by omega, by omega, by omega⟩,
    selection_returns_frame popl_size rand k pop h5, ?_, ?_, ?_, ?_, ?_, ?_⟩
  · intro st h j hj
    exact crossoverLoop_frame chromo_length popl_size fuel rand _ (pop, k) st
      (fun i hi => List.mem_range.1 hi) h j hj
  · intro st h j hj
    exact mutationLoop_frame chromo_length popl_size rand 5 (pop, k) st h j hj
  · intro h
    unfold INT_MAX
    omega
  · intro hov
    obtain ⟨st, hst, -⟩ := selection_frame popl_size rand k pop h5 hov
    exact ⟨st, hst⟩
  · intro h2 hovL hfuel htour hrand
    exact crossoverLoop_returns chromo_length popl_size fuel rand h2 hovL hfuel hrand _
      (pop, k) (fun i hi => List.mem_range.1 hi) htour
  · intro hL hov hlen
    exact mutationLoop_returns chromo_length popl_size rand hL (by omega) hov 5 (pop, k) hlen

theorem genetic_operators_keep_elite_witness :
    (∃ st, selection 50 countingRand 0 uniformPopulation = .ok st ∧
      st.1 0 = uniformPopulation 0) ∧
    (∃ st, crossoverV2 4 50 3 countingRand 0 uniformPopulation = .ok st ∧
      st.1 0 = uniformPopulation 0) ∧
    (∃ st, mutation 4 50 countingRand 0 uniformPopulation = .ok st ∧
      st.1 0 = uniformPopulation 0) := by
  obtain ⟨-, f1, f2, f3, -, r1, r2, r3⟩ :=
    genetic_operators_keep_elite 4 50 3 countingRand 0 uniformPopulation (by decide)
  refine ⟨?_, ?_, ?_⟩
  · obtain ⟨s1, hs1⟩ := r1 (by decide)
    exact ⟨s1, hs1, f1 s1 hs1 0 (Or.inl (by decide))⟩
  · obtain ⟨s2, hs2⟩ := r2 (by decide) (by decide) (by decide)
      (fun j _ => isTour_identity 4)
      (by
        intro k' i _
        by_cases h : (countingRand (k' + 0) % 4) % (50 / 2) = i
        · refine ⟨1, by decide, ?_⟩
          unfold countingRand at h ⊢
          omega
        · exact ⟨0, by decide, h⟩)
    exact ⟨s2, hs2, f2 s2 hs2 0 (Or.inl (by decide))⟩
  · obtain ⟨s3, hs3⟩ := r3 (by decide) (by decide) (fun j => by
      show 4 ≤ (identityTour 4).genes.length
      decide)
    exact ⟨s3, hs3, f3 s3 hs3 0 (Or.inl (by decide))⟩

end GeneticAlgorithm

namespace GeneticAlgorithm

/-! ## Termination of the fill loop -/

end GeneticAlgorithm
